import Mathlib

/-!
# Verification of the CGT deadlock-detection core

Shallow embedding of the repository's JavaScript core:

* `wfgDataStructures.js` (src/unnamed/part_002) — the three wait-for-graph
  representations (`AdjacencyListWFG`, `AdjacencyMatrixWFG`, `HashMapSetsWFG`);
* `deadlockDetection.js` — `detectDeadlock` (DFS), `detectDeadlockTarjan`,
  `selectVictim`;
* the single-file analyzer (src/unnamed/part_000) — `dfsDetectCycle`,
  `selectVictimFromCycle`, `computeConflictColorsByReachability`,
  `bfsVictimSelection`;
* `transactionManager.js` — the `TransactionManager` lock-state machine.

Modelling conventions, used throughout and noted again at each definition:

* Node/transaction/resource ids are `String`s, as in the source.
* JS objects and `Map`s used as string-keyed dictionaries are modelled as
  insertion-ordered association lists.  JS enumerates the string keys of an
  object that are not array indices in insertion order; every id used with
  these graphs has the shape `"T<n>"` / `"R<n>"` and is never an array index,
  so the insertion-ordered association list is the exact model.
* JS `Set`s are modelled as insertion-ordered duplicate-free lists (`Set`
  iteration order is insertion order).
* Timing (`performance.now`, `Date.now`), the derived performance metrics and
  the result fields that only carry them (`detectionTime`, `timestamp`,
  `avgTime`, `memoryUsage`, operation counters) are not modelled: they are
  wall-clock dependent and no claim concerns them.  Human-readable `message`
  strings in results are likewise dropped; only the `success` / `updated`
  flags that the claims talk about are kept.
-/

namespace CGT

/-! ## Association-list helpers (JS object / Map dictionaries) -/

/-- Is `k` a key of the dictionary? (JS `k in obj` / `map.has(k)`.) -/
def keyMem (g : List (String × List String)) (k : String) : Bool :=
  g.any (fun p => p.1 == k)

/-- `obj[k]`, defaulting to the empty array when absent. -/
def lookupD (g : List (String × List String)) (k : String) : List String :=
  ((g.find? (fun p => p.1 == k)).map Prod.snd).getD []

/-- Replace the value stored under key `k` by `f` of it (keys are unique in
every dictionary we build, so mapping over all entries is the JS update). -/
def updAt (g : List (String × List String)) (k : String)
    (f : List String → List String) : List (String × List String) :=
  g.map (fun p => if p.1 = k then (p.1, f p.2) else p)

/-! ## `AdjacencyListWFG` (wfgDataStructures.js, lines 100–199)

The JS class stores `this.adjacencyList = {}` mapping a node to the ordered
array of its direct successors. -/

structure AdjacencyListWFG where
  adjacencyList : List (String × List String)
deriving DecidableEq, Repr

namespace AdjacencyListWFG

/-- `new AdjacencyListWFG()` -/
def empty : AdjacencyListWFG := ⟨[]⟩

/-- `addEdge(from, to)`: ensure `from` has an entry, push `to` onto it when
not already present, then ensure `to` has an entry. -/
def addEdge (g : AdjacencyListWFG) (f t : String) : AdjacencyListWFG :=
  let l1 := if keyMem g.adjacencyList f then g.adjacencyList
            else g.adjacencyList ++ [(f, [])]
  let l2 := updAt l1 f (fun l => if t ∈ l then l else l ++ [t])
  let l3 := if keyMem l2 t then l2 else l2 ++ [(t, [])]
  ⟨l3⟩

/-- `removeEdge(from, to)`: filter `to` out of `from`'s array when the entry
exists (an empty JS array is truthy, so the guard is key presence). -/
def removeEdge (g : AdjacencyListWFG) (f t : String) : AdjacencyListWFG :=
  if keyMem g.adjacencyList f then
    ⟨updAt g.adjacencyList f (fun l => l.filter (fun x => x ≠ t))⟩
  else g

/-- `hasEdge(from, to)` -/
def hasEdge (g : AdjacencyListWFG) (f t : String) : Bool :=
  if keyMem g.adjacencyList f then (lookupD g.adjacencyList f).contains t
  else false

/-- `getNeighbors(node)`: the stored array, or `[]` when unknown. -/
def getNeighbors (g : AdjacencyListWFG) (n : String) : List String :=
  lookupD g.adjacencyList n

/-- `getAllEdges()` -/
def getAllEdges (g : AdjacencyListWFG) : List (String × String) :=
  g.adjacencyList.flatMap (fun p => p.2.map (fun t => (p.1, t)))

/-- `getNodes()` = `Object.keys(this.adjacencyList)` (insertion order). -/
def getNodes (g : AdjacencyListWFG) : List String :=
  g.adjacencyList.map Prod.fst

/-- `clear()` -/
def clear (_g : AdjacencyListWFG) : AdjacencyListWFG := ⟨[]⟩

end AdjacencyListWFG

/-! ## `AdjacencyMatrixWFG` (wfgDataStructures.js, lines 212–382)

The JS class keeps `this.nodes` (insertion-ordered array of ids),
`this.nodeIndexMap` (id ↦ position in `nodes`, maintained as the inverse of
`nodes` by `addNode` and `initializeMatrix`), and a square 0/1 matrix indexed
by those positions.  We translate the matrix through the `nodes[i] ↦ i`
bijection into a name-indexed boolean cell function: `cell a b = true` is
`matrix[nodeIndexMap[a]][nodeIndexMap[b]] === 1`.  `getNeighbors` scans the
row left to right, i.e. emits targets in node-insertion order, which is
exactly `nodes.filter`.  Rows and columns grow with `addNode` holding zeros,
which the total function models by being `false` off the recorded edges. -/

structure AdjacencyMatrixWFG where
  nodes : List String
  cell : String → String → Bool

namespace AdjacencyMatrixWFG

/-- `new AdjacencyMatrixWFG([])` (empty constructor as used by the factory
for a fresh comparison run). -/
def empty : AdjacencyMatrixWFG := ⟨[], fun _ _ => false⟩

/-- `addNode(nodeId)`: append when unknown; the fresh row/column are zeros. -/
def addNode (g : AdjacencyMatrixWFG) (n : String) : AdjacencyMatrixWFG :=
  if n ∈ g.nodes then g else { g with nodes := g.nodes ++ [n] }

/-- `addEdge(from, to)`: ensure both nodes exist, set the cell to 1. -/
def addEdge (g : AdjacencyMatrixWFG) (f t : String) : AdjacencyMatrixWFG :=
  let g1 := addNode g f
  let g2 := addNode g1 t
  { g2 with cell := fun a b => if a = f ∧ b = t then true else g2.cell a b }

/-- `removeEdge(from, to)`: clear the cell; no-op when either id is unknown. -/
def removeEdge (g : AdjacencyMatrixWFG) (f t : String) : AdjacencyMatrixWFG :=
  if f ∈ g.nodes ∧ t ∈ g.nodes then
    { g with cell := fun a b => if a = f ∧ b = t then false else g.cell a b }
  else g

/-- `hasEdge(from, to)` -/
def hasEdge (g : AdjacencyMatrixWFG) (f t : String) : Bool :=
  if f ∈ g.nodes ∧ t ∈ g.nodes then g.cell f t else false

/-- `getNeighbors(node)`: scan the node's row in index (= node-insertion)
order. -/
def getNeighbors (g : AdjacencyMatrixWFG) (n : String) : List String :=
  if n ∈ g.nodes then g.nodes.filter (fun m => g.cell n m) else []

/-- `getNodes()` = `[...this.nodes]`. -/
def getNodes (g : AdjacencyMatrixWFG) : List String := g.nodes

/-- `clear()` calls the matrix re-initialiser (source name `initializeMatrix`),
which rebuilds a zero matrix of the CURRENT size and keeps `this.nodes` and
the index map: the node set survives a clear. -/
def clear (g : AdjacencyMatrixWFG) : AdjacencyMatrixWFG :=
  { g with cell := fun _ _ => false }

end AdjacencyMatrixWFG

/-! ## `HashMapSetsWFG` (wfgDataStructures.js, lines 395–500)

`this.adjacencyMap = new Map()` maps a node to a `Set` of successors; `Map`
and `Set` iterate in insertion order. -/

structure HashMapSetsWFG where
  adjacencyMap : List (String × List String)
deriving DecidableEq, Repr

namespace HashMapSetsWFG

/-- `new HashMapSetsWFG()` -/
def empty : HashMapSetsWFG := ⟨[]⟩

/-- `addEdge(from, to)`: ensure `from`'s set, `add(to)` (a `Set.add` of a
present element leaves the set unchanged), ensure `to`'s set. -/
def addEdge (g : HashMapSetsWFG) (f t : String) : HashMapSetsWFG :=
  let l1 := if keyMem g.adjacencyMap f then g.adjacencyMap
            else g.adjacencyMap ++ [(f, [])]
  let l2 := updAt l1 f (fun l => if t ∈ l then l else l ++ [t])
  let l3 := if keyMem l2 t then l2 else l2 ++ [(t, [])]
  ⟨l3⟩

/-- `removeEdge(from, to)`: `Set.delete` keeps the remaining insertion order. -/
def removeEdge (g : HashMapSetsWFG) (f t : String) : HashMapSetsWFG :=
  if keyMem g.adjacencyMap f then
    ⟨updAt g.adjacencyMap f (fun l => l.filter (fun x => x ≠ t))⟩
  else g

/-- `hasEdge(from, to)` -/
def hasEdge (g : HashMapSetsWFG) (f t : String) : Bool :=
  keyMem g.adjacencyMap f && (lookupD g.adjacencyMap f).contains t

/-- `getNeighbors(node)` = `Array.from(set)` (insertion order), `[]` when
unknown. -/
def getNeighbors (g : HashMapSetsWFG) (n : String) : List String :=
  if keyMem g.adjacencyMap n then lookupD g.adjacencyMap n else []

/-- `getNodes()` = `Array.from(map.keys())`. -/
def getNodes (g : HashMapSetsWFG) : List String :=
  g.adjacencyMap.map Prod.fst

/-- `clear()` -/
def clear (_g : HashMapSetsWFG) : HashMapSetsWFG := ⟨[]⟩

end HashMapSetsWFG

/-! ## Common operation sequences (claim C3)

The capability set shared by all three part_002 classes is
`addEdge`/`removeEdge`/`hasEdge`/`getNeighbors`/`getAllEdges`/`getNodes`/
`clear`; only `AdjacencyMatrixWFG` has `addNode`.  A differential run applies
one operation list to all three. -/

inductive WfgOp where
  | addE (f t : String)
  | removeE (f t : String)
  | clearOp
deriving DecidableEq, Repr

def runList (g : AdjacencyListWFG) : WfgOp → AdjacencyListWFG
  | .addE f t => g.addEdge f t
  | .removeE f t => g.removeEdge f t
  | .clearOp => g.clear

def runMatrix (g : AdjacencyMatrixWFG) : WfgOp → AdjacencyMatrixWFG
  | .addE f t => g.addEdge f t
  | .removeE f t => g.removeEdge f t
  | .clearOp => g.clear

def runHash (g : HashMapSetsWFG) : WfgOp → HashMapSetsWFG
  | .addE f t => g.addEdge f t
  | .removeE f t => g.removeEdge f t
  | .clearOp => g.clear

def execList (ops : List WfgOp) : AdjacencyListWFG :=
  ops.foldl runList AdjacencyListWFG.empty

def execMatrix (ops : List WfgOp) : AdjacencyMatrixWFG :=
  ops.foldl runMatrix AdjacencyMatrixWFG.empty

def execHash (ops : List WfgOp) : HashMapSetsWFG :=
  ops.foldl runHash HashMapSetsWFG.empty

/-! ### Dictionary lemmas -/

theorem keyMem_iff {g : List (String × List String)} {k : String} :
    keyMem g k = true ↔ k ∈ g.map Prod.fst := by
  simp [keyMem, List.any_eq_true, List.mem_map]

theorem lookupD_cons (p : String × List String) (g : List (String × List String))
    (k : String) :
    lookupD (p :: g) k = if p.1 = k then p.2 else lookupD g k := by
  by_cases h : p.1 = k
  · simp [lookupD, List.find?_cons, h]
  · simp [lookupD, List.find?_cons, h]

theorem keyMem_cons (p : String × List String) (g : List (String × List String))
    (k : String) :
    keyMem (p :: g) k = (p.1 == k || keyMem g k) := by
  simp [keyMem]

theorem lookupD_eq_nil_of_not_key {g : List (String × List String)} {k : String}
    (h : ¬ keyMem g k = true) : lookupD g k = [] := by
  induction g with
  | nil => rfl
  | cons p g ih =>
    rw [lookupD_cons]
    rw [keyMem_cons] at h
    by_cases hp : p.1 = k
    · simp [hp] at h
    · simp only [hp, if_false]
      exact ih (by simpa [hp] using h)

theorem mem_lookupD {g : List (String × List String)} {k x : String}
    (hx : x ∈ lookupD g k) : ∃ p ∈ g, p.1 = k ∧ x ∈ p.2 := by
  induction g with
  | nil => simp [lookupD] at hx
  | cons p g ih =>
    rw [lookupD_cons] at hx
    by_cases hp : p.1 = k
    · simp only [hp, if_true] at hx
      exact ⟨p, List.mem_cons_self .., hp, hx⟩
    · simp only [hp, if_false] at hx
      obtain ⟨q, hq, h1, h2⟩ := ih hx
      exact ⟨q, List.mem_cons_of_mem _ hq, h1, h2⟩

theorem lookupD_append_sing (g : List (String × List String)) (k x : String)
    (v : List String) :
    lookupD (g ++ [(k, v)]) x =
      if keyMem g x then lookupD g x else if k = x then v else [] := by
  induction g with
  | nil => by_cases hk : k = x <;> simp [lookupD_cons, keyMem, lookupD, hk]
  | cons p g ih =>
    rw [List.cons_append, lookupD_cons, lookupD_cons, keyMem_cons, ih]
    by_cases hp : p.1 = x <;> simp [hp]

theorem keyMem_append_sing (g : List (String × List String)) (k x : String)
    (v : List String) :
    keyMem (g ++ [(k, v)]) x = (keyMem g x || k == x) := by
  induction g with
  | nil => simp [keyMem]
  | cons p g ih =>
    rw [List.cons_append, keyMem_cons, keyMem_cons, ih, Bool.or_assoc]

theorem updAt_map_fst (g : List (String × List String)) (k : String)
    (f : List String → List String) :
    (updAt g k f).map Prod.fst = g.map Prod.fst := by
  unfold updAt
  rw [List.map_map]
  apply List.map_congr_left
  intro p _
  by_cases hp : p.1 = k <;> simp [hp]

theorem keyMem_updAt (g : List (String × List String)) (k x : String)
    (f : List String → List String) :
    keyMem (updAt g k f) x = keyMem g x := by
  apply Bool.eq_iff_iff.mpr
  rw [keyMem_iff, keyMem_iff, updAt_map_fst]

theorem updAt_cons (p : String × List String) (g : List (String × List String))
    (k : String) (f : List String → List String) :
    updAt (p :: g) k f = (if p.1 = k then (p.1, f p.2) else p) :: updAt g k f := by
  unfold updAt
  rw [List.map_cons]

theorem lookupD_updAt (g : List (String × List String)) (k x : String)
    (f : List String → List String) :
    lookupD (updAt g k f) x =
      if x = k then
        (if keyMem g k then f (lookupD g k) else lookupD g k)
      else lookupD g x := by
  induction g with
  | nil => by_cases hx : x = k <;> simp [updAt, lookupD, keyMem, hx]
  | cons p g ih =>
    rw [updAt_cons]
    by_cases hp : p.1 = k
    · rw [if_pos hp, lookupD_cons]
      by_cases hx : x = k
      · subst hx
        simp [hp, keyMem_cons, lookupD_cons]
      · have hpx : ¬ p.1 = x := by rw [hp]; exact fun h => hx h.symm
        simp [hpx, hx, ih, lookupD_cons]
    · rw [if_neg hp, lookupD_cons]
      by_cases hpx : p.1 = x
      · have hxk : ¬ x = k := fun h => hp (by rw [hpx, h])
        simp [hpx, hxk, lookupD_cons]
      · have hbk : (p.1 == k) = false := by simpa using hp
        simp [hpx, ih, lookupD_cons, keyMem_cons, hp, hbk]

/-- Lookups are untouched by the `addEdge` steps that just ensure a key maps
to the empty array. -/
theorem lookupD_ensure (g : List (String × List String)) (k x : String) :
    lookupD (if keyMem g k then g else g ++ [(k, [])]) x = lookupD g x := by
  by_cases h : keyMem g k
  · rw [if_pos h]
  · rw [if_neg h, lookupD_append_sing]
    by_cases hx : keyMem g x
    · rw [if_pos hx]
    · rw [if_neg hx, lookupD_eq_nil_of_not_key hx]
      by_cases hk : k = x <;> simp [hk]

theorem keyMem_ensure (g : List (String × List String)) (k x : String) :
    keyMem (if keyMem g k then g else g ++ [(k, [])]) x =
      (keyMem g x || k == x) := by
  by_cases h : keyMem g k
  · rw [if_pos h]
    by_cases hx : k = x
    · subst hx; simp [h]
    · simp [hx]
  · rw [if_neg h, keyMem_append_sing]

/-! ### The differential-simulation invariant (claim C3) -/

/-- Representation invariant of the adjacency-list graph: keys are unique,
each successor array is duplicate-free, and every stored successor is itself
a key (established by `addEdge` ensuring both endpoints). -/
structure ListRep (l : AdjacencyListWFG) : Prop where
  keys_nodup : (l.adjacencyList.map Prod.fst).Nodup
  vals_nodup : ∀ p ∈ l.adjacencyList, List.Nodup p.2
  vals_closed : ∀ p ∈ l.adjacencyList, ∀ t ∈ p.2, t ∈ l.adjacencyList.map Prod.fst

/-- Simulation relation between the list and matrix representations. -/
structure MatSim (l : AdjacencyListWFG) (m : AdjacencyMatrixWFG) : Prop where
  nodes_eq : m.nodes = l.adjacencyList.map Prod.fst
  cell_iff : ∀ f t, m.cell f t = true ↔ t ∈ lookupD l.adjacencyList f

theorem ListRep.emptyRep : ListRep AdjacencyListWFG.empty :=
  ⟨List.nodup_nil, by simp [AdjacencyListWFG.empty], by simp [AdjacencyListWFG.empty]⟩

theorem MatSim.emptySim : MatSim AdjacencyListWFG.empty AdjacencyMatrixWFG.empty := by
  refine ⟨rfl, fun f t => ?_⟩
  simp [AdjacencyMatrixWFG.empty, AdjacencyListWFG.empty, lookupD]

theorem addNode_nodes (m : AdjacencyMatrixWFG) (n : String) :
    (m.addNode n).nodes = if n ∈ m.nodes then m.nodes else m.nodes ++ [n] := by
  unfold AdjacencyMatrixWFG.addNode
  split <;> rfl

theorem addNode_cell (m : AdjacencyMatrixWFG) (n : String) :
    (m.addNode n).cell = m.cell := by
  unfold AdjacencyMatrixWFG.addNode
  split <;> rfl

theorem keys_nodup_app {g : List (String × List String)} {k : String}
    (v : List String) (h : (g.map Prod.fst).Nodup) (hk : ¬ keyMem g k = true) :
    ((g ++ [(k, v)]).map Prod.fst).Nodup := by
  rw [keyMem_iff] at hk
  rw [List.map_append]
  simp only [List.map_cons, List.map_nil]
  rw [List.nodup_append]
  exact ⟨h, List.nodup_singleton _, by simpa [List.disjoint_left] using fun hc => hk hc⟩

/-- Membership in the push-if-absent update of a successor array. -/
theorem mem_push_ite (v : List String) (t b : String) :
    b ∈ (if t ∈ v then v else v ++ [t]) ↔ b ∈ v ∨ b = t := by
  by_cases h : t ∈ v
  · simp only [h, if_true]
    exact ⟨Or.inl, fun hb => hb.elim id (fun he => he ▸ h)⟩
  · simp [h]

theorem ListRep.addERep {l : AdjacencyListWFG} (hr : ListRep l) (f t : String) :
    ListRep (l.addEdge f t) := by
  obtain ⟨hk, hv, hc⟩ := hr
  unfold AdjacencyListWFG.addEdge
  set A := l.adjacencyList with hA
  set l1 := if keyMem A f then A else A ++ [(f, [])] with hl1
  set l2 := updAt l1 f (fun l => if t ∈ l then l else l ++ [t]) with hl2
  have hk1 : (l1.map Prod.fst).Nodup := by
    rw [hl1]; split
    · exact hk
    · exact keys_nodup_app _ hk (by assumption)
  have hsub1 : ∀ x, x ∈ A.map Prod.fst → x ∈ l1.map Prod.fst := by
    intro x hx
    rw [hl1]; split
    · exact hx
    · rw [List.map_append]; exact List.mem_append_left _ hx
  have hf1 : f ∈ l1.map Prod.fst := by
    rw [hl1]; split
    · exact keyMem_iff.mp (by assumption)
    · rw [List.map_append]; simp
  have hk2 : (l2.map Prod.fst).Nodup := by rw [hl2, updAt_map_fst]; exact hk1
  have hmem1 : ∀ p, p ∈ l1 → p ∈ A ∨ p = (f, []) := by
    intro p hp
    rw [hl1] at hp
    split at hp
    · exact Or.inl hp
    · rcases List.mem_append.mp hp with h | h
      · exact Or.inl h
      · exact Or.inr (by simpa using h)
  have hv1 : ∀ p ∈ l1, List.Nodup p.2 := by
    intro p hp
    rcases hmem1 p hp with h | h
    · exact hv p h
    · rw [h]; exact List.nodup_nil
  have hc1 : ∀ p ∈ l1, ∀ x ∈ p.2, x ∈ l1.map Prod.fst := by
    intro p hp x hx
    rcases hmem1 p hp with h | h
    · exact hsub1 _ (hc p h x hx)
    · rw [h] at hx; simp at hx
  have hmem2 : ∀ p, p ∈ l2 →
      ∃ q ∈ l1, p = if q.1 = f then (q.1, if t ∈ q.2 then q.2 else q.2 ++ [t]) else q := by
    intro p hp
    rw [hl2] at hp
    obtain ⟨q, hq, he⟩ := List.mem_map.mp hp
    exact ⟨q, hq, he.symm⟩
  have hv2 : ∀ p ∈ l2, List.Nodup p.2 := by
    intro p hp
    obtain ⟨q, hq, he⟩ := hmem2 p hp
    by_cases hqf : q.1 = f
    · rw [he, if_pos hqf]
      by_cases ht : t ∈ q.2
      · simpa [ht] using hv1 q hq
      · simp only [ht, if_false]
        exact List.Nodup.append (hv1 q hq) (List.nodup_singleton _)
          (by intro a ha hb; rw [List.mem_singleton] at hb; exact ht (hb ▸ ha))
    · rw [he, if_neg hqf]; exact hv1 q hq
  have hsub2 : ∀ x, x ∈ l1.map Prod.fst → x ∈ l2.map Prod.fst := by
    intro x hx; rwa [hl2, updAt_map_fst]
  have hc2 : ∀ p ∈ l2, ∀ x ∈ p.2, x ∈ l2.map Prod.fst ∨ x = t := by
    intro p hp x hx
    obtain ⟨q, hq, he⟩ := hmem2 p hp
    by_cases hqf : q.1 = f
    · rw [he, if_pos hqf] at hx
      rcases (mem_push_ite q.2 t x).mp (by simpa using hx) with h | h
      · exact Or.inl (hsub2 _ (hc1 q hq x h))
      · exact Or.inr h
    · rw [he, if_neg hqf] at hx
      exact Or.inl (hsub2 _ (hc1 q hq x hx))
  constructor
  · show ((if keyMem l2 t then l2 else l2 ++ [(t, [])]).map Prod.fst).Nodup
    split
    · exact hk2
    · exact keys_nodup_app _ hk2 (by assumption)
  · intro p hp
    simp only at hp
    split at hp
    · exact hv2 p hp
    · rcases List.mem_append.mp hp with h | h
      · exact hv2 p h
      · have : p = (t, []) := by simpa using h
        rw [this]; exact List.nodup_nil
  · intro p hp x hx
    show x ∈ (if keyMem l2 t then l2 else l2 ++ [(t, [])]).map Prod.fst
    have hsub3 : ∀ y, y ∈ l2.map Prod.fst →
        y ∈ (if keyMem l2 t then l2 else l2 ++ [(t, [])]).map Prod.fst := by
      intro y hy
      split
      · exact hy
      · rw [List.map_append]; exact List.mem_append_left _ hy
    have ht3 : t ∈ (if keyMem l2 t then l2 else l2 ++ [(t, [])]).map Prod.fst := by
      split
      · exact keyMem_iff.mp (by assumption)
      · rw [List.map_append]; simp
    simp only at hp
    split at hp
    · rcases hc2 p hp x hx with h | h
      · exact hsub3 _ (by simpa using h)
      · rw [h]
        simpa using ht3
    · rcases List.mem_append.mp hp with h | h
      · rcases hc2 p h x hx with h' | h'
        · exact hsub3 _ (by simpa using h')
        · rw [h']
          simpa using ht3
      · have : p = (t, []) := by simpa using h
        rw [this] at hx; simp at hx

theorem ListRep.removeERep {l : AdjacencyListWFG} (hr : ListRep l) (f t : String) :
    ListRep (l.removeEdge f t) := by
  obtain ⟨hk, hv, hc⟩ := hr
  unfold AdjacencyListWFG.removeEdge
  split
  · constructor
    · rw [updAt_map_fst]; exact hk
    · intro p hp
      obtain ⟨q, hq, he⟩ := List.mem_map.mp hp
      by_cases hqf : q.1 = f
      · rw [← he, if_pos hqf]
        exact List.Nodup.filter _ (hv q hq)
      · rw [← he, if_neg hqf]; exact hv q hq
    · intro p hp x hx
      rw [updAt_map_fst]
      obtain ⟨q, hq, he⟩ := List.mem_map.mp hp
      by_cases hqf : q.1 = f
      · rw [← he, if_pos hqf] at hx
        exact hc q hq x (List.mem_of_mem_filter hx)
      · rw [← he, if_neg hqf] at hx
        exact hc q hq x hx
  · exact ⟨hk, hv, hc⟩

theorem MatSim.addESim {l : AdjacencyListWFG} {m : AdjacencyMatrixWFG}
    (sim : MatSim l m) (f t : String) :
    MatSim (l.addEdge f t) (m.addEdge f t) := by
  obtain ⟨hnodes, hcell⟩ := sim
  unfold AdjacencyListWFG.addEdge AdjacencyMatrixWFG.addEdge
  set A := l.adjacencyList with hA
  set l1 := if keyMem A f then A else A ++ [(f, [])] with hl1
  set l2 := updAt l1 f (fun l => if t ∈ l then l else l ++ [t]) with hl2
  have hkeys1 : (m.addNode f).nodes = l1.map Prod.fst := by
    rw [addNode_nodes, hnodes, hl1]
    by_cases hf : keyMem A f
    · rw [if_pos (keyMem_iff.mp hf), if_pos hf]
    · rw [if_neg (fun hc => hf (keyMem_iff.mpr hc)), if_neg hf, List.map_append]
      rfl
  have hkm2 : keyMem l2 t = keyMem l1 t := by rw [hl2, keyMem_updAt]
  have hkeys2 : (l2.map Prod.fst) = l1.map Prod.fst := by rw [hl2, updAt_map_fst]
  constructor
  · show ((m.addNode f).addNode t).nodes =
      (if keyMem l2 t then l2 else l2 ++ [(t, [])]).map Prod.fst
    rw [addNode_nodes, hkeys1]
    by_cases ht : keyMem l1 t
    · rw [if_pos (keyMem_iff.mp ht), if_pos (by rw [hkm2]; exact ht), hkeys2]
    · rw [if_neg (fun hc => ht (keyMem_iff.mpr hc)),
        if_neg (by rw [hkm2]; exact ht), List.map_append, hkeys2]
      rfl
  · intro a b
    show (if a = f ∧ b = t then true else ((m.addNode f).addNode t).cell a b) = true ↔
      b ∈ lookupD (if keyMem l2 t then l2 else l2 ++ [(t, [])]) a
    rw [addNode_cell, addNode_cell]
    have hrhs : lookupD (if keyMem l2 t then l2 else l2 ++ [(t, [])]) a
        = lookupD l2 a := lookupD_ensure l2 t a
    have hl1f : keyMem l1 f = true := by
      rw [hl1, keyMem_ensure]
      simp
    have hl1x : ∀ x, lookupD l1 x = lookupD A x := fun x => lookupD_ensure A f x
    rw [hrhs, hl2, lookupD_updAt, hl1f]
    by_cases haf : a = f
    · rw [if_pos haf, if_pos rfl, hl1x]
      rw [mem_push_ite]
      by_cases hbt : b = t
      · simp [haf, hbt]
      · simp only [haf, hbt, and_false, if_false]
        rw [hcell]
        simp [hbt]
    · rw [if_neg haf, hl1x]
      simp only [haf, false_and, if_false]
      exact hcell a b

theorem MatSim.removeESim {l : AdjacencyListWFG} {m : AdjacencyMatrixWFG}
    (hr : ListRep l) (sim : MatSim l m) (f t : String) :
    MatSim (l.removeEdge f t) (m.removeEdge f t) := by
  obtain ⟨hnodes, hcell⟩ := sim
  unfold AdjacencyListWFG.removeEdge AdjacencyMatrixWFG.removeEdge
  set A := l.adjacencyList with hA
  by_cases hf : keyMem A f
  · rw [if_pos hf]
    by_cases ht : keyMem A t
    · rw [if_pos ⟨hnodes.symm ▸ keyMem_iff.mp hf, hnodes.symm ▸ keyMem_iff.mp ht⟩]
      constructor
      · show m.nodes = (updAt A f _).map Prod.fst
        rw [updAt_map_fst]; exact hnodes
      · intro a b
        show (if a = f ∧ b = t then false else m.cell a b) = true ↔
          b ∈ lookupD (updAt A f (fun l => l.filter (fun x => x ≠ t))) a
        rw [lookupD_updAt]
        by_cases haf : a = f
        · rw [if_pos haf, if_pos hf]
          by_cases hbt : b = t
          · simp [haf, hbt, List.mem_filter]
          · simp only [haf, hbt, and_false, if_false]
            rw [hcell]
            simp [List.mem_filter, hbt]
        · rw [if_neg haf]
          simp only [haf, false_and, if_false]
          exact hcell a b
    · -- `t` is not a node: the matrix is untouched, and the list filter
      -- removes nothing because stored successors are always keys.
      rw [if_neg (fun hc => ht (keyMem_iff.mpr (hnodes ▸ hc.2)))]
      have hft : ∀ x, lookupD (updAt A f (fun l => l.filter (fun y => y ≠ t))) x
          = lookupD A x := by
        intro x
        rw [lookupD_updAt]
        by_cases hxf : x = f
        · rw [if_pos hxf, if_pos hf, hxf]
          have : ∀ y ∈ lookupD A f, y ≠ t := by
            intro y hy he
            obtain ⟨p, hp, _hp1, hp2⟩ := mem_lookupD hy
            exact ht (keyMem_iff.mpr (he ▸ hr.vals_closed p hp y hp2))
          rw [List.filter_eq_self.mpr (fun y hy => by simpa using this y hy)]
        · rw [if_neg hxf]
      constructor
      · show m.nodes = (updAt A f _).map Prod.fst
        rw [updAt_map_fst]; exact hnodes
      · intro a b
        rw [hft]
        exact hcell a b
  · rw [if_neg hf,
      if_neg (fun hc => hf (keyMem_iff.mpr (hnodes ▸ hc.1)))]
    exact ⟨hnodes, hcell⟩

/-- The `HashMapSetsWFG` operations are, step by step, the very same
dictionary transformations as the `AdjacencyListWFG` ones. -/
theorem hash_tracks_list (op : WfgOp) {l : AdjacencyListWFG} {h : HashMapSetsWFG}
    (e : h.adjacencyMap = l.adjacencyList) :
    (runHash h op).adjacencyMap = (runList l op).adjacencyList := by
  cases op with
  | addE f t =>
    simp only [runHash, runList, AdjacencyListWFG.addEdge, HashMapSetsWFG.addEdge, e]
  | removeE f t =>
    simp only [runHash, runList, AdjacencyListWFG.removeEdge,
      HashMapSetsWFG.removeEdge, e]
    split <;> first | rfl | exact e
  | clearOp => rfl

theorem hash_tracks_list_fold (ops : List WfgOp) :
    ∀ {l : AdjacencyListWFG} {h : HashMapSetsWFG},
      h.adjacencyMap = l.adjacencyList →
      (ops.foldl runHash h).adjacencyMap = (ops.foldl runList l).adjacencyList := by
  induction ops with
  | nil => intro l h e; exact e
  | cons op ops ih =>
    intro l h e
    exact ih (hash_tracks_list op e)

theorem sim_fold (ops : List WfgOp) (hops : WfgOp.clearOp ∉ ops) :
    ∀ {l : AdjacencyListWFG} {m : AdjacencyMatrixWFG},
      ListRep l → MatSim l m →
      ListRep (ops.foldl runList l) ∧
        MatSim (ops.foldl runList l) (ops.foldl runMatrix m) := by
  induction ops with
  | nil => intro l m hr sim; exact ⟨hr, sim⟩
  | cons op ops ih =>
    intro l m hr sim
    have hop : op ≠ WfgOp.clearOp := fun he => hops (he ▸ List.mem_cons_self ..)
    have hops' : WfgOp.clearOp ∉ ops := fun hin => hops (List.mem_cons_of_mem _ hin)
    cases op with
    | addE f t =>
      exact ih hops' (hr.addERep f t) (sim.addESim f t)
    | removeE f t =>
      exact ih hops' (hr.removeERep f t) (MatSim.removeESim hr sim f t)
    | clearOp => exact absurd rfl hop

theorem list_neighbors_nodup {l : AdjacencyListWFG} (hr : ListRep l) (n : String) :
    (l.getNeighbors n).Nodup := by
  unfold AdjacencyListWFG.getNeighbors
  by_cases h : keyMem l.adjacencyList n
  · unfold lookupD
    cases hfind : l.adjacencyList.find? (fun p => p.1 == n) with
    | none => simp
    | some p =>
      simpa using hr.vals_nodup p (List.mem_of_find?_eq_some hfind)
  · rw [lookupD_eq_nil_of_not_key h]
    exact List.nodup_nil

theorem matrix_neighbors_perm {l : AdjacencyListWFG} {m : AdjacencyMatrixWFG}
    (hr : ListRep l) (sim : MatSim l m) (n : String) :
    (m.getNeighbors n).Perm (l.getNeighbors n) := by
  unfold AdjacencyMatrixWFG.getNeighbors
  by_cases hn : n ∈ m.nodes
  · rw [if_pos hn]
    apply (List.perm_ext_iff_of_nodup (List.Nodup.filter _ ?nd) ?nd2).mpr
    case nd => rw [sim.nodes_eq]; exact hr.keys_nodup
    case nd2 => exact list_neighbors_nodup hr n
    intro x
    rw [List.mem_filter]
    unfold AdjacencyListWFG.getNeighbors
    constructor
    · rintro ⟨_, hcell⟩
      exact (sim.cell_iff n x).mp (by simpa using hcell)
    · intro hx
      refine ⟨?_, by simpa using (sim.cell_iff n x).mpr hx⟩
      obtain ⟨p, hp, _, hp2⟩ := mem_lookupD hx
      rw [sim.nodes_eq]
      exact hr.vals_closed p hp x hp2
  · rw [if_neg hn]
    unfold AdjacencyListWFG.getNeighbors
    rw [lookupD_eq_nil_of_not_key (fun hc =>
      hn (sim.nodes_eq ▸ keyMem_iff.mp hc))]

/-- Operation sequence refuting claim C3 on neighbor order: with edges added
in the order B→C, A→C, A→B, the matrix reports A's successors in node
insertion order `[B, C]` while the list (and hash map) report edge insertion
order `[C, B]`. -/
def c3ops1 : List WfgOp := [.addE "B" "C", .addE "A" "C", .addE "A" "B"]

/-- Operation sequence refuting claim C3 on `clear`: the matrix `clear()`
keeps the node set while the list and hash map drop it. -/
def c3ops2 : List WfgOp := [.addE "A" "B", .clearOp]

/-- C3, counterexample.  The claim asserts identical `getNodes()` results and
identical `getNeighbors()` sequences for every common operation sequence.
Both parts fail on the code: after `[addEdge(B,C), addEdge(A,C), addEdge(A,B)]`
the matrix orders A's neighbors `[B, C]` (row scan = node-insertion order)
against the list's `[C, B]` (push order); and after `[addEdge(A,B), clear()]`
the matrix still reports nodes `[A, B]` (its `clear` rebuilds the zero matrix
but keeps `this.nodes`) while the list reports `[]`. -/
theorem C3_counterexample :
    (execMatrix c3ops1).getNeighbors "A" ≠ (execList c3ops1).getNeighbors "A" ∧
      (execMatrix c3ops2).getNodes ≠ (execList c3ops2).getNodes := by
  constructor
  · intro h
    have h1 : (execMatrix c3ops1).getNeighbors "A" = ["B", "C"] := by decide
    have h2 : (execList c3ops1).getNeighbors "A" = ["C", "B"] := by decide
    rw [h1, h2] at h
    exact absurd h (by decide)
  · intro h
    have h1 : (execMatrix c3ops2).getNodes = ["A", "B"] := by decide
    have h2 : (execList c3ops2).getNodes = [] := by decide
    rw [h1, h2] at h
    exact absurd h (by decide)

/-- C3, amended.  For every sequence of operations from the capability set
implemented by all three part_002 representations, excluding `clear` (which
the counterexample shows diverging: the matrix keeps its node set), the three
report identical `getNodes()` results; the list and hash-map representations
report identical `getNeighbors()` sequences; and the matrix reports, for
every node, `getNeighbors()` with exactly the same elements, as a permutation
(ordered by node insertion instead of edge insertion, which the
counterexample shows can differ). -/
theorem C3_representations_agree (ops : List WfgOp) (hops : WfgOp.clearOp ∉ ops) :
    (execMatrix ops).getNodes = (execList ops).getNodes ∧
      (execHash ops).getNodes = (execList ops).getNodes ∧
      (∀ n, (execHash ops).getNeighbors n = (execList ops).getNeighbors n) ∧
      (∀ n, ((execMatrix ops).getNeighbors n).Perm ((execList ops).getNeighbors n)) := by
  have hhash : (execHash ops).adjacencyMap = (execList ops).adjacencyList :=
    hash_tracks_list_fold ops rfl
  obtain ⟨hr, sim⟩ := sim_fold ops hops ListRep.emptyRep MatSim.emptySim
  refine ⟨?_, ?_, ?_, ?_⟩
  · exact sim.nodes_eq
  · unfold HashMapSetsWFG.getNodes AdjacencyListWFG.getNodes
    rw [hhash]
  · intro n
    unfold HashMapSetsWFG.getNeighbors AdjacencyListWFG.getNeighbors
    rw [hhash]
    by_cases h : keyMem (execList ops).adjacencyList n
    · rw [if_pos h]
    · rw [if_neg h, lookupD_eq_nil_of_not_key h]
  · exact matrix_neighbors_perm hr sim

/-- Witness for C3's amended theorem at the concrete sequence `c3ops1`. -/
theorem C3_witness :
    WfgOp.clearOp ∉ c3ops1 ∧
      ((execMatrix c3ops1).getNeighbors "A").Perm ((execList c3ops1).getNeighbors "A") :=
  ⟨by decide, (C3_representations_agree c3ops1 (by decide)).2.2.2 "A"⟩

/-! ## `TransactionManager` (transactionManager.js)

The manager owns transactions, resources and a WFG created through
`createWFG(dataStructureType, nodes)`.  We instantiate it with the
`'adjacencyList'` structure — note that `createWFG('adjacencyList', nodes)`
calls `new AdjacencyListWFG()` and IGNORES the node list, so the manager's
graph starts with no entries.  Performance metrics (`updateMetrics`,
`this.metrics`) are timing-based bookkeeping no claim mentions and are not
modelled; result `message` strings are dropped, keeping the `success` /
`updated` flags. -/

inductive TxStatus where
  | active | waiting | blocked | aborted
deriving DecidableEq, Repr

structure Transaction where
  id : String
  status : TxStatus
  heldLocks : List String
  waitingFor : Option String
deriving DecidableEq, Repr

structure Resource where
  id : String
  lockedBy : Option String
  waitQueue : List String
deriving DecidableEq, Repr

structure TMState where
  transactions : List Transaction
  resources : List Resource
  wfg : AdjacencyListWFG
deriving DecidableEq, Repr

/-- `array.find(x => x.id === i)` returns the first match; later JS code
mutates that very object, which we model by updating the first matching
entry in place. -/
def updFirst {α : Type} (p : α → Bool) (f : α → α) : List α → List α
  | [] => []
  | x :: xs => if p x then f x :: xs else x :: updFirst p f xs

def findTx (s : TMState) (txId : String) : Option Transaction :=
  s.transactions.find? (fun tx => tx.id == txId)

def findRes (s : TMState) (resId : String) : Option Resource :=
  s.resources.find? (fun r => r.id == resId)

def updTx (s : TMState) (txId : String) (f : Transaction → Transaction) : TMState :=
  { s with transactions := updFirst (fun tx => tx.id == txId) f s.transactions }

def updRes (s : TMState) (resId : String) (f : Resource → Resource) : TMState :=
  { s with resources := updFirst (fun r => r.id == resId) f s.resources }

/-- `removeWaitEdges(txId)` iterates `getNeighbors(txId)` calling
`removeEdge(txId, n)`.  The JS iteration walks the array returned by
`getNeighbors` — the stored array — while each `removeEdge` REPLACES the
stored array by a freshly filtered one, so the loop sees exactly the
original neighbor list: a fold of `removeEdge` over the initial neighbors. -/
def removeWaitEdges (g : AdjacencyListWFG) (txId : String) : AdjacencyListWFG :=
  (g.getNeighbors txId).foldl (fun acc nb => acc.removeEdge txId nb) g

/-- `removeWaitEdgesForResource(resId)` — the source body is ONLY comments
("For simplicity, assume release removes relevant edges via holder change //
TODO: If needed, track edge reasons for more accurate removal"): a no-op. -/
def removeWaitEdgesForResource (s : TMState) (_resId : String) : TMState := s

/-- `{ success, updated }` as returned by `acquireLock`/`releaseLock`
(the human-readable `message` is dropped). -/
structure LockResult where
  success : Bool
  updated : Bool
deriving DecidableEq, Repr

/-- `acquireLock(txId, resId)` (transactionManager.js lines 76–125). -/
def acquireLock (s : TMState) (txId resId : String) : LockResult × TMState :=
  match findTx s txId, findRes s resId with
  | some tx, some res =>
    if tx.status ≠ .active ∧ tx.status ≠ .waiting then
      ({ success := false, updated := false }, s)
    else if resId ∈ tx.heldLocks then
      ({ success := true, updated := false }, s)
    else
      match res.lockedBy with
      | none =>
        -- resource free: grant
        let s1 := updRes s resId (fun r => { r with lockedBy := some txId })
        let s2 := updTx s1 txId (fun t =>
          { t with heldLocks := t.heldLocks ++ [resId],
                   status := .active, waitingFor := none })
        let s3 := { s2 with wfg := removeWaitEdges s2.wfg txId }
        ({ success := true, updated := true }, s3)
      | some holder =>
        -- resource held: enqueue (dedup), mark waiting, add WFG edge to holder
        let s1 := updRes s resId (fun r =>
          { r with waitQueue :=
              if txId ∈ r.waitQueue then r.waitQueue else r.waitQueue ++ [txId] })
        let s2 := updTx s1 txId (fun t =>
          { t with waitingFor := some resId, status := .waiting })
        let s3 := { s2 with wfg := s2.wfg.addEdge txId holder }
        ({ success := false, updated := true }, s3)
  | _, _ => ({ success := false, updated := false }, s)

/-- `releaseLock(txId, resId)` (transactionManager.js lines 133–181).
`res.waitQueue.shift()` happens before the `nextTx` lookup, so a dequeue
occurs even when the dequeued id names no transaction. -/
def releaseLock (s : TMState) (txId resId : String) : LockResult × TMState :=
  match findTx s txId, findRes s resId with
  | some _tx, some res =>
    if res.lockedBy ≠ some txId then
      ({ success := false, updated := false }, s)
    else
      let s1 := updRes s resId (fun r => { r with lockedBy := none })
      let s2 := updTx s1 txId (fun t =>
        { t with heldLocks := t.heldLocks.filter (fun i => i ≠ resId) })
      let s3 := removeWaitEdgesForResource s2 resId
      let s4 :=
        match res.waitQueue with
        | [] => s3
        | nextTxId :: restQueue =>
          let s5 := updRes s3 resId (fun r => { r with waitQueue := restQueue })
          match findTx s5 nextTxId with
          | none => s5
          | some _ =>
            let s6 := updRes s5 resId (fun r => { r with lockedBy := some nextTxId })
            let s7 := updTx s6 nextTxId (fun t =>
              { t with heldLocks := t.heldLocks ++ [resId],
                       status := .active, waitingFor := none })
            let s8 := { s7 with wfg := removeWaitEdges s7.wfg nextTxId }
            -- remaining queued waiters now wait for the new holder
            { s8 with wfg := restQueue.foldl (fun g w => g.addEdge w nextTxId) s8.wfg }
      ({ success := true, updated := true }, s4)
  | _, _ => ({ success := false, updated := false }, s)

/-- `abortTransaction(txId)` (transactionManager.js lines 200–227).
`tx.heldLocks.forEach` fixes its range when the loop starts; `releaseLock`
replaces `tx.heldLocks` by a fresh filtered array and promotions push onto
the replacement, so the loop walks exactly the captured original list. -/
def abortTransaction (s : TMState) (txId : String) : Bool × TMState :=
  match findTx s txId with
  | none => (false, s)
  | some tx =>
    let s1 := updTx s txId (fun t => { t with status := .aborted })
    let s2 := tx.heldLocks.foldl (fun st r => (releaseLock st txId r).2) s1
    let s3 := updTx s2 txId (fun t => { t with heldLocks := [] })
    let s4 := { s3 with resources := s3.resources.map (fun r =>
      { r with waitQueue := r.waitQueue.filter (fun i => i ≠ txId) }) }
    let s5 := updTx s4 txId (fun t => { t with waitingFor := none })
    let s6 := { s5 with wfg :=
      (s5.wfg.getNodes).foldl (fun g node => g.removeEdge node txId) s5.wfg }
    let s7 := { s6 with wfg := removeWaitEdges s6.wfg txId }
    (true, s7)

/-! ### Claim C1 — holder-pointer invariant (code bug)

Three active transactions, one resource; `T1` acquires `R1`, then `T2` and
`T3` block on it.  When `T1` releases, `T2` is promoted and re-pointed, but
`removeWaitEdgesForResource` — whose own doc comment says it removes the
edges pointing at the previous holder — has an empty body, so `T3`'s stale
edge `T3 → T1` survives next to the newly added `T3 → T2`. -/

def c1mk (i : String) : Transaction :=
  { id := i, status := .active, heldLocks := [], waitingFor := none }

def c1s0 : TMState :=
  { transactions := [c1mk "T1", c1mk "T2", c1mk "T3"],
    resources := [{ id := "R1", lockedBy := none, waitQueue := [] }],
    wfg := ⟨[]⟩ }

def c1s4 : TMState :=
  (releaseLock
    (acquireLock
      (acquireLock
        (acquireLock c1s0 "T1" "R1").2
        "T2" "R1").2
      "T3" "R1").2
    "T1" "R1").2

/-- C1: after `acquire(T1,R1); acquire(T2,R1); acquire(T3,R1);
release(T1,R1)` the transaction `T3` is waiting for `R1`, whose current
holder is `T2`, yet `T3` has TWO outgoing WFG edges — `["T1", "T2"]` — the
first of which points at the stale prior holder `T1`.  This violates the
claimed invariant (exactly one outgoing edge, to the current holder): the
release path's `removeWaitEdgesForResource` is an unimplemented stub, so
queue promotion only adds the new edge and never removes the stale one. -/
theorem C1_stale_holder_edge :
    (findRes c1s4 "R1").map Resource.lockedBy = some (some "T2") ∧
      findTx c1s4 "T3" = some
        { id := "T3", status := .waiting, heldLocks := [], waitingFor := some "R1" } ∧
      c1s4.wfg.getNeighbors "T3" = ["T1", "T2"] := by decide

/-! ### Claim C2 — error atomicity (corrected)

The `InvalidReference`/`InvalidState` paths return
`{success: false, updated: false}` before any mutation, and a failing
`abortTransaction` returns before any mutation; but the BLOCKING acquire
path also reports `success: false` (with `updated: true`) and mutates the
queue, the transaction and the WFG, so "every success=false result leaves
state unchanged" is false as stated. -/

theorem acquire_fail_unchanged (s : TMState) (txId resId : String) :
    (acquireLock s txId resId).1.success = false ∧
      (acquireLock s txId resId).1.updated = false →
    (acquireLock s txId resId).2 = s := by
  unfold acquireLock
  cases hft : findTx s txId with
  | none => intro _; rfl
  | some tx =>
    cases hfr : findRes s resId with
    | none => intro _; rfl
    | some res =>
      simp only
      split
      · intro _; rfl
      · split
        · rintro ⟨h1, -⟩; cases h1
        · cases hlb : res.lockedBy with
          | none => rintro ⟨h1, -⟩; cases h1
          | some holder => rintro ⟨-, h2⟩; cases h2

theorem release_fail_unchanged (s : TMState) (txId resId : String) :
    (releaseLock s txId resId).1.success = false ∧
      (releaseLock s txId resId).1.updated = false →
    (releaseLock s txId resId).2 = s := by
  unfold releaseLock
  cases hft : findTx s txId with
  | none => intro _; rfl
  | some tx =>
    cases hfr : findRes s resId with
    | none => intro _; rfl
    | some res =>
      simp only
      split
      · intro _; rfl
      · rintro ⟨h1, -⟩; cases h1

theorem abort_fail_unchanged (s : TMState) (txId : String) :
    (abortTransaction s txId).1 = false → (abortTransaction s txId).2 = s := by
  unfold abortTransaction
  cases hft : findTx s txId with
  | none => intro _; rfl
  | some tx => intro h; cases h

def c2s1 : TMState := (acquireLock c1s0 "T1" "R1").2

/-- C2, counterexample: with `R1` held by `T1`, the call
`acquireLock(T2, R1)` reports `success = false` (its message is
"Waiting for R1 held by T1") yet mutates the state: `T2` is enqueued and
marked waiting and the WFG gains the edge `T2 → T1`. -/
theorem C2_counterexample :
    (acquireLock c2s1 "T2" "R1").1.success = false ∧
      (acquireLock c2s1 "T2" "R1").2 ≠ c2s1 := by
  constructor
  · decide
  · intro h
    have : (acquireLock c2s1 "T2" "R1").2.resources = c2s1.resources := by rw [h]
    exact absurd this (by decide)

/-- C2, amended: every `acquireLock`/`releaseLock` call that reports failure
WITH `updated = false` (the InvalidReference / InvalidState error paths),
and every failing `abortTransaction` call, leaves the manager state —
transactions, resources and WFG — exactly unchanged.  (The blocking acquire
path, which reports `success = false, updated = true`, does mutate state;
the counterexample shows it.) -/
theorem C2_error_atomicity (s : TMState) (txId resId : String) :
    ((acquireLock s txId resId).1.success = false ∧
        (acquireLock s txId resId).1.updated = false →
      (acquireLock s txId resId).2 = s) ∧
      ((releaseLock s txId resId).1.success = false ∧
          (releaseLock s txId resId).1.updated = false →
        (releaseLock s txId resId).2 = s) ∧
      ((abortTransaction s txId).1 = false → (abortTransaction s txId).2 = s) :=
  ⟨acquire_fail_unchanged s txId resId,
    release_fail_unchanged s txId resId,
    abort_fail_unchanged s txId⟩

/-- Witness for C2's amended theorem: acquiring for the unknown transaction
`T9` fails with `updated = false` and leaves the concrete state unchanged. -/
theorem C2_witness : (acquireLock c1s0 "T9" "R1").2 = c1s0 :=
  (C2_error_atomicity c1s0 "T9" "R1").1 (by decide)

/-! ### Claim C10 — implicit status gate on acquire -/

/-- C10: for any known transaction whose status is neither `active` nor
`waiting` (so `blocked` as well as the terminal `aborted`), `acquireLock`
reports failure with `updated = false` and performs no state mutation,
whatever the resource argument is. -/
theorem C10_status_gate (s : TMState) (txId resId : String) (tx : Transaction)
    (htx : findTx s txId = some tx)
    (h1 : tx.status ≠ .active) (h2 : tx.status ≠ .waiting) :
    (acquireLock s txId resId).1 = { success := false, updated := false } ∧
      (acquireLock s txId resId).2 = s := by
  unfold acquireLock
  rw [htx]
  cases hfr : findRes s resId with
  | none => exact ⟨rfl, rfl⟩
  | some res =>
    simp only
    rw [if_pos ⟨h1, h2⟩]
    exact ⟨rfl, rfl⟩

def c10tx : Transaction :=
  { id := "T1", status := .blocked, heldLocks := [], waitingFor := none }

def c10s : TMState :=
  { transactions := [c10tx],
    resources := [{ id := "R1", lockedBy := none, waitQueue := [] }],
    wfg := ⟨[]⟩ }

/-- Witness for C10 at a concrete `blocked` transaction. -/
theorem C10_witness :
    (acquireLock c10s "T1" "R1").1 = { success := false, updated := false } ∧
      (acquireLock c10s "T1" "R1").2 = c10s :=
  C10_status_gate c10s "T1" "R1" c10tx (by decide) (by decide) (by decide)

/-! ## Abstract wait-for-graph view

All detection algorithms consume a WFG object only through `getNodes()` and
`getNeighbors(node)`. -/

structure Graph where
  nodes : List String
  adj : String → List String

/-- View of an adjacency-list WFG through the algorithmic interface. -/
def toGraph (g : AdjacencyListWFG) : Graph :=
  ⟨g.getNodes, fun n => g.getNeighbors n⟩

/-- The finiteness/closure property every implementation guarantees: an edge
only ever connects listed nodes (`addEdge` creates both endpoints).  It also
bounds the DFS recursion depth. -/
def Wf (g : Graph) : Prop := ∀ a b, b ∈ g.adj a → a ∈ g.nodes ∧ b ∈ g.nodes

/-- `Walk g a l b`: from `a`, stepping along edges through the successive
vertices of `l`, ending at `b` (so `l = []` means `a = b`). -/
def Walk (g : Graph) : String → List String → String → Prop
  | a, [], b => a = b
  | a, x :: xs, b => x ∈ g.adj a ∧ Walk g x xs b

/-- A directed cycle exists: a nonempty closed walk. -/
def Cyclic (g : Graph) : Prop := ∃ v l, l ≠ [] ∧ Walk g v l v

def Acyclic (g : Graph) : Prop := ¬ Cyclic g

theorem walk_append_edge {g : Graph} :
    ∀ {l : List String} {a b c : String},
      Walk g a l b → c ∈ g.adj b → Walk g a (l ++ [c]) c := by
  intro l
  induction l with
  | nil =>
    intro a b c h hc
    cases h
    exact ⟨hc, rfl⟩
  | cons x xs ih =>
    intro a b c h hc
    exact ⟨h.1, ih h.2 hc⟩

theorem walk_suffix {g : Graph} :
    ∀ {l : List String} {a b w : String},
      Walk g a l b → w ∈ a :: l → ∃ l', Walk g w l' b := by
  intro l
  induction l with
  | nil =>
    intro a b w h hw
    cases h
    rw [List.mem_singleton] at hw
    exact ⟨[], hw⟩
  | cons x xs ih =>
    intro a b w h hw
    rcases List.mem_cons.mp hw with he | hm
    · exact ⟨x :: xs, he ▸ h⟩
    · exact ih h.2 hm

/-! ## `detectDeadlock` (deadlockDetection.js, lines 24–91)

Mutable algorithm state: `visited` and `recStack` are JS `Set`s (modelled as
insertion-ordered duplicate-free lists), `cycles` the accumulated list of
cycles.  The `pathMap` of the source is written but never read and is not
modelled. -/

/-- JS `Set.add`. -/
def setAdd (s : List String) (x : String) : List String :=
  if x ∈ s then s else s ++ [x]

/-- JS `Set.delete`. -/
def setDel (s : List String) (x : String) : List String :=
  s.filter (fun y => y ≠ x)

/-- `Array.prototype.indexOf`: first index of `x`, `-1` when absent. -/
def jsIndexOf (l : List String) (x : String) : Int :=
  match l.indexOf? x with
  | some i => (i : Int)
  | none => -1

/-- `Array.prototype.slice(start)`, handling a negative start the JS way
(offset from the end, clamped). -/
def jsSlice (l : List String) (i : Int) : List String :=
  if 0 ≤ i then l.drop i.toNat
  else l.drop (l.length - min l.length (-i).toNat)

/-- `isCycleDuplicate(existingCycles, newCycle)` (lines 96–110): both cycles
are reduced to their node SETS (last entry dropped, then `new Set(...)`), and
compared by set size and inclusion; `Set.size` counts distinct elements,
i.e. the length after deduplication. -/
def isCycleDuplicate (cycles : List (List String)) (newCycle : List String) : Bool :=
  cycles.any (fun c =>
    (newCycle.dropLast.dedup.length == c.dropLast.dedup.length) &&
      newCycle.dropLast.dedup.all (fun n => c.dropLast.contains n))

structure DDState where
  visited : List String
  recStack : List String
  cycles : List (List String)
deriving DecidableEq, Repr

/-- The `for (const neighbor of neighbors)` loop of `dfs`: recurse into
unvisited neighbors (propagating `true`), record a cycle and return `true`
on a neighbor in the recursion stack, skip finished neighbors.  The mutual
recursion with `dfs` is untangled by passing the recursive call as the
function argument `dfs` (always instantiated with `ddDfs g fuel`, the DFS
at one unit less fuel), so both definitions are structurally recursive and
evaluate inside the kernel. -/
def ddLoop (g : Graph) (dfs : String → List String → DDState → Bool × DDState)
    (node : String) (path1 : List String)
    (ns : List String) (s : DDState) : Bool × DDState :=
  match ns with
  | [] => (false, s)
  | w :: ws =>
    if ¬ w ∈ s.visited then
      match dfs w path1 s with
      | (true, s') => (true, s')
      | (false, s') => ddLoop g dfs node path1 ws s'
    else if w ∈ s.recStack then
      let cyc := jsSlice path1 (jsIndexOf path1 w) ++ [w]
      (true, { s with cycles := if isCycleDuplicate s.cycles cyc then s.cycles
                                else s.cycles ++ [cyc] })
    else ddLoop g dfs node path1 ws s

/-- One call of the recursive `dfs(node, path)` helper of `detectDeadlock`;
`path` is the argument at entry, before `path.push(node)`.  `fuel` bounds
the recursion depth: each recursive call targets a node that was unvisited
and is marked visited on entry, so for a well-formed graph the depth never
exceeds the number of nodes; `detectDeadlock` passes `g.nodes.length + 1`,
which `ddDfs_spec` proves sufficient (the fuel-exhausted branch is
unreachable under its hypotheses). -/
def ddDfs (g : Graph) (fuel : Nat) (node : String) (path : List String)
    (s : DDState) : Bool × DDState :=
  match fuel with
  | 0 => (false, s)
  | fuel + 1 =>
    let s1 : DDState := { s with visited := setAdd s.visited node,
                                 recStack := setAdd s.recStack node }
    let path1 := path ++ [node]
    match ddLoop g (ddDfs g fuel) node path1 (g.adj node) s1 with
    | (true, s2) => (true, s2)
    | (false, s2) => (false, { s2 with recStack := setDel s2.recStack node })

/-- The `for (const node of nodes)` driver loop of `detectDeadlock` — note it
does NOT stop once a cycle is found. -/
def ddOuter (g : Graph) (fuel : Nat) : List String → DDState → DDState
  | [], s => s
  | n :: ns, s =>
    if ¬ n ∈ s.visited then ddOuter g fuel ns (ddDfs g fuel n [] s).2
    else ddOuter g fuel ns s

structure DetectResult where
  hasCycle : Bool
  cycles : List (List String)
  visitedNodes : Nat
deriving DecidableEq, Repr

/-- `detectDeadlock(wfg)`: run the DFS from every unvisited node and report
`hasCycle = cycles.length > 0` and `visitedNodes = visited.size` (the
`visited` set is duplicate-free, so its JS size is the model's length).
`detectionTime`/`timestamp` are wall-clock fields and dropped. -/
def detectDeadlock (g : Graph) : DetectResult :=
  let s := ddOuter g (g.nodes.length + 1) g.nodes ⟨[], [], []⟩
  { hasCycle := decide (0 < s.cycles.length),
    cycles := s.cycles,
    visitedNodes := s.visited.length }

/-! ### Correctness of `detectDeadlock` (claim C4)

The proof follows the classic argument.  Soundness: before any cycle is
recorded, the recursion stack is exactly the set of the current DFS path, so
a back edge closes a genuine walk.  Completeness: as long as no cycle has
been recorded, every finished ("black": visited and off the stack) node has
only black successors and no closed walk starts at a black node; at the end
all nodes are black. -/

theorem mem_setAdd {s : List String} {x y : String} :
    x ∈ setAdd s y ↔ x ∈ s ∨ x = y := by
  unfold setAdd
  by_cases h : y ∈ s
  · simp only [h, if_true]
    exact ⟨Or.inl, fun hx => hx.elim id (fun he => he ▸ h)⟩
  · simp [h]

theorem mem_setDel {s : List String} {x y : String} :
    x ∈ setDel s y ↔ x ∈ s ∧ x ≠ y := by
  simp [setDel, List.mem_filter]

theorem filter_length_le {α : Type} (p q : α → Bool) (l : List α)
    (himp : ∀ a, p a = true → q a = true) :
    (l.filter p).length ≤ (l.filter q).length := by
  induction l with
  | nil => exact Nat.le_refl _
  | cons y ys ih =>
    rw [List.filter_cons, List.filter_cons]
    cases hpy : p y with
    | true =>
      rw [himp y hpy]
      simpa using ih
    | false =>
      cases hqy : q y
      · simpa using ih
      · simp only [List.length_cons]
        exact Nat.le_succ_of_le ih

theorem filter_length_lt {α : Type} (p q : α → Bool) (l : List α) (x : α)
    (hx : x ∈ l) (hqx : q x = true) (hpx : p x = false)
    (himp : ∀ a, p a = true → q a = true) :
    (l.filter p).length < (l.filter q).length := by
  induction l with
  | nil => cases hx
  | cons y ys ih =>
    rw [List.filter_cons, List.filter_cons]
    rcases List.mem_cons.mp hx with he | hm
    · have hpy : p y = false := he ▸ hpx
      have hqy : q y = true := he ▸ hqx
      simp only [hpy, hqy, Bool.false_eq_true, if_false, if_true, List.length_cons]
      exact Nat.lt_succ_of_le (filter_length_le p q ys himp)
    · cases hpy : p y
      · cases hqy : q y
        · simpa using ih hm
        · simp only [List.length_cons]
          exact Nat.lt_succ_of_lt (ih hm)
      · rw [himp y hpy]
        simpa using ih hm

/-- Number of listed nodes not in `vis`: the DFS recursion measure. -/
def unvis (g : Graph) (vis : List String) : Nat :=
  (g.nodes.filter (fun n => decide (¬ n ∈ vis))).length

theorem unvis_pos {g : Graph} {vis : List String} {node : String}
    (hn : node ∈ g.nodes) (hv : node ∉ vis) : 0 < unvis g vis := by
  have : node ∈ g.nodes.filter (fun n => decide (¬ n ∈ vis)) :=
    List.mem_filter.mpr ⟨hn, by simpa using hv⟩
  exact List.length_pos.mpr (List.ne_nil_of_mem this)

theorem unvis_mono {g : Graph} {vis vis' : List String}
    (h : ∀ x ∈ vis, x ∈ vis') : unvis g vis' ≤ unvis g vis := by
  apply filter_length_le
  intro a ha
  simp only [decide_eq_true_eq] at *
  exact fun hin => ha (h a hin)

theorem unvis_lt {g : Graph} {vis vis' : List String} {node : String}
    (hn : node ∈ g.nodes) (hv : node ∉ vis)
    (hmono : ∀ x ∈ vis, x ∈ vis') (hnode : node ∈ vis') :
    unvis g vis' < unvis g vis := by
  apply filter_length_lt _ _ _ node hn
  · simpa using hv
  · simpa using hnode
  · intro a ha
    simp only [decide_eq_true_eq] at *
    exact fun hin => ha (hmono a hin)

/-- The DFS path argument `path` is a chain of edges ending in an edge into
`node` (trivial when the path is empty: `node` is a DFS root). -/
def PathTo (g : Graph) : List String → String → Prop
  | [], _ => True
  | h :: t, node => Walk g h (t ++ [node]) node

/-- `path1` (the path including the current node) is nonempty and walks from
its head to `node`, its last entry. -/
def EndsAt (g : Graph) (path1 : List String) (node : String) : Prop :=
  ∃ h t, path1 = h :: t ∧ Walk g h t node

theorem endsAt_of_pathTo {g : Graph} {path : List String} {node : String}
    (h : PathTo g path node) : EndsAt g (path ++ [node]) node := by
  cases path with
  | nil => exact ⟨node, [], rfl, rfl⟩
  | cons hd tl => exact ⟨hd, tl ++ [node], rfl, h⟩

theorem pathTo_extend {g : Graph} {path : List String} {node w : String}
    (h : PathTo g path node) (hw : w ∈ g.adj node) :
    PathTo g (path ++ [node]) w := by
  cases path with
  | nil => exact ⟨hw, rfl⟩
  | cons hd tl =>
    show Walk g hd ((tl ++ [node]) ++ [w]) w
    exact walk_append_edge h hw

theorem cyclic_of_backedge {g : Graph} {path1 : List String} {node w : String}
    (hE : EndsAt g path1 node) (hw : w ∈ path1) (he : w ∈ g.adj node) :
    Cyclic g := by
  obtain ⟨h, t, rfl, hwalk⟩ := hE
  obtain ⟨l', hl'⟩ := walk_suffix hwalk hw
  exact ⟨w, l' ++ [w], by simp, walk_append_edge hl' he⟩

/-- Propagation along a walk: with black-closure, a walk starting at a black
node ends at a black node. -/
theorem walk_stays_black {g : Graph} {vis rst : List String}
    (hbc : ∀ x, x ∈ vis → x ∉ rst →
      ∀ y ∈ g.adj x, y ∈ vis ∧ y ∉ rst) :
    ∀ {l : List String} {a b : String}, Walk g a l b →
      a ∈ vis → a ∉ rst → b ∈ vis ∧ b ∉ rst := by
  intro l
  induction l with
  | nil =>
    intro a b h ha hr
    cases h
    exact ⟨ha, hr⟩
  | cons x xs ih =>
    intro a b h ha hr
    obtain ⟨hx, hwalk⟩ := h
    obtain ⟨h1, h2⟩ := hbc a ha hr x hx
    exact ih hwalk h1 h2

/-- Invariant of the `detectDeadlock` DFS state. -/
structure DDInv (g : Graph) (s : DDState) : Prop where
  rec_sub : ∀ x ∈ s.recStack, x ∈ s.visited
  cyc_sound : s.cycles ≠ [] → Cyclic g
  black_closed : s.cycles = [] → ∀ x, x ∈ s.visited → x ∉ s.recStack →
      ∀ y ∈ g.adj x, y ∈ s.visited ∧ y ∉ s.recStack
  no_black_cycle : s.cycles = [] → ∀ v l, l ≠ [] → Walk g v l v →
      v ∈ s.visited → v ∈ s.recStack

/-- What one DFS call (or neighbor-loop run) guarantees, relating entry
state `s` to the boolean/state result `r`. -/
structure DDPost (g : Graph) (s : DDState) (r : Bool × DDState) : Prop where
  inv : DDInv g r.2
  vis_mono : ∀ x ∈ s.visited, x ∈ r.2.visited
  black_mono : ∀ x, x ∈ s.visited → x ∉ s.recStack →
      x ∈ r.2.visited ∧ x ∉ r.2.recStack
  cycles_false : r.1 = false → r.2.cycles = s.cycles
  cycles_true : r.1 = true → r.2.cycles ≠ []
  cycles_ne : s.cycles ≠ [] → r.2.cycles ≠ []
  rec_false : r.1 = false → ∀ x, x ∈ r.2.recStack ↔ x ∈ s.recStack

theorem ddLoop_spec (g : Graph) (hwf : Wf g) (fuel : Nat)
    (dfsSpec : ∀ node path s, node ∈ g.nodes → node ∉ s.visited →
      unvis g s.visited ≤ fuel → DDInv g s →
      (s.cycles = [] → ∀ x, x ∈ s.recStack ↔ x ∈ path) →
      PathTo g path node →
      DDPost g s (ddDfs g fuel node path s) ∧
        node ∈ (ddDfs g fuel node path s).2.visited) :
    ∀ (ns : List String) (node : String) (path1 : List String) (s : DDState),
      (∀ w ∈ ns, w ∈ g.adj node) →
      unvis g s.visited ≤ fuel →
      DDInv g s →
      (s.cycles = [] → ∀ x, x ∈ s.recStack ↔ x ∈ path1) →
      EndsAt g path1 node →
      DDPost g s (ddLoop g (ddDfs g fuel) node path1 ns s) ∧
        ((ddLoop g (ddDfs g fuel) node path1 ns s).1 = false →
          (ddLoop g (ddDfs g fuel) node path1 ns s).2.cycles = [] →
          ∀ w ∈ ns, w ∈ (ddLoop g (ddDfs g fuel) node path1 ns s).2.visited ∧
            w ∉ (ddLoop g (ddDfs g fuel) node path1 ns s).2.recStack) := by
  intro ns node path1
  induction ns with
  | nil =>
    intro s _hns _hfuel hinv _hrec _hEnds
    rw [ddLoop]
    exact ⟨⟨hinv, fun x hx => hx, fun x hx hr => ⟨hx, hr⟩, fun _ => rfl,
      fun h => (nomatch h), fun h => h, fun _ x => Iff.rfl⟩,
      fun _ _ w hw => absurd hw (List.not_mem_nil w)⟩
  | cons w ws ih =>
    intro s hns hfuel hinv hrec hEnds
    rw [ddLoop]
    dsimp only
    by_cases hwv : w ∈ s.visited
    · rw [if_neg (fun hc => hc hwv)]
      by_cases hwr : w ∈ s.recStack
      · -- back edge: record a cycle, return true
        rw [if_pos hwr]
        have hne : (if isCycleDuplicate s.cycles
              (jsSlice path1 (jsIndexOf path1 w) ++ [w]) = true then s.cycles
            else s.cycles ++ [jsSlice path1 (jsIndexOf path1 w) ++ [w]]) ≠ [] := by
          by_cases hc : s.cycles = []
          · rw [hc]
            simp [isCycleDuplicate]
          · split
            · exact hc
            · simp
        have hCyc : Cyclic g := by
          by_cases hc : s.cycles = []
          · exact cyclic_of_backedge hEnds ((hrec hc w).mp hwr)
              (hns w (List.mem_cons_self ..))
          · exact hinv.cyc_sound hc
        exact ⟨⟨⟨hinv.rec_sub, fun _ => hCyc, fun h => absurd h hne,
          fun h => absurd h hne⟩, fun x hx => hx, fun x hx hr => ⟨hx, hr⟩,
          fun h => (nomatch h), fun _ => hne, fun _ => hne, fun h => (nomatch h)⟩,
          fun h => (nomatch h)⟩
      · -- finished neighbor: skip
        rw [if_neg hwr]
        have hns' : ∀ x ∈ ws, x ∈ g.adj node :=
          fun x hx => hns x (List.mem_cons_of_mem _ hx)
        obtain ⟨postL, procL⟩ := ih s hns' hfuel hinv hrec hEnds
        refine ⟨postL, ?_⟩
        intro hb hc w' hw'
        rcases List.mem_cons.mp hw' with he | hm
        · subst he
          exact postL.black_mono w' hwv hwr
        · exact procL hb hc w' hm
    · -- unvisited neighbor: recurse
      rw [if_pos hwv]
      have hwadj : w ∈ g.adj node := hns w (List.mem_cons_self ..)
      have hwnode : w ∈ g.nodes := (hwf node w hwadj).2
      have hpath : PathTo g path1 w := by
        obtain ⟨h, t, he, hwalk⟩ := hEnds
        rw [he]
        exact walk_append_edge hwalk hwadj
      obtain ⟨post₁, hwvis₁⟩ := dfsSpec w path1 s hwnode hwv hfuel hinv hrec hpath
      obtain ⟨hinv₁, hvm₁, hbm₁, hcf₁, hct₁, hcn₁, hrf₁⟩ := post₁
      cases hdd : ddDfs g fuel w path1 s with
      | mk b₁ s₁ =>
        rw [hdd] at hwvis₁ hinv₁ hvm₁ hbm₁ hcf₁ hct₁ hcn₁ hrf₁
        cases b₁ with
        | true =>
          exact ⟨⟨hinv₁, hvm₁, hbm₁, fun h => (nomatch h), fun _ => hct₁ rfl,
            hcn₁, fun h => (nomatch h)⟩, fun h => (nomatch h)⟩
        | false =>
          have hns' : ∀ x ∈ ws, x ∈ g.adj node :=
            fun x hx => hns x (List.mem_cons_of_mem _ hx)
          have hle₁ : unvis g s₁.visited ≤ fuel := le_trans (unvis_mono hvm₁) hfuel
          have hrec₁ : s₁.cycles = [] → ∀ x, x ∈ s₁.recStack ↔ x ∈ path1 := by
            intro hc1 x
            have hc : s.cycles = [] := by rw [← hcf₁ rfl]; exact hc1
            rw [hrf₁ rfl x]
            exact hrec hc x
          obtain ⟨postL, procL⟩ := ih s₁ hns' hle₁ hinv₁ hrec₁ hEnds
          refine ⟨⟨postL.inv, ?_, ?_, ?_, postL.cycles_true, ?_, ?_⟩, ?_⟩
          · exact fun x hx => postL.vis_mono x (hvm₁ x hx)
          · intro x hx hr
            obtain ⟨a, b⟩ := hbm₁ x hx hr
            exact postL.black_mono x a b
          · intro hb
            rw [postL.cycles_false hb, hcf₁ rfl]
          · intro hne
            exact postL.cycles_ne (by rw [hcf₁ rfl]; exact hne)
          · intro hb x
            rw [postL.rec_false hb x, hrf₁ rfl x]
          · intro hb hc w' hw'
            rcases List.mem_cons.mp hw' with he | hm
            · subst he
              have hw_nrec : w' ∉ s.recStack :=
                fun hcr => hwv (hinv.rec_sub w' hcr)
              have hw_nrec₁ : w' ∉ s₁.recStack :=
                fun hcr => hw_nrec ((hrf₁ rfl w').mp hcr)
              exact postL.black_mono w' hwvis₁ hw_nrec₁
            · exact procL hb hc w' hm

theorem ddDfs_spec (g : Graph) (hwf : Wf g) :
    ∀ (fuel : Nat) (node : String) (path : List String) (s : DDState),
      node ∈ g.nodes → node ∉ s.visited → unvis g s.visited ≤ fuel →
      DDInv g s →
      (s.cycles = [] → ∀ x, x ∈ s.recStack ↔ x ∈ path) →
      PathTo g path node →
      DDPost g s (ddDfs g fuel node path s) ∧
        node ∈ (ddDfs g fuel node path s).2.visited := by
  intro fuel
  induction fuel with
  | zero =>
    intro node path s hn hv hfuel _ _ _
    have := @unvis_pos g s.visited node hn hv
    omega
  | succ fuel ih =>
    intro node path s hn hv hfuel hinv hrec hpath
    rw [ddDfs]
    have hnrec0 : node ∉ s.recStack := fun h => hv (hinv.rec_sub node h)
    -- the state after `visited.add(node); recStack.add(node); path.push(node)`
    set s1 : DDState := { s with visited := setAdd s.visited node,
                                 recStack := setAdd s.recStack node } with hs1
    have hvm01 : ∀ x ∈ s.visited, x ∈ s1.visited :=
      fun x hx => mem_setAdd.mpr (Or.inl hx)
    have hnv1 : node ∈ s1.visited := mem_setAdd.mpr (Or.inr rfl)
    have hnr1 : node ∈ s1.recStack := mem_setAdd.mpr (Or.inr rfl)
    have hb01 : ∀ x, x ∈ s.visited → x ∉ s.recStack →
        x ∈ s1.visited ∧ x ∉ s1.recStack := by
      intro x hxv hxr
      refine ⟨hvm01 x hxv, fun hc => ?_⟩
      rcases mem_setAdd.mp hc with h | h
      · exact hxr h
      · exact hv (h ▸ hxv)
    have hinv1 : DDInv g s1 := by
      refine ⟨?_, hinv.cyc_sound, ?_, ?_⟩
      · intro x hx
        rcases mem_setAdd.mp hx with h | h
        · exact mem_setAdd.mpr (Or.inl (hinv.rec_sub x h))
        · exact mem_setAdd.mpr (Or.inr h)
      · intro hc x hxv hxr y hy
        rcases mem_setAdd.mp hxv with hxv' | hxv'
        · have hxr' : x ∉ s.recStack := fun hcc =>
            hxr (mem_setAdd.mpr (Or.inl hcc))
          obtain ⟨hy1, hy2⟩ := hinv.black_closed hc x hxv' hxr' y hy
          refine ⟨mem_setAdd.mpr (Or.inl hy1), fun hcc => ?_⟩
          rcases mem_setAdd.mp hcc with h | h
          · exact hy2 h
          · exact hv (h ▸ hy1)
        · exact absurd (mem_setAdd.mpr (Or.inr hxv')) hxr
      · intro hc v l hl hwalk hvv
        rcases mem_setAdd.mp hvv with hvv' | hvv'
        · exact mem_setAdd.mpr (Or.inl (hinv.no_black_cycle hc v l hl hwalk hvv'))
        · exact mem_setAdd.mpr (Or.inr hvv')
    have hrec1 : s1.cycles = [] → ∀ x, x ∈ s1.recStack ↔ x ∈ path ++ [node] := by
      intro hc x
      show x ∈ setAdd s.recStack node ↔ _
      rw [mem_setAdd, hrec hc x, List.mem_append, List.mem_singleton]
    have hfuel1 : unvis g s1.visited ≤ fuel := by
      have := @unvis_lt g s.visited s1.visited node hn hv hvm01 hnv1
      omega
    obtain ⟨postL, procL⟩ := ddLoop_spec g hwf fuel ih
      (g.adj node) node (path ++ [node]) s1 (fun w hw => hw) hfuel1 hinv1 hrec1
      (endsAt_of_pathTo hpath)
    cases hll : ddLoop g (ddDfs g fuel) node (path ++ [node]) (g.adj node) s1 with
    | mk b2 s2 =>
      rw [hll] at postL procL
      have hrecL : b2 = false → ∀ x, x ∈ s2.recStack ↔ x ∈ s1.recStack :=
        postL.rec_false
      cases b2 with
      | true =>
        refine ⟨⟨postL.inv, ?_, ?_, fun h => (nomatch h),
          fun _ => postL.cycles_true rfl, ?_, fun h => (nomatch h)⟩, ?_⟩
        · exact fun x hx => postL.vis_mono x (hvm01 x hx)
        · intro x hxv hxr
          obtain ⟨a, b⟩ := hb01 x hxv hxr
          exact postL.black_mono x a b
        · exact fun h => postL.cycles_ne h
        · exact postL.vis_mono node hnv1
      | false =>
        have hnode_rec2 : node ∈ s2.recStack := (hrecL rfl node).mpr hnr1
        refine ⟨⟨⟨?_, postL.inv.cyc_sound, ?_, ?_⟩, ?_, ?_,
          fun _ => postL.cycles_false rfl, fun h => (nomatch h),
          fun h => postL.cycles_ne h, ?_⟩, postL.vis_mono node hnv1⟩
        · -- rec_sub for the restored stack
          intro x hx
          exact postL.inv.rec_sub x (mem_setDel.mp hx).1
        · -- black closure: the freshly blackened `node` has only black
          -- successors because the loop processed them all
          intro hc x hxv hxr y hy
          by_cases hxn : x = node
          · obtain ⟨hy1, hy2⟩ := procL rfl hc y (hxn ▸ hy)
            exact ⟨hy1, fun hcc => hy2 (mem_setDel.mp hcc).1⟩
          · have hxr2 : x ∉ s2.recStack := fun hcc =>
              hxr (mem_setDel.mpr ⟨hcc, hxn⟩)
            obtain ⟨hy1, hy2⟩ := postL.inv.black_closed hc x hxv hxr2 y hy
            exact ⟨hy1, fun hcc => hy2 (mem_setDel.mp hcc).1⟩
        · -- no closed walk from a black node
          intro hc v l hl hwalk hvv
          have hvrec2 : v ∈ s2.recStack :=
            postL.inv.no_black_cycle hc v l hl hwalk hvv
          by_cases hvn : v = node
          · -- a closed walk from `node` would make `node` black via its
            -- processed neighbors: contradiction with `node` still gray
            exfalso
            cases l with
            | nil => exact hl rfl
            | cons x xs =>
              obtain ⟨hx, hwalk'⟩ := hwalk
              obtain ⟨hxv2, hxr2⟩ := procL rfl hc x (hvn ▸ hx)
              obtain ⟨-, hnr2⟩ :=
                walk_stays_black (postL.inv.black_closed hc)
                  (hvn ▸ hwalk') hxv2 hxr2
              exact hnr2 hnode_rec2
          · exact mem_setDel.mpr ⟨hvrec2, hvn⟩
        · exact fun x hx => postL.vis_mono x (hvm01 x hx)
        · intro x hxv hxr
          obtain ⟨a, b⟩ := hb01 x hxv hxr
          obtain ⟨a2, b2⟩ := postL.black_mono x a b
          exact ⟨a2, fun hcc => b2 (mem_setDel.mp hcc).1⟩
        · -- the recursion stack is restored exactly
          intro _ x
          rw [mem_setDel]
          constructor
          · rintro ⟨hx2, hxn⟩
            rcases mem_setAdd.mp ((hrecL rfl x).mp hx2) with h | h
            · exact h
            · exact absurd h hxn
          · intro hx
            have hxn : x ≠ node := fun he => hnrec0 (he ▸ hx)
            exact ⟨(hrecL rfl x).mpr (mem_setAdd.mpr (Or.inl hx)), hxn⟩

theorem ddOuter_spec (g : Graph) (hwf : Wf g) (fuel : Nat) :
    ∀ (roots : List String) (s : DDState),
      (∀ r ∈ roots, r ∈ g.nodes) →
      unvis g s.visited ≤ fuel →
      DDInv g s →
      (s.cycles = [] → ∀ x, ¬ x ∈ s.recStack) →
      DDInv g (ddOuter g fuel roots s) ∧
        (∀ x ∈ s.visited, x ∈ (ddOuter g fuel roots s).visited) ∧
        (∀ r ∈ roots, r ∈ (ddOuter g fuel roots s).visited) ∧
        ((ddOuter g fuel roots s).cycles = [] → s.cycles = []) ∧
        (s.cycles ≠ [] → (ddOuter g fuel roots s).cycles ≠ []) ∧
        ((ddOuter g fuel roots s).cycles = [] →
          ∀ x, ¬ x ∈ (ddOuter g fuel roots s).recStack) := by
  intro roots
  induction roots with
  | nil =>
    intro s _ _ hinv hrec
    rw [ddOuter]
    exact ⟨hinv, fun x hx => hx, fun r hr => absurd hr (List.not_mem_nil r),
      fun h => h, fun h => h, hrec⟩
  | cons n ns ih =>
    intro s hroots hfuel hinv hrec
    rw [ddOuter]
    have hroots' : ∀ r ∈ ns, r ∈ g.nodes :=
      fun r hr => hroots r (List.mem_cons_of_mem _ hr)
    by_cases hnv : n ∈ s.visited
    · rw [if_neg (fun hc => hc hnv)]
      obtain ⟨i1, i2, i3, i4, i5, i6⟩ := ih s hroots' hfuel hinv hrec
      refine ⟨i1, i2, ?_, i4, i5, i6⟩
      intro r hr
      rcases List.mem_cons.mp hr with he | hm
      · exact he ▸ i2 n hnv
      · exact i3 r hm
    · rw [if_pos hnv]
      have hrec0 : s.cycles = [] → ∀ x, x ∈ s.recStack ↔ x ∈ ([] : List String) :=
        fun hc x => ⟨fun h => absurd h (hrec hc x), fun h => absurd h (List.not_mem_nil x)⟩
      obtain ⟨post, hnodevis⟩ := ddDfs_spec g hwf fuel n [] s
        (hroots n (List.mem_cons_self ..)) hnv hfuel hinv hrec0 trivial
      cases hdd : ddDfs g fuel n [] s with
      | mk b1 s1 =>
        rw [hdd] at post hnodevis
        have hfuel1 : unvis g s1.visited ≤ fuel := le_trans (unvis_mono post.vis_mono) hfuel
        have hrec1 : s1.cycles = [] → ∀ x, ¬ x ∈ s1.recStack := by
          intro hc x hx
          cases b1 with
          | true => exact post.cycles_true rfl hc
          | false =>
            have hc0 : s.cycles = [] := by rw [← post.cycles_false rfl]; exact hc
            exact hrec hc0 x ((post.rec_false rfl x).mp hx)
        obtain ⟨i1, i2, i3, i4, i5, i6⟩ := ih s1 hroots' hfuel1 post.inv hrec1
        refine ⟨i1, fun x hx => i2 x (post.vis_mono x hx), ?_, ?_, ?_, i6⟩
        · intro r hr
          rcases List.mem_cons.mp hr with he | hm
          · exact he ▸ i2 n hnodevis
          · exact i3 r hm
        · intro hc
          have hc1 : s1.cycles = [] := i4 hc
          cases b1 with
          | true => exact absurd hc1 (post.cycles_true rfl)
          | false => rw [← post.cycles_false rfl]; exact hc1
        · intro hne
          exact i5 (post.cycles_ne hne)

/-- The initial DFS state satisfies the invariant. -/
theorem DDInv.init (g : Graph) : DDInv g ⟨[], [], []⟩ :=
  ⟨fun x hx => absurd hx (List.not_mem_nil x),
    fun h => absurd rfl h,
    fun _ x hx => absurd hx (List.not_mem_nil x),
    fun _ v _ _ _ hv => absurd hv (List.not_mem_nil v)⟩

theorem unvis_init_le (g : Graph) : unvis g [] ≤ g.nodes.length :=
  List.length_filter_le _ _

/-- `detectDeadlock` reports no cycle exactly on acyclic graphs. -/
theorem detectDeadlock_no_cycle_iff (g : Graph) (hwf : Wf g) :
    (detectDeadlock g).hasCycle = false ↔ Acyclic g := by
  obtain ⟨i1, _i2, i3, _i4, _i5, i6⟩ :=
    ddOuter_spec g hwf (g.nodes.length + 1) g.nodes ⟨[], [], []⟩
      (fun r hr => hr) (Nat.le_succ_of_le (unvis_init_le g)) (DDInv.init g)
      (fun _ x hx => absurd hx (List.not_mem_nil x))
  show decide (0 < (ddOuter g (g.nodes.length + 1) g.nodes ⟨[], [], []⟩).cycles.length)
      = false ↔ _
  set sf := ddOuter g (g.nodes.length + 1) g.nodes ⟨[], [], []⟩ with hsf
  constructor
  · intro hb hCyc
    have hc : sf.cycles = [] := by
      have : ¬ 0 < sf.cycles.length := by simpa using hb
      cases hcc : sf.cycles with
      | nil => rfl
      | cons c cs => rw [hcc] at this; simp at this
    obtain ⟨v, l, hl, hwalk⟩ := hCyc
    have hvnode : v ∈ g.nodes := by
      cases l with
      | nil => exact absurd rfl hl
      | cons x xs => exact (hwf v x hwalk.1).1
    exact i6 hc v (i1.no_black_cycle hc v l hl hwalk (i3 v hvnode))
  · intro hA
    have hc : sf.cycles = [] := by
      by_contra hne
      exact hA (i1.cyc_sound hne)
    rw [hc]
    rfl

/-- On the empty graph, `detectDeadlock` reports no cycle, no cycles and
zero visited nodes. -/
theorem detectDeadlock_empty (g : Graph) (h : g.nodes = []) :
    (detectDeadlock g).hasCycle = false ∧ (detectDeadlock g).cycles = [] ∧
      (detectDeadlock g).visitedNodes = 0 := by
  unfold detectDeadlock
  rw [h]
  rw [ddOuter]
  exact ⟨rfl, rfl, rfl⟩

/-! ### Aborted nodes never appear in reported cycles (claim C9)

A node with no incident edges can only ever be a DFS root with an empty
neighbor list; it never sits on a recorded cycle. -/

theorem mem_jsSlice {l : List String} {i : Int} {x : String}
    (hx : x ∈ jsSlice l i) : x ∈ l := by
  unfold jsSlice at hx
  split at hx <;> exact List.drop_subset _ _ hx

/-- All recorded cycles avoid `z`. -/
def AvoidZ (z : String) (s : DDState) : Prop := ∀ c ∈ s.cycles, z ∉ c

theorem ddLoop_avoid (g : Graph) (z : String)
    (hzi : ∀ u, z ∉ g.adj u) (fuel : Nat)
    (dfsA : ∀ node path s, z ∉ path → AvoidZ z s →
      AvoidZ z (ddDfs g fuel node path s).2) :
    ∀ (ns : List String) (node : String) (path1 : List String) (s : DDState),
      z ∉ path1 → (∀ w ∈ ns, w ∈ g.adj node) → AvoidZ z s →
      AvoidZ z (ddLoop g (ddDfs g fuel) node path1 ns s).2 := by
  intro ns
  induction ns with
  | nil =>
    intro node path1 s _ _ hA
    rw [ddLoop]
    exact hA
  | cons w ws ih =>
    intro node path1 s hzp hns hA
    rw [ddLoop]
    dsimp only
    by_cases hwv : w ∈ s.visited
    · rw [if_neg (fun hc => hc hwv)]
      by_cases hwr : w ∈ s.recStack
      · rw [if_pos hwr]
        intro c hc
        dsimp only at hc
        split at hc
        · exact hA c hc
        · rcases List.mem_append.mp hc with hm | hm
          · exact hA c hm
          · rw [List.mem_singleton] at hm
            subst hm
            intro hzc
            rcases List.mem_append.mp hzc with hz1 | hz1
            · exact hzp (mem_jsSlice hz1)
            · rw [List.mem_singleton] at hz1
              exact hzi node (hz1 ▸ hns w (List.mem_cons_self ..))
      · rw [if_neg hwr]
        exact ih node path1 s hzp
          (fun x hx => hns x (List.mem_cons_of_mem _ hx)) hA
    · rw [if_pos hwv]
      have hA1 : AvoidZ z (ddDfs g fuel w path1 s).2 := dfsA w path1 s hzp hA
      cases hdd : ddDfs g fuel w path1 s with
      | mk b1 s1 =>
        rw [hdd] at hA1
        cases b1 with
        | true => exact hA1
        | false =>
          exact ih node path1 s1 hzp
            (fun x hx => hns x (List.mem_cons_of_mem _ hx)) hA1

theorem ddDfs_avoid (g : Graph) (z : String)
    (hzo : g.adj z = []) (hzi : ∀ u, z ∉ g.adj u) :
    ∀ (fuel : Nat) (node : String) (path : List String) (s : DDState),
      z ∉ path → AvoidZ z s → AvoidZ z (ddDfs g fuel node path s).2 := by
  intro fuel
  induction fuel with
  | zero =>
    intro node path s _ hA
    rw [ddDfs]
    exact hA
  | succ fuel ih =>
    intro node path s hzp hA
    rw [ddDfs]
    have hzp1 : z ∉ path ++ [node] ∨ node = z := by
      by_cases hzn : node = z
      · exact Or.inr hzn
      · refine Or.inl (fun hc => ?_)
        rcases List.mem_append.mp hc with h | h
        · exact hzp h
        · rw [List.mem_singleton] at h
          exact hzn h.symm
    rcases hzp1 with hzp1 | hzn
    · have hL := ddLoop_avoid g z hzi fuel ih (g.adj node) node (path ++ [node])
        { s with visited := setAdd s.visited node,
                 recStack := setAdd s.recStack node }
        hzp1 (fun w hw => hw) hA
      cases hll : ddLoop g (ddDfs g fuel) node (path ++ [node]) (g.adj node)
          { s with visited := setAdd s.visited node,
                   recStack := setAdd s.recStack node } with
      | mk b2 s2 =>
        rw [hll] at hL
        cases b2 with
        | true => exact hL
        | false => exact hL
    · -- the DFS entered the isolated node itself: its neighbor loop is empty
      subst hzn
      rw [hzo]
      rw [ddLoop]
      exact hA

theorem ddOuter_avoid (g : Graph) (z : String)
    (hzo : g.adj z = []) (hzi : ∀ u, z ∉ g.adj u) (fuel : Nat) :
    ∀ (roots : List String) (s : DDState),
      AvoidZ z s → AvoidZ z (ddOuter g fuel roots s) := by
  intro roots
  induction roots with
  | nil =>
    intro s hA
    rw [ddOuter]
    exact hA
  | cons n ns ih =>
    intro s hA
    rw [ddOuter]
    by_cases hnv : n ∈ s.visited
    · rw [if_neg (fun hc => hc hnv)]
      exact ih s hA
    · rw [if_pos hnv]
      exact ih _ (ddDfs_avoid g z hzo hzi fuel n [] s
        (List.not_mem_nil z) hA)

theorem detectDeadlock_avoid (g : Graph) (z : String)
    (hzo : g.adj z = []) (hzi : ∀ u, z ∉ g.adj u) :
    ∀ c ∈ (detectDeadlock g).cycles, z ∉ c := by
  intro c hc
  exact ddOuter_avoid g z hzo hzi (g.nodes.length + 1) g.nodes ⟨[], [], []⟩
    (fun c' hc' => absurd hc' (List.not_mem_nil c')) c hc

/-! ### WFG edge removal facts for `abortTransaction` -/

theorem removeEdge_mem_neighbors (g : AdjacencyListWFG) (f t x y : String) :
    y ∈ (g.removeEdge f t).getNeighbors x ↔
      y ∈ g.getNeighbors x ∧ ¬(x = f ∧ y = t) := by
  unfold AdjacencyListWFG.removeEdge AdjacencyListWFG.getNeighbors
  by_cases hf : keyMem g.adjacencyList f
  · rw [if_pos hf]
    show y ∈ lookupD (updAt g.adjacencyList f _) x ↔ _
    rw [lookupD_updAt]
    by_cases hxf : x = f
    · rw [if_pos hxf, if_pos hf, hxf]
      rw [List.mem_filter]
      simp
    · rw [if_neg hxf]
      simp [hxf]
  · rw [if_neg hf]
    by_cases hxf : x = f
    · subst hxf
      rw [lookupD_eq_nil_of_not_key hf]
      simp
    · simp [hxf]

theorem getNeighbors_eq_nil_of_not_node (g : AdjacencyListWFG) (u : String)
    (h : u ∉ g.getNodes) : g.getNeighbors u = [] :=
  lookupD_eq_nil_of_not_key (fun hc => h (keyMem_iff.mp hc))

/-- Folding `removeEdge(n, txId)` over a node list removes every incoming
edge to `txId` from those nodes and adds nothing. -/
theorem fold_removeIncoming (txId : String) :
    ∀ (ls : List String) (gw : AdjacencyListWFG),
      (∀ u y, y ∈ ((ls.foldl (fun g n => g.removeEdge n txId) gw).getNeighbors u) →
        y ∈ gw.getNeighbors u) ∧
      (∀ u ∈ ls, txId ∉ (ls.foldl (fun g n => g.removeEdge n txId) gw).getNeighbors u) := by
  intro ls
  induction ls with
  | nil =>
    intro gw
    exact ⟨fun u y hy => hy, by simp⟩
  | cons n ns ih =>
    intro gw
    rw [List.foldl_cons]
    obtain ⟨sh, rm⟩ := ih (gw.removeEdge n txId)
    constructor
    · intro u y hy
      exact ((removeEdge_mem_neighbors gw n txId u y).mp (sh u y hy)).1
    · intro u hu
      rcases List.mem_cons.mp hu with he | hm
      · subst he
        intro hc
        exact ((removeEdge_mem_neighbors gw u txId u txId).mp (sh u txId hc)).2
          ⟨rfl, rfl⟩
      · exact rm u hm

theorem fold_removeOutgoing (x : String) :
    ∀ (ls : List String) (gw : AdjacencyListWFG) (u y : String),
      y ∈ ((ls.foldl (fun acc nb => acc.removeEdge x nb) gw).getNeighbors u) →
      y ∈ gw.getNeighbors u ∧ (u = x → ¬ y ∈ ls) := by
  intro ls
  induction ls with
  | nil =>
    intro gw u y hy
    exact ⟨hy, fun _ => List.not_mem_nil y⟩
  | cons nb ns ih =>
    intro gw u y hy
    rw [List.foldl_cons] at hy
    obtain ⟨h1, h2⟩ := ih (gw.removeEdge x nb) u y hy
    obtain ⟨h3, h4⟩ := (removeEdge_mem_neighbors gw x nb u y).mp h1
    refine ⟨h3, fun hux hc => ?_⟩
    rcases List.mem_cons.mp hc with he | hm
    · exact h4 ⟨hux, he⟩
    · exact h2 hux hm

theorem removeWaitEdges_clears (gw : AdjacencyListWFG) (x : String) :
    (removeWaitEdges gw x).getNeighbors x = [] ∧
      (∀ u y, y ∈ (removeWaitEdges gw x).getNeighbors u → y ∈ gw.getNeighbors u) := by
  unfold removeWaitEdges
  constructor
  · apply List.eq_nil_iff_forall_not_mem.mpr
    intro y hy
    obtain ⟨h1, h2⟩ := fold_removeOutgoing x (gw.getNeighbors x) gw x y hy
    exact h2 rfl h1
  · intro u y hy
    exact (fold_removeOutgoing x (gw.getNeighbors x) gw u y hy).1

/-- The two WFG-cleaning steps at the end of `abortTransaction` leave no
incoming edge to `txId` from anywhere. -/
theorem clean_no_incoming (gw : AdjacencyListWFG) (txId : String) :
    ∀ u, txId ∉ (removeWaitEdges
      ((gw.getNodes).foldl (fun g node => g.removeEdge node txId) gw)
      txId).getNeighbors u := by
  intro u hc
  set gw6 := (gw.getNodes).foldl (fun g node => g.removeEdge node txId) gw with hgw6
  have h6 : txId ∈ gw6.getNeighbors u :=
    (removeWaitEdges_clears gw6 txId).2 u txId hc
  rw [hgw6] at h6
  by_cases hu : u ∈ gw.getNodes
  · exact (fold_removeIncoming txId gw.getNodes gw).2 u hu h6
  · have h5 : txId ∈ gw.getNeighbors u :=
      (fold_removeIncoming txId gw.getNodes gw).1 u txId h6
    rw [getNeighbors_eq_nil_of_not_node gw u hu] at h5
    exact List.not_mem_nil txId h5

/-- Resources that just had `txId` filtered from every wait queue contain
no occurrence of it. -/
theorem filtered_queues (rs : List Resource) (txId : String) :
    ∀ r ∈ rs.map (fun r =>
      { r with waitQueue := r.waitQueue.filter (fun i => i ≠ txId) }),
      txId ∉ r.waitQueue := by
  intro r hr
  obtain ⟨r0, _, he⟩ := List.mem_map.mp hr
  rw [← he]
  intro hc
  have := (List.mem_filter.mp hc).2
  simp at this

/-- C9: after a successful `abortTransaction(tx)`, no WFG edge incident to
`tx` remains in either direction, `tx` sits in no resource's wait queue, and
every cycle reported by a subsequent `detectDeadlock()` over the manager's
WFG avoids `tx`. -/
theorem C9_abort_removes_transaction (s : TMState) (txId : String)
    (hs : (abortTransaction s txId).1 = true) :
    (toGraph (abortTransaction s txId).2.wfg).adj txId = [] ∧
      (∀ u, txId ∉ (toGraph (abortTransaction s txId).2.wfg).adj u) ∧
      (∀ r ∈ (abortTransaction s txId).2.resources, txId ∉ r.waitQueue) ∧
      (∀ c ∈ (detectDeadlock (toGraph (abortTransaction s txId).2.wfg)).cycles,
        txId ∉ c) := by
  unfold abortTransaction at hs ⊢
  cases hft : findTx s txId with
  | none =>
    rw [hft] at hs
    exact (nomatch hs)
  | some tx =>
    dsimp only [updTx, toGraph] at hs ⊢
    exact ⟨(removeWaitEdges_clears _ txId).1,
      fun u => clean_no_incoming _ txId u,
      fun r hr => filtered_queues _ txId r hr,
      fun c hc => detectDeadlock_avoid _ txId
        ((removeWaitEdges_clears _ txId).1)
        (fun u => clean_no_incoming _ txId u) c hc⟩

def c9s : TMState :=
  (acquireLock
    (acquireLock
      (acquireLock c1s0 "T1" "R1").2
      "T2" "R1").2
    "T3" "R1").2

/-- Witness for C9: abort the holder `T1` in the concrete three-transaction
contention scenario. -/
theorem C9_witness :
    (abortTransaction c9s "T1").1 = true ∧
      (toGraph (abortTransaction c9s "T1").2.wfg).adj "T1" = [] :=
  ⟨by decide, (C9_abort_removes_transaction c9s "T1" (by decide)).1⟩

/-! ## `dfsDetectCycle` (src/unnamed/part_000, lines 151–210)

The analyzer's DFS variant: stops at the first cycle, accumulates a `trace`
of visit/edge/backtrack/cycle events, and reconstructs the cycle by chasing
parents through the recorded first-visit paths in the trace.  Here `path` is
the argument as in the source: the list of strict ancestors, NOT including
the current node. -/

inductive TraceEvent where
  /-- `{type:'visit', node, status:'gray', path:[...path, node]}` (the status
  is constant per event type and carried by the constructor). -/
  | visit (node : String) (path : List String)
  /-- `{type:'edge', from, to}` -/
  | edgeEv (f t : String)
  /-- `{type:'backtrack', node, status:'black'}` -/
  | backtrack (node : String)
  /-- `{type:'cycle', cycle}` -/
  | cycleEv (cycle : List String)
deriving DecidableEq, Repr

/-- `trace.find(t => t.type === 'visit' && t.node === cur)?.path || []`. -/
def traceFindVisitPath (trace : List TraceEvent) (cur : String) : List String :=
  match trace.find? (fun e => match e with
    | .visit n _ => n == cur
    | _ => false) with
  | some (.visit _ p) => p
  | _ => []

/-- `.slice(-2, -1)[0] || null`: the second-to-last entry of the recorded
path, or null when the path is too short (the `|| null` would also null out
a falsy id, i.e. the empty string). -/
def traceParent (trace : List TraceEvent) (cur : String) : Option String :=
  match (traceFindVisitPath trace cur).dropLast.getLast? with
  | some v => if v = "" then none else some v
  | none => none

/-- The `while (cur !== neighbor && cur != null)` parent-chasing loop of the
cycle reconstruction.  The source loop terminates because each parent was
first visited at strictly smaller depth; the model gives it explicit fuel
(`trace.length + 1`, one per possible visit entry, which that depth argument
makes sufficient).  No theorem depends on the chased segment beyond the two
entries pushed before the chase begins. -/
def dcChase (trace : List TraceEvent) (neighbor : String) :
    Nat → String → List String → List String
  | 0, _, cyc => cyc
  | fuel + 1, cur, cyc =>
    if cur = neighbor then cyc
    else
      match traceParent trace cur with
      | some p => dcChase trace neighbor fuel p (cyc ++ [cur])
      | none => cyc ++ [cur]

structure DCState where
  visited : List String
  recStack : List String
  trace : List TraceEvent
deriving DecidableEq, Repr

/-- The neighbor loop of `dfsVisit`: pushes an edge event, recurses into
unvisited neighbors (propagating a found cycle), reconstructs and returns a
cycle on a gray neighbor, skips black neighbors.  As for `ddLoop`, the
recursive call is the function argument `dfs` (always `dcDfs g fuel`), so
both definitions are structurally recursive and kernel-evaluable. -/
def dcLoop (g : Graph)
    (dfs : String → List String → DCState → Option (List String) × DCState)
    (node : String) (path : List String)
    (ns : List String) (s : DCState) : Option (List String) × DCState :=
  match ns with
  | [] => (none, s)
  | w :: ws =>
    let sE : DCState := { s with trace := s.trace ++ [.edgeEv node w] }
    if ¬ w ∈ sE.visited then
      match dfs w (path ++ [node]) sE with
      | (some c, s') => (some c, s')
      | (none, s') => dcLoop g dfs node path ws s'
    else if w ∈ sE.recStack then
      let c1 := dcChase sE.trace w (sE.trace.length + 1) node [w]
      if c1.length < 2 then
        let fb := path ++ [node, w]
        (some fb, { sE with trace := sE.trace ++ [.cycleEv fb] })
      else
        let c2 := (c1 ++ [w]).reverse
        (some c2, { sE with trace := sE.trace ++ [.cycleEv c2] })
    else dcLoop g dfs node path ws sE

/-- One call of `dfsVisit(node, path)`; returns the detected cycle (also the
value stored in `cycleFound`) or `null`.  Fuel as for `ddDfs`. -/
def dcDfs (g : Graph) (fuel : Nat) (node : String) (path : List String)
    (s : DCState) : Option (List String) × DCState :=
  match fuel with
  | 0 => (none, s)
  | fuel + 1 =>
    let s1 : DCState := { visited := setAdd s.visited node,
                          recStack := setAdd s.recStack node,
                          trace := s.trace ++ [.visit node (path ++ [node])] }
    match dcLoop g (dcDfs g fuel) node path (g.adj node) s1 with
    | (some c, s2) => (some c, s2)
    | (none, s2) =>
      (none, { s2 with recStack := setDel s2.recStack node,
                       trace := s2.trace ++ [.backtrack node] })

/-- The driver loop: `for (node of nodes) if (!visited) { if (dfsVisit(node))
break; }`. -/
def dcOuter (g : Graph) (fuel : Nat) :
    List String → DCState → Option (List String) × DCState
  | [], s => (none, s)
  | n :: ns, s =>
    if ¬ n ∈ s.visited then
      match dcDfs g fuel n [] s with
      | (some c, s') => (some c, s')
      | (none, s') => dcOuter g fuel ns s'
    else dcOuter g fuel ns s

structure DCResult where
  cycle : Option (List String)
  trace : List TraceEvent
  visited : Nat
deriving DecidableEq, Repr

/-- `dfsDetectCycle(wfg)`: `{ cycle: cycleFound, trace, visited:
visited.size }`. -/
def dfsDetectCycle (g : Graph) : DCResult :=
  let r := dcOuter g (g.nodes.length + 1) g.nodes ⟨[], [], []⟩
  { cycle := r.1, trace := r.2.trace, visited := r.2.visited.length }

/-! ### Correctness of `dfsDetectCycle` (claims C4, C7, C8)

Same invariant argument as for `detectDeadlock`; this variant stops at the
first cycle, so the stack-restoration invariant never degrades.  For claim
C8 we additionally record the SHAPE of any returned cycle list: either the
self-loop fallback `[...path, node, node]` (every proper-path member having
a distinct successor), or a list containing a node with a distinct
successor on the list. -/

/-- Shape of any cycle list `dfsDetectCycle` can return. -/
def CycShape (g : Graph) (c : List String) : Prop :=
  (∃ p node, c = p ++ [node, node] ∧ node ∈ g.adj node ∧
    (∀ x ∈ p, ∃ y ∈ g.adj x, y ≠ x)) ∨
  (∃ node w, node ∈ c ∧ w ∈ c ∧ w ∈ g.adj node ∧ node ≠ w)

theorem dcChase_prefix (trace : List TraceEvent) (nb : String) :
    ∀ (fuel : Nat) (cur : String) (cyc : List String),
      ∃ rest, dcChase trace nb fuel cur cyc = cyc ++ rest := by
  intro fuel
  induction fuel with
  | zero =>
    intro cur cyc
    exact ⟨[], by rw [dcChase]; rw [List.append_nil]⟩
  | succ fuel ih =>
    intro cur cyc
    rw [dcChase]
    by_cases hc : cur = nb
    · rw [if_pos hc]
      exact ⟨[], (List.append_nil cyc).symm⟩
    · rw [if_neg hc]
      cases traceParent trace cur with
      | some p =>
        dsimp only
        obtain ⟨r, hr⟩ := ih p (cyc ++ [cur])
        exact ⟨[cur] ++ r, by rw [hr, List.append_assoc]⟩
      | none => exact ⟨[cur], rfl⟩

theorem dcChase_self (trace : List TraceEvent) (nb : String) (fuel : Nat)
    (cyc : List String) :
    dcChase trace nb (fuel + 1) nb cyc = cyc := by
  rw [dcChase]
  rw [if_pos rfl]

theorem dcChase_ne (trace : List TraceEvent) (nb cur : String) (h : cur ≠ nb)
    (fuel : Nat) (cyc : List String) :
    ∃ rest, dcChase trace nb (fuel + 1) cur cyc = (cyc ++ [cur]) ++ rest := by
  rw [dcChase]
  rw [if_neg h]
  cases traceParent trace cur with
  | some p =>
    dsimp only
    exact dcChase_prefix trace nb fuel p (cyc ++ [cur])
  | none =>
    dsimp only
    exact ⟨[], (List.append_nil _).symm⟩

/-- On a duplicate-free walk, every vertex except the endpoint has a
successor distinct from itself. -/
theorem walk_each_succ {g : Graph} :
    ∀ {l : List String} {a b : String}, Walk g a l b → (a :: l).Nodup →
      ∀ x, x ∈ a :: l → x ≠ b → ∃ y ∈ g.adj x, y ≠ x := by
  intro l
  induction l with
  | nil =>
    intro a b hw _ x hx hxb
    have hab : a = b := hw
    rw [List.mem_singleton] at hx
    exact absurd (hx.trans hab) hxb
  | cons cn cs ih =>
    intro a b hw hnd x hx hxb
    obtain ⟨hedge, hw'⟩ := hw
    rcases List.mem_cons.mp hx with he | hm
    · subst he
      refine ⟨cn, hedge, fun hce => ?_⟩
      exact (List.nodup_cons.mp hnd).1 (by rw [← hce]; exact List.mem_cons_self ..)
    · exact ih hw' (List.nodup_cons.mp hnd).2 x hm hxb

/-- Invariant of the `dfsDetectCycle` DFS state (no cycle found yet, so
unconditional). -/
structure DCInv (g : Graph) (s : DCState) : Prop where
  rec_sub : ∀ x ∈ s.recStack, x ∈ s.visited
  black_closed : ∀ x, x ∈ s.visited → x ∉ s.recStack →
      ∀ y ∈ g.adj x, y ∈ s.visited ∧ y ∉ s.recStack
  no_black_cycle : ∀ v l, l ≠ [] → Walk g v l v → v ∈ s.visited → v ∈ s.recStack

structure DCPost (g : Graph) (s : DCState) (r : Option (List String) × DCState) :
    Prop where
  vis_mono : ∀ x ∈ s.visited, x ∈ r.2.visited
  black_mono : ∀ x, x ∈ s.visited → x ∉ s.recStack →
      x ∈ r.2.visited ∧ x ∉ r.2.recStack
  none_rec : r.1 = none → ∀ x, x ∈ r.2.recStack ↔ x ∈ s.recStack
  none_inv : r.1 = none → DCInv g r.2
  some_cyclic : ∀ c, r.1 = some c → Cyclic g
  some_shape : ∀ c, r.1 = some c → CycShape g c

theorem dcLoop_spec (g : Graph) (hwf : Wf g) (fuel : Nat)
    (dfsSpec : ∀ node path s, node ∈ g.nodes → node ∉ s.visited →
      unvis g s.visited ≤ fuel → DCInv g s →
      (∀ x, x ∈ s.recStack ↔ x ∈ path) → path.Nodup →
      PathTo g path node →
      DCPost g s (dcDfs g fuel node path s) ∧
        node ∈ (dcDfs g fuel node path s).2.visited) :
    ∀ (ns : List String) (node : String) (path : List String) (s : DCState),
      (∀ w ∈ ns, w ∈ g.adj node) →
      unvis g s.visited ≤ fuel →
      DCInv g s →
      (∀ x, x ∈ s.recStack ↔ x ∈ path ++ [node]) →
      EndsAt g (path ++ [node]) node →
      (path ++ [node]).Nodup →
      DCPost g s (dcLoop g (dcDfs g fuel) node path ns s) ∧
        ((dcLoop g (dcDfs g fuel) node path ns s).1 = none →
          ∀ w ∈ ns, w ∈ (dcLoop g (dcDfs g fuel) node path ns s).2.visited ∧
            w ∉ (dcLoop g (dcDfs g fuel) node path ns s).2.recStack) := by
  intro ns node path
  induction ns with
  | nil =>
    intro s _hns _hfuel hinv _hrec _hEnds _hnd
    rw [dcLoop]
    exact ⟨⟨fun x hx => hx, fun x hx hr => ⟨hx, hr⟩, fun _ x => Iff.rfl,
      fun _ => hinv, fun c hc => (nomatch hc), fun c hc => (nomatch hc)⟩,
      fun _ w hw => absurd hw (List.not_mem_nil w)⟩
  | cons w ws ih =>
    intro s hns hfuel hinv hrec hEnds hnd
    rw [dcLoop]
    dsimp only
    by_cases hwv : w ∈ s.visited
    · rw [if_neg (fun hc => hc hwv)]
      by_cases hwr : w ∈ s.recStack
      · -- gray neighbor: reconstruct and return the cycle
        rw [if_pos hwr]
        have hwadj : w ∈ g.adj node := hns w (List.mem_cons_self ..)
        have hCyc : Cyclic g :=
          cyclic_of_backedge hEnds ((hrec w).mp hwr) hwadj
        split
        next hlen =>
          -- reconstruction too short: the `[...path, node, neighbor]` fallback,
          -- which happens exactly on a self loop
          have hnw : node = w := by
            by_contra hnw
            obtain ⟨rest, hrest⟩ := dcChase_ne
              (s.trace ++ [TraceEvent.edgeEv node w]) w node hnw
              (s.trace ++ [TraceEvent.edgeEv node w]).length [w]
            rw [hrest] at hlen
            simp at hlen
            omega
          refine ⟨⟨fun x hx => hx, fun x hx hr => ⟨hx, hr⟩,
            fun hcn => (nomatch hcn), fun hcn => (nomatch hcn),
            fun c _ => hCyc, fun c hc => ?_⟩, fun hcn => (nomatch hcn)⟩
          have hc' : path ++ [node, w] = c := Option.some_inj.mp hc
          left
          refine ⟨path, node, ?_, hnw ▸ hwadj, ?_⟩
          · rw [← hc', hnw]
          · obtain ⟨h, t, hp1, hwalk⟩ := hEnds
            intro x hx
            have hxp1 : x ∈ h :: t := by
              rw [← hp1]
              exact List.mem_append_left _ hx
            have hxn : x ≠ node := by
              intro he
              have := List.nodup_append.mp hnd
              exact this.2.2 hx (by rw [he]; exact List.mem_singleton.mpr rfl)
            exact walk_each_succ hwalk (hp1 ▸ hnd) x hxp1 hxn
        next hlen =>
          -- proper reconstruction: the chase put `[w, node, ...]` down
          have hnw : node ≠ w := by
            intro he
            rw [he, dcChase_self] at hlen
            simp at hlen
          obtain ⟨rest, hrest⟩ := dcChase_ne
            (s.trace ++ [TraceEvent.edgeEv node w]) w node hnw
            (s.trace ++ [TraceEvent.edgeEv node w]).length [w]
          refine ⟨⟨fun x hx => hx, fun x hx hr => ⟨hx, hr⟩,
            fun hcn => (nomatch hcn), fun hcn => (nomatch hcn),
            fun c _ => hCyc, fun c hc => ?_⟩, fun hcn => (nomatch hcn)⟩
          have hc' := Option.some_inj.mp hc
          right
          refine ⟨node, w, ?_, ?_, hwadj, hnw⟩
          · rw [← hc', List.mem_reverse, hrest]
            exact List.mem_append_left _
              (List.mem_append_left _ (List.mem_append_right _
                (List.mem_singleton.mpr rfl)))
          · rw [← hc', List.mem_reverse]
            exact List.mem_append_right _ (List.mem_singleton.mpr rfl)
      · -- black neighbor: skip (after pushing the edge event)
        rw [if_neg hwr]
        have hns' : ∀ x ∈ ws, x ∈ g.adj node :=
          fun x hx => hns x (List.mem_cons_of_mem _ hx)
        obtain ⟨postL, procL⟩ :=
          ih { s with trace := s.trace ++ [TraceEvent.edgeEv node w] }
            hns' hfuel ⟨hinv.rec_sub, hinv.black_closed, hinv.no_black_cycle⟩
            hrec hEnds hnd
        refine ⟨⟨postL.vis_mono, postL.black_mono, postL.none_rec,
          postL.none_inv, postL.some_cyclic, postL.some_shape⟩, ?_⟩
        intro hcn w' hw'
        rcases List.mem_cons.mp hw' with he | hm
        · subst he
          exact postL.black_mono w' hwv hwr
        · exact procL hcn w' hm
    · -- unvisited neighbor: recurse
      rw [if_pos hwv]
      have hwadj : w ∈ g.adj node := hns w (List.mem_cons_self ..)
      have hwnode : w ∈ g.nodes := (hwf node w hwadj).2
      have hpathw : PathTo g (path ++ [node]) w := by
        obtain ⟨h, t, he, hwalk⟩ := hEnds
        rw [he]
        exact walk_append_edge hwalk hwadj
      obtain ⟨post₁, hwvis₁⟩ := dfsSpec w (path ++ [node])
        { s with trace := s.trace ++ [TraceEvent.edgeEv node w] }
        hwnode hwv hfuel ⟨hinv.rec_sub, hinv.black_closed, hinv.no_black_cycle⟩
        hrec hnd hpathw
      cases hdd : dcDfs g fuel w (path ++ [node])
          { s with trace := s.trace ++ [TraceEvent.edgeEv node w] } with
      | mk o₁ s₁ =>
        rw [hdd] at post₁ hwvis₁
        cases o₁ with
        | some c =>
          exact ⟨⟨post₁.vis_mono, post₁.black_mono,
            fun hcn => (nomatch hcn), fun hcn => (nomatch hcn),
            post₁.some_cyclic, post₁.some_shape⟩,
            fun hcn => (nomatch hcn)⟩
        | none =>
          have hns' : ∀ x ∈ ws, x ∈ g.adj node :=
            fun x hx => hns x (List.mem_cons_of_mem _ hx)
          have hle₁ : unvis g s₁.visited ≤ fuel :=
            le_trans (unvis_mono post₁.vis_mono) hfuel
          have hrec₁ : ∀ x, x ∈ s₁.recStack ↔ x ∈ path ++ [node] := by
            intro x
            rw [post₁.none_rec rfl x]
            exact hrec x
          obtain ⟨postL, procL⟩ := ih s₁ hns' hle₁ (post₁.none_inv rfl)
            hrec₁ hEnds hnd
          refine ⟨⟨?_, ?_, ?_, postL.none_inv, postL.some_cyclic,
            postL.some_shape⟩, ?_⟩
          · exact fun x hx => postL.vis_mono x (post₁.vis_mono x hx)
          · intro x hx hr
            obtain ⟨a, b⟩ := post₁.black_mono x hx hr
            exact postL.black_mono x a b
          · intro hcn x
            rw [postL.none_rec hcn x, post₁.none_rec rfl x]
          · intro hcn w' hw'
            rcases List.mem_cons.mp hw' with he | hm
            · subst he
              have hw_nrec : w' ∉ s.recStack :=
                fun hcr => hwv (hinv.rec_sub w' hcr)
              have hw_nrec₁ : w' ∉ s₁.recStack :=
                fun hcr => hw_nrec ((post₁.none_rec rfl w').mp hcr)
              exact postL.black_mono w' hwvis₁ hw_nrec₁
            · exact procL hcn w' hm

theorem dcDfs_spec (g : Graph) (hwf : Wf g) :
    ∀ (fuel : Nat) (node : String) (path : List String) (s : DCState),
      node ∈ g.nodes → node ∉ s.visited → unvis g s.visited ≤ fuel →
      DCInv g s → (∀ x, x ∈ s.recStack ↔ x ∈ path) → path.Nodup →
      PathTo g path node →
      DCPost g s (dcDfs g fuel node path s) ∧
        node ∈ (dcDfs g fuel node path s).2.visited := by
  intro fuel
  induction fuel with
  | zero =>
    intro node path s hn hv hfuel _ _ _ _
    have := @unvis_pos g s.visited node hn hv
    omega
  | succ fuel ih =>
    intro node path s hn hv hfuel hinv hrec hnd hpath
    rw [dcDfs]
    have hnrec0 : node ∉ s.recStack := fun h => hv (hinv.rec_sub node h)
    have hnp : node ∉ path := fun h => hv (hinv.rec_sub node ((hrec node).mpr h))
    have hnd1 : (path ++ [node]).Nodup := by
      rw [List.nodup_append]
      refine ⟨hnd, List.nodup_singleton _, ?_⟩
      intro a ha hb
      rw [List.mem_singleton] at hb
      exact hnp (hb ▸ ha)
    set s1 : DCState := { visited := setAdd s.visited node,
                          recStack := setAdd s.recStack node,
                          trace := s.trace ++
                            [TraceEvent.visit node (path ++ [node])] } with hs1
    have hvm01 : ∀ x ∈ s.visited, x ∈ s1.visited :=
      fun x hx => mem_setAdd.mpr (Or.inl hx)
    have hnv1 : node ∈ s1.visited := mem_setAdd.mpr (Or.inr rfl)
    have hnr1 : node ∈ s1.recStack := mem_setAdd.mpr (Or.inr rfl)
    have hb01 : ∀ x, x ∈ s.visited → x ∉ s.recStack →
        x ∈ s1.visited ∧ x ∉ s1.recStack := by
      intro x hxv hxr
      refine ⟨hvm01 x hxv, fun hc => ?_⟩
      rcases mem_setAdd.mp hc with h | h
      · exact hxr h
      · exact hv (h ▸ hxv)
    have hinv1 : DCInv g s1 := by
      refine ⟨?_, ?_, ?_⟩
      · intro x hx
        rcases mem_setAdd.mp hx with h | h
        · exact mem_setAdd.mpr (Or.inl (hinv.rec_sub x h))
        · exact mem_setAdd.mpr (Or.inr h)
      · intro x hxv hxr y hy
        rcases mem_setAdd.mp hxv with hxv' | hxv'
        · have hxr' : x ∉ s.recStack := fun hcc =>
            hxr (mem_setAdd.mpr (Or.inl hcc))
          obtain ⟨hy1, hy2⟩ := hinv.black_closed x hxv' hxr' y hy
          refine ⟨mem_setAdd.mpr (Or.inl hy1), fun hcc => ?_⟩
          rcases mem_setAdd.mp hcc with h | h
          · exact hy2 h
          · exact hv (h ▸ hy1)
        · exact absurd (mem_setAdd.mpr (Or.inr hxv')) hxr
      · intro v l hl hwalk hvv
        rcases mem_setAdd.mp hvv with hvv' | hvv'
        · exact mem_setAdd.mpr (Or.inl (hinv.no_black_cycle v l hl hwalk hvv'))
        · exact mem_setAdd.mpr (Or.inr hvv')
    have hrec1 : ∀ x, x ∈ s1.recStack ↔ x ∈ path ++ [node] := by
      intro x
      show x ∈ setAdd s.recStack node ↔ _
      rw [mem_setAdd, hrec x, List.mem_append, List.mem_singleton]
    have hfuel1 : unvis g s1.visited ≤ fuel := by
      have := @unvis_lt g s.visited s1.visited node hn hv hvm01 hnv1
      omega
    obtain ⟨postL, procL⟩ := dcLoop_spec g hwf fuel ih
      (g.adj node) node path s1 (fun w hw => hw) hfuel1 hinv1 hrec1
      (endsAt_of_pathTo hpath) hnd1
    cases hll : dcLoop g (dcDfs g fuel) node path (g.adj node) s1 with
    | mk o2 s2 =>
      rw [hll] at postL procL
      cases o2 with
      | some c =>
        refine ⟨⟨?_, ?_, fun hcn => (nomatch hcn), fun hcn => (nomatch hcn),
          postL.some_cyclic, postL.some_shape⟩, postL.vis_mono node hnv1⟩
        · exact fun x hx => postL.vis_mono x (hvm01 x hx)
        · intro x hxv hxr
          obtain ⟨a, b⟩ := hb01 x hxv hxr
          exact postL.black_mono x a b
      | none =>
        have hrecL : ∀ x, x ∈ s2.recStack ↔ x ∈ s1.recStack :=
          postL.none_rec rfl
        have hinv2 : DCInv g s2 := postL.none_inv rfl
        have hnode_rec2 : node ∈ s2.recStack := (hrecL node).mpr hnr1
        refine ⟨⟨?_, ?_, ?_, ?_, fun c hc => (nomatch hc),
          fun c hc => (nomatch hc)⟩, postL.vis_mono node hnv1⟩
        · exact fun x hx => postL.vis_mono x (hvm01 x hx)
        · intro x hxv hxr
          obtain ⟨a, b⟩ := hb01 x hxv hxr
          obtain ⟨a2, b2⟩ := postL.black_mono x a b
          exact ⟨a2, fun hcc => b2 (mem_setDel.mp hcc).1⟩
        · -- the recursion stack is restored exactly
          intro _ x
          show x ∈ setDel s2.recStack node ↔ _
          rw [mem_setDel]
          constructor
          · rintro ⟨hx2, hxn⟩
            rcases mem_setAdd.mp ((hrecL x).mp hx2) with h | h
            · exact h
            · exact absurd h hxn
          · intro hx
            have hxn : x ≠ node := fun he => hnrec0 (he ▸ hx)
            exact ⟨(hrecL x).mpr (mem_setAdd.mpr (Or.inl hx)), hxn⟩
        · -- the invariant holds after `node` turns black
          intro _
          refine ⟨?_, ?_, ?_⟩
          · intro x hx
            exact hinv2.rec_sub x (mem_setDel.mp hx).1
          · intro x hxv hxr y hy
            by_cases hxn : x = node
            · obtain ⟨hy1, hy2⟩ := procL rfl y (hxn ▸ hy)
              exact ⟨hy1, fun hcc => hy2 (mem_setDel.mp hcc).1⟩
            · have hxr2 : x ∉ s2.recStack := fun hcc =>
                hxr (mem_setDel.mpr ⟨hcc, hxn⟩)
              obtain ⟨hy1, hy2⟩ := hinv2.black_closed x hxv hxr2 y hy
              exact ⟨hy1, fun hcc => hy2 (mem_setDel.mp hcc).1⟩
          · intro v l hl hwalk hvv
            have hvrec2 : v ∈ s2.recStack :=
              hinv2.no_black_cycle v l hl hwalk hvv
            by_cases hvn : v = node
            · exfalso
              cases l with
              | nil => exact hl rfl
              | cons x xs =>
                obtain ⟨hx, hwalk'⟩ := hwalk
                obtain ⟨hxv2, hxr2⟩ := procL rfl x (hvn ▸ hx)
                obtain ⟨-, hnr2⟩ :=
                  walk_stays_black hinv2.black_closed
                    (hvn ▸ hwalk') hxv2 hxr2
                exact hnr2 hnode_rec2
            · exact mem_setDel.mpr ⟨hvrec2, hvn⟩

theorem dcOuter_spec (g : Graph) (hwf : Wf g) (fuel : Nat) :
    ∀ (roots : List String) (s : DCState),
      (∀ r ∈ roots, r ∈ g.nodes) →
      unvis g s.visited ≤ fuel →
      DCInv g s →
      (∀ x, ¬ x ∈ s.recStack) →
      (∀ c, (dcOuter g fuel roots s).1 = some c → Cyclic g ∧ CycShape g c) ∧
        ((dcOuter g fuel roots s).1 = none →
          DCInv g (dcOuter g fuel roots s).2 ∧
            (∀ r ∈ roots, r ∈ (dcOuter g fuel roots s).2.visited) ∧
            (∀ x ∈ s.visited, x ∈ (dcOuter g fuel roots s).2.visited) ∧
            (∀ x, ¬ x ∈ (dcOuter g fuel roots s).2.recStack)) := by
  intro roots
  induction roots with
  | nil =>
    intro s _ _ hinv hrec
    rw [dcOuter]
    exact ⟨fun c hc => (nomatch hc),
      fun _ => ⟨hinv, fun r hr => absurd hr (List.not_mem_nil r),
        fun x hx => hx, hrec⟩⟩
  | cons n ns ih =>
    intro s hroots hfuel hinv hrec
    rw [dcOuter]
    have hroots' : ∀ r ∈ ns, r ∈ g.nodes :=
      fun r hr => hroots r (List.mem_cons_of_mem _ hr)
    by_cases hnv : n ∈ s.visited
    · rw [if_neg (fun hc => hc hnv)]
      obtain ⟨i1, i2⟩ := ih s hroots' hfuel hinv hrec
      refine ⟨i1, fun hres => ?_⟩
      obtain ⟨j1, j2, j3, j4⟩ := i2 hres
      refine ⟨j1, ?_, j3, j4⟩
      intro r hr
      rcases List.mem_cons.mp hr with he | hm
      · exact he ▸ j3 n hnv
      · exact j2 r hm
    · rw [if_pos hnv]
      have hrec0 : ∀ x, x ∈ s.recStack ↔ x ∈ ([] : List String) :=
        fun x => ⟨fun h => absurd h (hrec x),
          fun h => absurd h (List.not_mem_nil x)⟩
      obtain ⟨post, hnodevis⟩ := dcDfs_spec g hwf fuel n [] s
        (hroots n (List.mem_cons_self ..)) hnv hfuel hinv hrec0
        List.nodup_nil trivial
      cases hdd : dcDfs g fuel n [] s with
      | mk o1 s1 =>
        rw [hdd] at post hnodevis
        cases o1 with
        | some c =>
          exact ⟨fun c' hc' => ⟨post.some_cyclic c' hc', post.some_shape c' hc'⟩,
            fun hcn => (nomatch hcn)⟩
        | none =>
          have hfuel1 : unvis g s1.visited ≤ fuel :=
            le_trans (unvis_mono post.vis_mono) hfuel
          have hrec1 : ∀ x, ¬ x ∈ s1.recStack :=
            fun x hx => hrec x ((post.none_rec rfl x).mp hx)
          obtain ⟨i1, i2⟩ := ih s1 hroots' hfuel1 (post.none_inv rfl) hrec1
          refine ⟨i1, fun hres => ?_⟩
          obtain ⟨j1, j2, j3, j4⟩ := i2 hres
          refine ⟨j1, ?_, fun x hx => j3 x (post.vis_mono x hx), j4⟩
          intro r hr
          rcases List.mem_cons.mp hr with he | hm
          · exact he ▸ j3 n hnodevis
          · exact j2 r hm

/-- `dfsDetectCycle` reports `cycle = null` exactly on acyclic graphs. -/
theorem dfsDetectCycle_none_iff (g : Graph) (hwf : Wf g) :
    (dfsDetectCycle g).cycle = none ↔ Acyclic g := by
  obtain ⟨hsome, hnone⟩ := dcOuter_spec g hwf (g.nodes.length + 1) g.nodes
    ⟨[], [], []⟩ (fun r hr => hr) (Nat.le_succ_of_le (unvis_init_le g))
    ⟨fun x hx => absurd hx (List.not_mem_nil x),
      fun x hx => absurd hx (List.not_mem_nil x),
      fun v _ _ _ hv => absurd hv (List.not_mem_nil v)⟩
    (fun x hx => List.not_mem_nil x hx)
  show (dcOuter g (g.nodes.length + 1) g.nodes ⟨[], [], []⟩).1 = none ↔ _
  constructor
  · intro hres hCyc
    obtain ⟨inv', rootsvis, _, recempty⟩ := hnone hres
    obtain ⟨v, l, hl, hwalk⟩ := hCyc
    have hvnode : v ∈ g.nodes := by
      cases l with
      | nil => exact absurd rfl hl
      | cons x xs => exact (hwf v x hwalk.1).1
    exact recempty v (inv'.no_black_cycle v l hl hwalk (rootsvis v hvnode))
  · intro hA
    cases hres : (dcOuter g (g.nodes.length + 1) g.nodes ⟨[], [], []⟩).1 with
    | none => rfl
    | some c => exact absurd (hsome c hres).1 hA

/-- Whatever cycle list `dfsDetectCycle` returns has the recorded shape. -/
theorem dfsDetectCycle_shape (g : Graph) (hwf : Wf g) :
    ∀ c, (dfsDetectCycle g).cycle = some c → CycShape g c := by
  obtain ⟨hsome, _⟩ := dcOuter_spec g hwf (g.nodes.length + 1) g.nodes
    ⟨[], [], []⟩ (fun r hr => hr) (Nat.le_succ_of_le (unvis_init_le g))
    ⟨fun x hx => absurd hx (List.not_mem_nil x),
      fun x hx => absurd hx (List.not_mem_nil x),
      fun v _ _ _ hv => absurd hv (List.not_mem_nil v)⟩
    (fun x hx => List.not_mem_nil x hx)
  exact fun c hc => (hsome c hc).2

/-- On the empty graph `dfsDetectCycle` reports no cycle and zero visited. -/
theorem dfsDetectCycle_empty (g : Graph) (h : g.nodes = []) :
    (dfsDetectCycle g).cycle = none ∧ (dfsDetectCycle g).visited = 0 := by
  unfold dfsDetectCycle
  rw [h]
  rw [dcOuter]
  exact ⟨rfl, rfl⟩

/-! ### Claim C4 -/

/-- A graph given by an association list, for concrete instances. -/
def Graph.ofAssoc (l : List (String × List String)) : Graph :=
  ⟨l.map Prod.fst, fun n => ((l.find? (fun p => p.1 == n)).map Prod.snd).getD []⟩

/-- When every listed successor is itself a key, the association graph is
well formed. -/
theorem ofAssoc_wf (l : List (String × List String))
    (h : l.all (fun p => p.2.all (fun t => l.any (fun q => q.1 == t))) = true) :
    Wf (Graph.ofAssoc l) := by
  intro a b hb
  unfold Graph.ofAssoc at hb ⊢
  dsimp only at hb ⊢
  cases hf : l.find? (fun p => p.1 == a) with
  | none =>
    rw [hf] at hb
    simp at hb
  | some p =>
    rw [hf] at hb
    replace hb : b ∈ p.2 := hb
    have hpmem : p ∈ l := List.mem_of_find?_eq_some hf
    have hpa : p.1 = a := by simpa using List.find?_some hf
    constructor
    · rw [← hpa]
      exact List.mem_map_of_mem _ hpmem
    · have h1 := (List.all_eq_true.mp h) p hpmem
      have h2 := (List.all_eq_true.mp h1) b hb
      obtain ⟨q, hq, he⟩ := List.any_eq_true.mp h2
      have : q.1 = b := by simpa using he
      rw [← this]
      exact List.mem_map_of_mem _ hq

/-- C4: for every well-formed WFG, both DFS detectors report no cycle
(`hasCycle = false` for `detectDeadlock`, `cycle = null` for
`dfsDetectCycle`) exactly when the directed graph given by
`getNodes()`/`getNeighbors()` is acyclic; and on the empty graph both report
no cycle and zero visited nodes. -/
theorem C4_dfs_detects_iff_cyclic (g : Graph) (hwf : Wf g) :
    ((detectDeadlock g).hasCycle = false ↔ Acyclic g) ∧
      ((dfsDetectCycle g).cycle = none ↔ Acyclic g) ∧
      (g.nodes = [] →
        (detectDeadlock g).hasCycle = false ∧
          (detectDeadlock g).visitedNodes = 0 ∧
          (dfsDetectCycle g).cycle = none ∧
          (dfsDetectCycle g).visited = 0) :=
  ⟨detectDeadlock_no_cycle_iff g hwf,
    dfsDetectCycle_none_iff g hwf,
    fun h => ⟨(detectDeadlock_empty g h).1, (detectDeadlock_empty g h).2.2,
      (dfsDetectCycle_empty g h).1, (dfsDetectCycle_empty g h).2⟩⟩

/-- The triangle WFG `T1 → T2 → T3 → T1`. -/
def c4g : Graph :=
  Graph.ofAssoc [("T1", ["T2"]), ("T2", ["T3"]), ("T3", ["T1"])]

/-- Witness for C4 at the concrete triangle: well-formedness discharged by
computation, and the iff instantiated there (both detectors do report a
cycle on it). -/
theorem C4_witness :
    ((detectDeadlock c4g).hasCycle = false ↔ Acyclic c4g) ∧
      (detectDeadlock c4g).hasCycle = true ∧
      (dfsDetectCycle c4g).cycle = some ["T1", "T2", "T3", "T1"] :=
  ⟨(C4_dfs_detects_iff_cyclic c4g (ofAssoc_wf _ (by decide))).1,
    by decide, by decide⟩

/-! ## Victim selection (part_000 lines 212–232 and 495–536;
deadlockDetection.js lines 235–253) — claims C7 and C8 -/

/-- In-degree of `node`: the `for (const n of wfg.getNodes())` count of nodes
whose neighbor list contains `node` (part_000 lines 221–224). -/
def inDeg (g : Graph) (node : String) : Nat :=
  g.nodes.countP (fun n => (g.adj n).contains node)

/-- The degree score `outDeg + inDeg * 0.5` of part_000 line 225, doubled to
stay in integers: `2*outDeg + inDeg`.  Doubling is strictly monotone, so
every `score > bestScore` comparison of the source is preserved when the
sentinel `-1` is likewise doubled to `-2`. -/
def degScore (g : Graph) (node : String) : Nat :=
  2 * (g.adj node).length + inDeg g node

/-- The `for (const node of cycle)` loop of `selectVictimFromCycle`
(part_000 lines 218–230): strict-improvement maximum of `degScore`,
carrying the current victim and best score (doubled, see `degScore`). -/
def svcLoop (g : Graph) : List String → String → Int → String
  | [], victim, _ => victim
  | n :: ns, victim, best =>
    let score : Int := degScore g n
    if best < score then svcLoop g ns n score
    else svcLoop g ns victim best

/-- `selectVictimFromCycle(wfg, cycle)` (part_000 lines 214–232): `null` on
an empty cycle, otherwise the strict-max `degScore` node, initial victim
`cycle[0]`, initial best score `-1` (doubled to `-2`). -/
def selectVictimFromCycle (g : Graph) (cycle : List String) : Option String :=
  match cycle with
  | [] => none
  | c0 :: rest => some (svcLoop g (c0 :: rest) c0 (-2))

/-- Per-neighbor body of `bfsSum`'s while loop (part_000 lines 510–516):
state `(pending queue, seen, dist)`; a new neighbor is enqueued, marked seen
and recorded at distance `dc + 1` (`dc` the distance of the dequeued node). -/
def bfsStep (dc : Nat) (st : List String × List String × List (String × Nat))
    (nb : String) : List String × List String × List (String × Nat) :=
  if nb ∈ st.2.1 then st
  else (st.1 ++ [nb], st.2.1 ++ [nb], st.2.2 ++ [(nb, dc + 1)])

def lookupNat (d : List (String × Nat)) (k : String) : Option Nat :=
  (d.find? (fun p => p.1 == k)).map (fun p => p.2)

/-- The `while (idx < q.length)` loop of `bfsSum` (part_000 lines 508–517).
The queue-with-read-pointer is modelled by its unread suffix `pend`
(pushes append to it).  Every dequeued node was enqueued together with its
`dist` entry, so the `getD 0` default is never taken (in JS a missing entry
would yield `NaN`).  `fuel` bounds the number of dequeues; queue entries are
pairwise distinct members of `seen`, so under `Wf` the source loop dequeues
at most `g.nodes.length + 1` times and the fuel passed by `bfsSum` is never
exhausted — the theorems below only use that the recorded distances never
disappear, which holds for every fuel. -/
def bfsSumLoop (g : Graph) (fuel : Nat) (pend seen : List String)
    (dist : List (String × Nat)) : List (String × Nat) :=
  match fuel, pend with
  | 0, _ => dist
  | _ + 1, [] => dist
  | fuel + 1, cur :: rest =>
    let dc := (lookupNat dist cur).getD 0
    let st := (g.adj cur).foldl (bfsStep dc) (rest, seen, dist)
    bfsSumLoop g fuel st.1 st.2.1 st.2.2

/-- `Object.values(dist).reduce((a, b) => a + b, 0)` (part_000 line 519). -/
def sumDist (d : List (String × Nat)) : Nat := d.foldl (fun a p => a + p.2) 0

/-- `bfsSum(start)` (part_000 lines 503–520): sum of the BFS distances from
`start` to every discovered node. -/
def bfsSum (g : Graph) (start : String) : Nat :=
  sumDist (bfsSumLoop g (g.nodes.length + 1) [start] [start] [(start, 0)])

/-- `score > bestScore` where `bestScore` starts at `-Infinity` (part_000
line 523), modelled as `none`; scores are sums of nonnegative integer
distances, so every score beats `-Infinity`. -/
def scoreBeats (bestScore : Option Nat) (score : Nat) : Bool :=
  match bestScore with
  | none => true
  | some b => decide (b < score)

/-- The `for (const node of cycle)` loop of `bfsVictimSelection` (part_000
lines 524–530). -/
def bvsLoop (g : Graph) : List String → Option String → Option Nat →
    Option String
  | [], best, _ => best
  | n :: ns, best, bestScore =>
    let score := bfsSum g n
    if scoreBeats bestScore score then bvsLoop g ns (some n) (some score)
    else bvsLoop g ns best bestScore

/-- `bfsVictimSelection(wfg)` (part_000 lines 495–536), returning the
`{victim, cycle}` pair.  The `if (!best) best = selectVictimFromCycle(...)`
fallback of line 533 is the `none` branch of the final match. -/
def bfsVictimSelection (g : Graph) : Option String × Option (List String) :=
  match (dfsDetectCycle g).cycle with
  | none => (none, none)
  | some c =>
    if c.length = 0 then (none, none)
    else
      match bvsLoop g c none none with
      | none => (selectVictimFromCycle g c, some c)
      | some v => (some v, some c)

/-- `parseInt(s)` restricted to what victim ids exercise: an optional sign
followed by leading decimal digits; `none` models `NaN` (no digits).
Whitespace/radix handling of full `parseInt` is not modelled — transaction
ids are `T<number>`, so `id.substring(1)` is a plain digit string. -/
def jsParseInt (s : String) : Option Int :=
  let p : Int × List Char := match s.data with
    | '-' :: t => (-1, t)
    | '+' :: t => (1, t)
    | t => (1, t)
  let ds := p.2.takeWhile Char.isDigit
  if ds.isEmpty then none
  else some (p.1 * (ds.foldl (fun acc c => acc * 10 + (c.toNat - 48)) 0 : Nat))

/-- The comparator of `selectVictim` (deadlockDetection.js lines 246–250):
`parseInt(a.id.substring(1)) - parseInt(b.id.substring(1))`; per the
`Array.prototype.sort` specification a `NaN` comparator value is treated as
`+0`, which the catch-all branch implements. -/
def svCmp (a b : String) : Int :=
  match jsParseInt (a.drop 1), jsParseInt (b.drop 1) with
  | some x, some y => x - y
  | _, _ => 0

/-- `selectVictim(cycle, transactions)` (deadlockDetection.js lines
235–253).  Each `victims` entry `{id: nodeId, ...tx}` keeps `id = nodeId`
(the spread's own `id` is the same string the entry was found by), modelled
as the pair of the id and the found transaction.  `victims.sort(...)` is
modelled as a stable insertion sort under `svCmp _ ≤ 0`; the theorems only
use that every `Array.prototype.sort` result is a permutation of its input.
`victims[victims.length - 1]` on an empty array is `undefined`, modelled as
`none` — which happens exactly on cycles of length ≤ 1, where
`cycle.slice(0, -1)` is empty. -/
def selectVictim (cycle : List String) (transactions : List Transaction) :
    Option (String × Option Transaction) :=
  if cycle.length = 0 then none
  else
    let cycleNodes := cycle.dropLast
    let victims := cycleNodes.map
      (fun nodeId => (nodeId, transactions.find? (fun t => t.id == nodeId)))
    (victims.insertionSort (fun a b => svCmp a.1 b.1 ≤ 0)).getLast?

theorem svcLoop_mem (g : Graph) :
    ∀ (ns : List String) (victim : String) (best : Int),
      svcLoop g ns victim best ∈ victim :: ns := by
  intro ns
  induction ns with
  | nil =>
    intro v b
    rw [svcLoop]
    exact List.mem_cons_self ..
  | cons n ns ih =>
    intro v b
    rw [svcLoop]
    split
    · exact List.mem_cons_of_mem _ (ih n _)
    · rcases List.mem_cons.mp (ih v b) with he | hm
      · rw [he]
        exact List.mem_cons_self ..
      · exact List.mem_cons_of_mem _ (List.mem_cons_of_mem _ hm)

theorem bvsLoop_some_mem (g : Graph) :
    ∀ (ns : List String) (v : String) (bs : Option Nat),
      ∃ u, bvsLoop g ns (some v) bs = some u ∧ (u = v ∨ u ∈ ns) := by
  intro ns
  induction ns with
  | nil =>
    intro v bs
    exact ⟨v, rfl, Or.inl rfl⟩
  | cons n ns ih =>
    intro v bs
    rw [bvsLoop]
    split
    · obtain ⟨u, hu, hmem⟩ := ih n _
      refine ⟨u, hu, Or.inr ?_⟩
      rcases hmem with he | hm
      · rw [he]
        exact List.mem_cons_self ..
      · exact List.mem_cons_of_mem _ hm
    · obtain ⟨u, hu, hmem⟩ := ih v bs
      refine ⟨u, hu, ?_⟩
      rcases hmem with he | hm
      · exact Or.inl he
      · exact Or.inr (List.mem_cons_of_mem _ hm)

theorem bvsLoop_from_none (g : Graph) (n : String) (ns : List String) :
    ∃ u, bvsLoop g (n :: ns) none none = some u ∧ u ∈ n :: ns := by
  obtain ⟨u, hu, hmem⟩ := bvsLoop_some_mem g ns n (some (bfsSum g n))
  refine ⟨u, hu, ?_⟩
  rcases hmem with he | hm
  · rw [he]
    exact List.mem_cons_self ..
  · exact List.mem_cons_of_mem _ hm

theorem sumDist_append (d : List (String × Nat)) (p : String × Nat) :
    sumDist (d ++ [p]) = sumDist d + p.2 := by
  simp [sumDist, List.foldl_append]

theorem bfsStep_sum_le (dc : Nat)
    (st : List String × List String × List (String × Nat)) (nb : String) :
    sumDist st.2.2 ≤ sumDist (bfsStep dc st nb).2.2 := by
  unfold bfsStep
  split
  · exact le_refl _
  · show sumDist st.2.2 ≤ sumDist (st.2.2 ++ [(nb, dc + 1)])
    rw [sumDist_append]
    omega

theorem bfsStep_seen_sub (dc : Nat)
    (st : List String × List String × List (String × Nat)) (nb x : String)
    (hx : x ∈ st.2.1) : x ∈ (bfsStep dc st nb).2.1 := by
  unfold bfsStep
  split
  · exact hx
  · exact List.mem_append_left _ hx

theorem bfsStep_seen_self (dc : Nat)
    (st : List String × List String × List (String × Nat)) (nb : String) :
    nb ∈ (bfsStep dc st nb).2.1 := by
  unfold bfsStep
  split
  · next h => exact h
  · exact List.mem_append_right _ (List.mem_singleton.mpr rfl)

theorem bfsFold_sum_le (dc : Nat) :
    ∀ (nbs : List String)
      (st : List String × List String × List (String × Nat)),
      sumDist st.2.2 ≤ sumDist (nbs.foldl (bfsStep dc) st).2.2 := by
  intro nbs
  induction nbs with
  | nil =>
    intro st
    exact le_refl _
  | cons n ns ih =>
    intro st
    rw [List.foldl_cons]
    exact le_trans (bfsStep_sum_le dc st n) (ih _)

/-- If `w` is among the scanned neighbors (or already seen at a sum witness
`base + dc + 1`), the fold's distance sum reaches `base + dc + 1`: either
`w`'s entry is appended during the fold or it was counted before. -/
theorem bfsFold_sum_of_new (dc : Nat) (w : String) (base : Nat) :
    ∀ (nbs : List String)
      (st : List String × List String × List (String × Nat)),
      (if w ∈ st.2.1 then base + dc + 1 ≤ sumDist st.2.2
       else base ≤ sumDist st.2.2) →
      (w ∈ nbs ∨ w ∈ st.2.1) →
      base + dc + 1 ≤ sumDist (nbs.foldl (bfsStep dc) st).2.2 := by
  intro nbs
  induction nbs with
  | nil =>
    intro st hphi hw
    rcases hw with h | h
    · exact absurd h (List.not_mem_nil w)
    · rw [List.foldl_nil]
      rw [if_pos h] at hphi
      exact hphi
  | cons n ns ih =>
    intro st hphi hw
    rw [List.foldl_cons]
    apply ih (bfsStep dc st n)
    · unfold bfsStep
      split
      · exact hphi
      · next hnotin =>
        show (if w ∈ st.2.1 ++ [n] then
            base + dc + 1 ≤ sumDist (st.2.2 ++ [(n, dc + 1)])
          else base ≤ sumDist (st.2.2 ++ [(n, dc + 1)]))
        by_cases hw2 : w ∈ st.2.1
        · rw [if_pos hw2] at hphi
          rw [if_pos (List.mem_append_left _ hw2), sumDist_append]
          omega
        · rw [if_neg hw2] at hphi
          by_cases hwn : w = n
          · have hmem : w ∈ st.2.1 ++ [n] := by
              rw [hwn]
              exact List.mem_append_right _ (List.mem_singleton.mpr rfl)
            rw [if_pos hmem, sumDist_append]
            omega
          · have hnm : ¬ w ∈ st.2.1 ++ [n] := by
              intro hcon
              rcases List.mem_append.mp hcon with h1 | h1
              · exact hw2 h1
              · exact hwn (List.mem_singleton.mp h1)
            rw [if_neg hnm, sumDist_append]
            omega
    · rcases hw with h | h
      · rcases List.mem_cons.mp h with he | hm
        · rw [he]
          exact Or.inr (bfsStep_seen_self dc st n)
        · exact Or.inl hm
      · exact Or.inr (bfsStep_seen_sub dc st n w h)

theorem bfsSumLoop_sum_le (g : Graph) :
    ∀ (fuel : Nat) (pend seen : List String) (dist : List (String × Nat)),
      sumDist dist ≤ sumDist (bfsSumLoop g fuel pend seen dist) := by
  intro fuel
  induction fuel with
  | zero =>
    intro pend seen dist
    exact le_refl _
  | succ fuel ih =>
    intro pend seen dist
    cases pend with
    | nil => exact le_refl _
    | cons cur rest =>
      rw [bfsSumLoop]
      exact le_trans (bfsFold_sum_le _ _ ⟨rest, seen, dist⟩) (ih _ _ _)

/-- A node with a distinct successor gets a positive BFS distance sum: the
very first dequeue records that successor at distance 1, and recorded
distances are never removed. -/
theorem bfsSum_pos (g : Graph) (start w : String) (hw : w ∈ g.adj start)
    (hne : w ≠ start) : 0 < bfsSum g start := by
  unfold bfsSum
  rw [bfsSumLoop]
  have hdc : (lookupNat [(start, 0)] start).getD 0 = 0 := by
    simp [lookupNat]
  rw [hdc]
  set st := (g.adj start).foldl (bfsStep 0) ([], [start], [(start, 0)]) with hst
  have h1 : 0 + 0 + 1 ≤ sumDist st.2.2 := by
    rw [hst]
    apply bfsFold_sum_of_new 0 w 0 (g.adj start) ([], [start], [(start, 0)])
    · rw [if_neg]
      · exact Nat.zero_le _
      · intro hcon
        exact hne (List.mem_singleton.mp hcon)
    · exact Or.inl hw
  have h2 := bfsSumLoop_sum_le g g.nodes.length st.1 st.2.1 st.2.2
  omega

theorem bvsLoop_pair (g : Graph) (n : String) :
    bvsLoop g [n, n] none none = some n := by
  show bvsLoop g [n] (some n) (some (bfsSum g n)) = some n
  rw [bvsLoop]
  have hcond : scoreBeats (some (bfsSum g n)) (bfsSum g n) = false := by
    unfold scoreBeats
    simp
  rw [hcond]
  rw [if_neg (by simp)]
  rfl

theorem svc_pair (g : Graph) (n : String) :
    selectVictimFromCycle g [n, n] = some n := by
  unfold selectVictimFromCycle
  dsimp only
  rw [svcLoop]
  rw [if_pos (by omega : (-2 : Int) < ↑(degScore g n))]
  rw [svcLoop]
  rw [if_neg (lt_irrefl _)]
  rfl

theorem getLast?_mem_of_ne_nil {α : Type} :
    ∀ (l : List α), l ≠ [] → ∃ x, l.getLast? = some x ∧ x ∈ l
  | [], h => absurd rfl h
  | [a], _ => ⟨a, rfl, List.mem_singleton.mpr rfl⟩
  | a :: b :: t, _ => by
    obtain ⟨x, hx, hmem⟩ := getLast?_mem_of_ne_nil (b :: t) (by simp)
    refine ⟨x, ?_, List.mem_cons_of_mem _ hmem⟩
    rw [List.getLast?_cons_cons]
    exact hx

theorem bfsVictimSelection_eq_none (g : Graph)
    (h : (dfsDetectCycle g).cycle = none) :
    bfsVictimSelection g = (none, none) := by
  unfold bfsVictimSelection
  rw [h]

theorem bfsVictimSelection_eq_some (g : Graph) (c' : List String)
    (h : (dfsDetectCycle g).cycle = some c') :
    bfsVictimSelection g = (if c'.length = 0 then (none, none)
      else match bvsLoop g c' none none with
        | none => (selectVictimFromCycle g c', some c')
        | some v => (some v, some c')) := by
  unfold bfsVictimSelection
  rw [h]

/-- The triangle of two mutually waiting transactions, for the C7 witness. -/
def c7g : Graph := Graph.ofAssoc [("T1", ["T2"]), ("T2", ["T1"])]

/-- C7 (counterexample): `selectVictim` on the non-empty one-element cycle
`["T1"]` returns no victim at all — `cycle.slice(0, -1)` is empty, so
`victims[victims.length - 1]` is `victims[-1]`, i.e. `undefined` — although
the claim allows failure only for an empty cycle. -/
theorem C7_counterexample :
    (["T1"] : List String) ≠ [] ∧ selectVictim ["T1"] [] = none := by
  refine ⟨by decide, by decide⟩

/-- C7 (amended): `selectVictimFromCycle` returns a member of every
non-empty input cycle and fails exactly on the empty cycle;
`bfsVictimSelection` always returns a member of the cycle it reports; and
`selectVictim` returns a victim pair whose id is a member of the cycle for
every input of length ≥ 2 (a closed cycle list always has length ≥ 2; only
the degenerate one-element input of the counterexample escapes). -/
theorem C7_victim_membership (g : Graph) (cycle : List String)
    (txs : List Transaction) :
    (cycle ≠ [] → ∃ v, selectVictimFromCycle g cycle = some v ∧ v ∈ cycle) ∧
    (selectVictimFromCycle g cycle = none ↔ cycle = []) ∧
    (∀ c, (bfsVictimSelection g).2 = some c →
      ∃ v, (bfsVictimSelection g).1 = some v ∧ v ∈ c) ∧
    (2 ≤ cycle.length →
      ∃ v otx, selectVictim cycle txs = some (v, otx) ∧ v ∈ cycle) := by
  refine ⟨?_, ?_, ?_, ?_⟩
  · intro hne
    cases cycle with
    | nil => exact absurd rfl hne
    | cons c0 rest =>
      refine ⟨svcLoop g (c0 :: rest) c0 (-2), rfl, ?_⟩
      rcases List.mem_cons.mp (svcLoop_mem g (c0 :: rest) c0 (-2)) with he | hm
      · rw [he]
        exact List.mem_cons_self ..
      · exact hm
  · cases cycle with
    | nil => exact ⟨fun _ => rfl, fun _ => rfl⟩
    | cons c0 rest =>
      exact ⟨fun hcon => (nomatch hcon), fun hcon => (nomatch hcon)⟩
  · intro c hc
    cases hcy : (dfsDetectCycle g).cycle with
    | none =>
      rw [bfsVictimSelection_eq_none g hcy] at hc
      exact (nomatch hc)
    | some c' =>
      rw [bfsVictimSelection_eq_some g c' hcy] at hc ⊢
      by_cases hlen : c'.length = 0
      · rw [if_pos hlen] at hc
        exact (nomatch hc)
      · rw [if_neg hlen] at hc ⊢
        cases c' with
        | nil => exact absurd rfl hlen
        | cons n ns =>
          obtain ⟨u, hu, hmem⟩ := bvsLoop_from_none g n ns
          rw [hu] at hc ⊢
          exact ⟨u, rfl, (Option.some.inj hc) ▸ hmem⟩
  · intro hlen
    have hguard : ¬ cycle.length = 0 := by omega
    unfold selectVictim
    rw [if_neg hguard]
    dsimp only
    have hnodes : cycle.dropLast ≠ [] := by
      intro hcon
      have hl := cycle.length_dropLast
      rw [hcon] at hl
      simp at hl
      omega
    set victims := cycle.dropLast.map
      (fun nodeId => (nodeId, txs.find? (fun t => t.id == nodeId))) with hvs
    have hperm := List.perm_insertionSort
      (fun (a b : String × Option Transaction) => svCmp a.1 b.1 ≤ 0) victims
    have hsne : victims.insertionSort
        (fun a b => svCmp a.1 b.1 ≤ 0) ≠ [] := by
      intro hcon
      rw [hcon] at hperm
      have hvnil : victims = [] := hperm.symm.eq_nil
      rw [hvs] at hvnil
      exact hnodes (List.map_eq_nil_iff.mp hvnil)
    obtain ⟨v, hvlast, hvmem0⟩ := getLast?_mem_of_ne_nil _ hsne
    have hvmem : v ∈ victims := hperm.mem_iff.mp hvmem0
    rw [hvs] at hvmem
    obtain ⟨a, ha, hfa⟩ := List.mem_map.mp hvmem
    refine ⟨v.1, v.2, by rw [hvlast], ?_⟩
    have hva : v.1 = a := by rw [← hfa]
    rw [hva]
    exact cycle.dropLast_sublist.subset ha

/-- Witness for C7 at the two-cycle `T1 ⇄ T2` (whose detector cycle is
`[T1, T2, T1]`) and at that cycle as explicit input. -/
theorem C7_witness :
    (∃ v, selectVictimFromCycle c7g ["T1", "T2", "T1"] = some v ∧
      v ∈ ["T1", "T2", "T1"]) ∧
    (∃ v, (bfsVictimSelection c7g).1 = some v ∧ v ∈ ["T1", "T2", "T1"]) ∧
    (∃ v otx, selectVictim ["T1", "T2", "T1"] [] = some (v, otx) ∧
      v ∈ ["T1", "T2", "T1"]) :=
  ⟨(C7_victim_membership c7g ["T1", "T2", "T1"] []).1 (by decide),
   (C7_victim_membership c7g ["T1", "T2", "T1"] []).2.2.1
     ["T1", "T2", "T1"] (by decide),
   (C7_victim_membership c7g ["T1", "T2", "T1"] []).2.2.2 (by decide)⟩

/-- The single self-waiting transaction, for the C8 witness. -/
def c8g : Graph := Graph.ofAssoc [("A", ["A"])]

/-- C8: when no node of the reported cycle has a positive BFS distance sum,
the victim `bfsVictimSelection` reports is the degree-heuristic victim
`selectVictimFromCycle` would pick on that cycle.  (In the source the
literal `if (!best)` fallback is unreachable for a non-empty cycle — the
first node always beats `-Infinity`; the equality holds because an
all-zero-score detector cycle is necessarily the self-loop list
`[node, node]`, on which both heuristics pick `node`.) -/
theorem C8_distance_sum_fallback (g : Graph) (hwf : Wf g) (c : List String)
    (hc : (bfsVictimSelection g).2 = some c)
    (hz : ∀ n ∈ c, ¬ 0 < bfsSum g n) :
    (bfsVictimSelection g).1 = selectVictimFromCycle g c := by
  cases hcy : (dfsDetectCycle g).cycle with
  | none =>
    rw [bfsVictimSelection_eq_none g hcy] at hc
    exact (nomatch hc)
  | some c' =>
    rw [bfsVictimSelection_eq_some g c' hcy] at hc ⊢
    have hshape := dfsDetectCycle_shape g hwf c' hcy
    by_cases hlen : c'.length = 0
    · rw [if_pos hlen] at hc
      exact (nomatch hc)
    · rw [if_neg hlen] at hc ⊢
      have hcc : c' = c := by
        cases hb : bvsLoop g c' none none with
        | none =>
          rw [hb] at hc
          exact Option.some.inj hc
        | some v =>
          rw [hb] at hc
          exact Option.some.inj hc
      subst hcc
      rcases hshape with ⟨p, node, hpc, hself, hps⟩ |
        ⟨node, w, hnc, hwc, hadj, hne⟩
      · cases p with
        | nil =>
          rw [List.nil_append] at hpc
          rw [hpc]
          rw [bvsLoop_pair g node]
          rw [svc_pair g node]
        | cons x xs =>
          exfalso
          obtain ⟨y, hy, hyx⟩ := hps x (List.mem_cons_self ..)
          have hxin : x ∈ c' := by
            rw [hpc, List.cons_append]
            exact List.mem_cons_self ..
          exact hz x hxin (bfsSum_pos g x y hy hyx)
      · exfalso
        exact hz node hnc (bfsSum_pos g node w hadj hne.symm)

/-- Witness for C8 at the self-loop graph: the detector reports
`["A", "A"]`, every score is zero, and the selected victim coincides with
the degree heuristic's. -/
theorem C8_witness :
    Wf c8g ∧ (bfsVictimSelection c8g).2 = some ["A", "A"] ∧
      (∀ n ∈ (["A", "A"] : List String), ¬ 0 < bfsSum c8g n) ∧
      (bfsVictimSelection c8g).1 = selectVictimFromCycle c8g ["A", "A"] :=
  ⟨ofAssoc_wf _ (by decide), by decide, by decide,
    C8_distance_sum_fallback c8g (ofAssoc_wf _ (by decide)) ["A", "A"]
      (by decide) (by decide)⟩

/-! ## Reachability-based conflict coloring (part_000 lines 236–290) —
claim C6 -/

/-- Per-neighbor body of the reachability BFS (part_000 lines 246–252):
state `(pending queue, seen, reach[n])`; a new neighbor is enqueued and
added to both `seen` and `reach[n]`. -/
def reachStep (st : List String × List String × List String) (nb : String) :
    List String × List String × List String :=
  if nb ∈ st.2.1 then st
  else (st.1 ++ [nb], st.2.1 ++ [nb], st.2.2 ++ [nb])

/-- The `while (q.length)` loop of the per-node BFS (part_000 lines
244–253), returning the final `(seen, reach[n])`; `q.shift()` is the head
of the pending list.  `fuel` bounds the number of dequeues: queue entries
are pairwise distinct members of `seen`, which under `Wf` stays inside
`getNodes()`, so the source loop dequeues at most `g.nodes.length + 1`
times and the fuel passed by `reachSet` is never exhausted
(`reachLoop_spec` proves the closure property under exactly that bound). -/
def reachLoop (g : Graph) (fuel : Nat) (pend seen reach : List String) :
    List String × List String :=
  match fuel, pend with
  | 0, _ => (seen, reach)
  | _ + 1, [] => (seen, reach)
  | fuel + 1, cur :: rest =>
    let st := (g.adj cur).foldl reachStep (rest, seen, reach)
    reachLoop g fuel st.1 st.2.1 st.2.2

/-- `reach[n]` (part_000 lines 240–253): BFS from `n` with
`q = [n]`, `seen = {n}`, `reach[n] = {}`. -/
def reachSet (g : Graph) (n : String) : List String :=
  (reachLoop g (g.nodes.length + 1) [n] [n] []).2

/-- `conflictAdj[a]` (part_000 lines 257–269): the undirected conflict
neighbors of `a`.  The source materialises these Sets by a double loop over
node pairs, adding `b` to `a`'s set (and vice versa) when either reaches
the other; membership is therefore
`b ∈ nodes ∧ b ≠ a ∧ (reach[a] ∋ b ∨ reach[b] ∋ a)`.  The model lists the
members in node order instead of Set insertion order: the coloring below
consumes only the SET of neighbor colors, which is order-independent. -/
def conflictAdj (g : Graph) (a : String) : List String :=
  g.nodes.filter (fun b =>
    !(b == a) && ((reachSet g a).contains b || (reachSet g b).contains a))

/-- JS `Set.add` for numbers. -/
def natSetAdd (s : List Nat) (x : Nat) : List Nat :=
  if x ∈ s then s else s ++ [x]

/-- One step of collecting `used` (part_000 lines 275–277): add the
neighbor's color when it is already colored (`!== undefined`). -/
def usedStep (colors : List (String × Nat)) (acc : List Nat) (nb : String) :
    List Nat :=
  match colors.find? (fun p => p.1 == nb) with
  | some p => natSetAdd acc p.2
  | none => acc

def usedColors (colors : List (String × Nat)) (nbs : List String) :
    List Nat :=
  nbs.foldl (usedStep colors) []

/-- `let c = 0; while (used.has(c)) c++` (part_000 lines 278–279), with
explicit fuel; `used.length + 1` attempts always suffice
(`mexFrom_not_mem`). -/
def mexFrom (used : List Nat) : Nat → Nat → Nat
  | 0, c => c
  | fuel + 1, c => if c ∈ used then mexFrom used fuel (c + 1) else c

/-- `colors[node] = c`: JS object assignment — update in place when the key
exists, append otherwise. -/
def putColor (colors : List (String × Nat)) (k : String) (v : Nat) :
    List (String × Nat) :=
  if colors.any (fun p => p.1 == k) then
    updFirst (fun p => p.1 == k) (fun p => (p.1, v)) colors
  else colors ++ [(k, v)]

/-- The greedy coloring loop (part_000 lines 272–281). -/
def colorFold (g : Graph) :
    List String → List (String × Nat) → List (String × Nat)
  | [], colors => colors
  | node :: ns, colors =>
    let used := usedColors colors (conflictAdj g node)
    colorFold g ns (putColor colors node (mexFrom used (used.length + 1) 0))

/-- `computeConflictColorsByReachability(wfg)` (part_000 lines 236–290),
restricted to the `colors` map — the `groups` and `conflictAdj` outputs are
data derived from it that claim C6 does not touch. -/
def computeConflictColorsByReachability (g : Graph) : List (String × Nat) :=
  colorFold g g.nodes []

def lookupColor (colors : List (String × Nat)) (k : String) : Option Nat :=
  (colors.find? (fun p => p.1 == k)).map (fun p => p.2)

/-- `a` reaches `b` through at least one wait-for edge. -/
def Reaches (g : Graph) (a b : String) : Prop :=
  ∃ l, l ≠ [] ∧ Walk g a l b

theorem mem_natSetAdd {s : List Nat} {x y : Nat} :
    x ∈ natSetAdd s y ↔ x ∈ s ∨ x = y := by
  unfold natSetAdd
  by_cases h : y ∈ s
  · simp only [h, if_true]
    exact ⟨Or.inl, fun hx => hx.elim id (fun he => he ▸ h)⟩
  · simp [h]

theorem reachStep_seen_sub {st : List String × List String × List String}
    (nb : String) : ∀ x ∈ st.2.1, x ∈ (reachStep st nb).2.1 := by
  intro x hx
  unfold reachStep
  split
  · exact hx
  · exact List.mem_append_left _ hx

theorem reachStep_seen_self {st : List String × List String × List String}
    (nb : String) : nb ∈ (reachStep st nb).2.1 := by
  unfold reachStep
  split
  · next h => exact h
  · exact List.mem_append_right _ (List.mem_singleton.mpr rfl)

theorem reachStep_seen_origin {st : List String × List String × List String}
    {nb x : String} (hx : x ∈ (reachStep st nb).2.1) :
    x ∈ st.2.1 ∨ x = nb := by
  unfold reachStep at hx
  split at hx
  · exact Or.inl hx
  · rcases List.mem_append.mp hx with h | h
    · exact Or.inl h
    · exact Or.inr (List.mem_singleton.mp h)

theorem reachStep_pend_sub {st : List String × List String × List String}
    (nb : String) : ∀ x ∈ st.1, x ∈ (reachStep st nb).1 := by
  intro x hx
  unfold reachStep
  split
  · exact hx
  · exact List.mem_append_left _ hx

theorem reachStep_pend_origin {st : List String × List String × List String}
    {nb x : String} (hx : x ∈ (reachStep st nb).1) :
    x ∈ st.1 ∨ x = nb := by
  unfold reachStep at hx
  split at hx
  · exact Or.inl hx
  · rcases List.mem_append.mp hx with h | h
    · exact Or.inl h
    · exact Or.inr (List.mem_singleton.mp h)

theorem reachStep_new_pend {st : List String × List String × List String}
    {nb x : String} (hx : x ∈ (reachStep st nb).2.1) :
    x ∈ st.2.1 ∨ x ∈ (reachStep st nb).1 := by
  unfold reachStep at hx ⊢
  split at hx
  · next h =>
    rw [if_pos h]
    exact Or.inl hx
  · next h =>
    rw [if_neg h]
    rcases List.mem_append.mp hx with h1 | h1
    · exact Or.inl h1
    · exact Or.inr (List.mem_append_right _ h1)

theorem reachStep_measure {g : Graph}
    {st : List String × List String × List String} {nb : String}
    (hnb : nb ∈ g.nodes) :
    (reachStep st nb).1.length + unvis g (reachStep st nb).2.1 ≤
      st.1.length + unvis g st.2.1 := by
  unfold reachStep
  split
  · exact le_refl _
  · next h =>
    show (st.1 ++ [nb]).length + unvis g (st.2.1 ++ [nb]) ≤ _
    rw [List.length_append]
    have := unvis_lt (g := g) hnb h (fun x hx => List.mem_append_left _ hx)
      (List.mem_append_right _ (List.mem_singleton.mpr rfl))
    simp only [List.length_singleton]
    omega

theorem reachFold_seen_sub :
    ∀ (nbs : List String) (st : List String × List String × List String),
      ∀ x ∈ st.2.1, x ∈ (nbs.foldl reachStep st).2.1 := by
  intro nbs
  induction nbs with
  | nil => intro st x hx; exact hx
  | cons n ns ih =>
    intro st x hx
    rw [List.foldl_cons]
    exact ih _ x (reachStep_seen_sub n x hx)

theorem reachFold_scanned :
    ∀ (nbs : List String) (st : List String × List String × List String),
      ∀ w ∈ nbs, w ∈ (nbs.foldl reachStep st).2.1 := by
  intro nbs
  induction nbs with
  | nil => intro st w hw; exact absurd hw (List.not_mem_nil w)
  | cons n ns ih =>
    intro st w hw
    rw [List.foldl_cons]
    rcases List.mem_cons.mp hw with he | hm
    · rw [he]
      exact reachFold_seen_sub ns _ n (reachStep_seen_self n)
    · exact ih _ w hm

theorem reachFold_seen_origin :
    ∀ (nbs : List String) (st : List String × List String × List String)
      (x : String), x ∈ (nbs.foldl reachStep st).2.1 →
      x ∈ st.2.1 ∨ x ∈ nbs := by
  intro nbs
  induction nbs with
  | nil => intro st x hx; exact Or.inl hx
  | cons n ns ih =>
    intro st x hx
    rw [List.foldl_cons] at hx
    rcases ih _ x hx with h | h
    · rcases reachStep_seen_origin h with h1 | h1
      · exact Or.inl h1
      · exact Or.inr (h1 ▸ List.mem_cons_self ..)
    · exact Or.inr (List.mem_cons_of_mem _ h)

theorem reachFold_pend_sub :
    ∀ (nbs : List String) (st : List String × List String × List String),
      ∀ x ∈ st.1, x ∈ (nbs.foldl reachStep st).1 := by
  intro nbs
  induction nbs with
  | nil => intro st x hx; exact hx
  | cons n ns ih =>
    intro st x hx
    rw [List.foldl_cons]
    exact ih _ x (reachStep_pend_sub n x hx)

theorem reachFold_pend_origin :
    ∀ (nbs : List String) (st : List String × List String × List String)
      (x : String), x ∈ (nbs.foldl reachStep st).1 →
      x ∈ st.1 ∨ x ∈ nbs := by
  intro nbs
  induction nbs with
  | nil => intro st x hx; exact Or.inl hx
  | cons n ns ih =>
    intro st x hx
    rw [List.foldl_cons] at hx
    rcases ih _ x hx with h | h
    · rcases reachStep_pend_origin h with h1 | h1
      · exact Or.inl h1
      · exact Or.inr (h1 ▸ List.mem_cons_self ..)
    · exact Or.inr (List.mem_cons_of_mem _ h)

theorem reachFold_new_pend :
    ∀ (nbs : List String) (st : List String × List String × List String)
      (x : String), x ∈ (nbs.foldl reachStep st).2.1 →
      x ∈ st.2.1 ∨ x ∈ (nbs.foldl reachStep st).1 := by
  intro nbs
  induction nbs with
  | nil => intro st x hx; exact Or.inl hx
  | cons n ns ih =>
    intro st x hx
    rw [List.foldl_cons] at hx ⊢
    rcases ih _ x hx with h | h
    · rcases reachStep_new_pend h with h1 | h1
      · exact Or.inl h1
      · exact Or.inr (reachFold_pend_sub ns _ x h1)
    · exact Or.inr h

theorem reachFold_measure {g : Graph} :
    ∀ (nbs : List String) (st : List String × List String × List String),
      (∀ y ∈ nbs, y ∈ g.nodes) →
      (nbs.foldl reachStep st).1.length +
          unvis g (nbs.foldl reachStep st).2.1 ≤
        st.1.length + unvis g st.2.1 := by
  intro nbs
  induction nbs with
  | nil => intro st _; exact le_refl _
  | cons n ns ih =>
    intro st hns
    rw [List.foldl_cons]
    exact le_trans (ih _ (fun y hy => hns y (List.mem_cons_of_mem _ hy)))
      (reachStep_measure (hns n (List.mem_cons_self ..)))

theorem reachFold_link (s0 : String) :
    ∀ (nbs : List String) (st : List String × List String × List String),
      st.2.1 = s0 :: st.2.2 →
      (nbs.foldl reachStep st).2.1 = s0 :: (nbs.foldl reachStep st).2.2 := by
  intro nbs
  induction nbs with
  | nil => intro st h; exact h
  | cons n ns ih =>
    intro st h
    rw [List.foldl_cons]
    apply ih
    unfold reachStep
    split
    · exact h
    · show st.2.1 ++ [n] = s0 :: (st.2.2 ++ [n])
      rw [h, List.cons_append]

theorem reachLoop_link (g : Graph) (s0 : String) :
    ∀ (fuel : Nat) (pend seen reach : List String), seen = s0 :: reach →
      (reachLoop g fuel pend seen reach).1 =
        s0 :: (reachLoop g fuel pend seen reach).2 := by
  intro fuel
  induction fuel with
  | zero => intro pend seen reach h; exact h
  | succ fuel ih =>
    intro pend seen reach h
    cases pend with
    | nil => exact h
    | cons cur rest =>
      rw [reachLoop]
      exact ih _ _ _ (reachFold_link s0 (g.adj cur) (rest, seen, reach) h)

/-- Under well-formedness, the BFS of `reachLoop` (with the fuel `reachSet`
supplies) drains its queue and ends with a `seen` set closed under
adjacency and containing the initial `seen`. -/
theorem reachLoop_spec (g : Graph) (hwf : Wf g) :
    ∀ (fuel : Nat) (pend seen reach : List String),
      (∀ x ∈ pend, x ∈ seen) →
      (∀ x ∈ seen, x ∈ g.nodes) →
      (∀ x ∈ seen, x ∈ pend ∨ ∀ y ∈ g.adj x, y ∈ seen) →
      pend.length + unvis g seen ≤ fuel →
      (∀ x ∈ seen, x ∈ (reachLoop g fuel pend seen reach).1) ∧
      (∀ x ∈ (reachLoop g fuel pend seen reach).1,
        ∀ y ∈ g.adj x, y ∈ (reachLoop g fuel pend seen reach).1) := by
  intro fuel
  induction fuel with
  | zero =>
    intro pend seen reach _hps _hsn hD hfuel
    have hpe : pend = [] := List.length_eq_zero.mp (by omega)
    subst hpe
    refine ⟨fun x hx => hx, ?_⟩
    intro x hx y hy
    rcases hD x hx with h | h
    · exact absurd h (List.not_mem_nil x)
    · exact h y hy
  | succ fuel ih =>
    intro pend seen reach hps hsn hD hfuel
    cases pend with
    | nil =>
      refine ⟨fun x hx => hx, ?_⟩
      intro x hx y hy
      rcases hD x hx with h | h
      · exact absurd h (List.not_mem_nil x)
      · exact h y hy
    | cons cur rest =>
      rw [reachLoop]
      set st := (g.adj cur).foldl reachStep (rest, seen, reach) with hst
      have hA : ∀ x ∈ st.1, x ∈ st.2.1 := by
        intro x hx
        rcases reachFold_pend_origin (g.adj cur) (rest, seen, reach) x hx
          with h | h
        · exact reachFold_seen_sub _ _ x
            (hps x (List.mem_cons_of_mem _ h))
        · exact reachFold_scanned _ _ x h
      have hB : ∀ x ∈ st.2.1, x ∈ g.nodes := by
        intro x hx
        rcases reachFold_seen_origin (g.adj cur) (rest, seen, reach) x hx
          with h | h
        · exact hsn x h
        · exact (hwf cur x h).2
      have hC : ∀ x ∈ st.2.1, x ∈ st.1 ∨ ∀ y ∈ g.adj x, y ∈ st.2.1 := by
        intro x hx
        rcases reachFold_new_pend (g.adj cur) (rest, seen, reach) x hx
          with h | h
        · -- x was already seen before this dequeue
          rcases hD x h with h1 | h1
          · rcases List.mem_cons.mp h1 with he | hm
            · -- x is the dequeued node: all its neighbors got scanned
              refine Or.inr ?_
              intro y hy
              rw [he]  at hy
              exact reachFold_scanned _ _ y hy
            · exact Or.inl (reachFold_pend_sub _ _ x hm)
          · exact Or.inr (fun y hy =>
              reachFold_seen_sub _ _ y (h1 y hy))
        · exact Or.inl h
      have hM : st.1.length + unvis g st.2.1 ≤ fuel := by
        have h1 : st.1.length + unvis g st.2.1 ≤
            rest.length + unvis g seen := by
          rw [hst]
          exact reachFold_measure (g := g) (g.adj cur) (rest, seen, reach)
            (fun y hy => (hwf cur y hy).2)
        have h2 : (cur :: rest).length = rest.length + 1 := rfl
        rw [h2] at hfuel
        omega
      obtain ⟨hmono, hclosed⟩ := ih st.1 st.2.1 st.2.2 hA hB hC hM
      refine ⟨?_, hclosed⟩
      intro x hx
      exact hmono x (reachFold_seen_sub _ _ x hx)

theorem walk_mem_closed {g : Graph} {S : List String}
    (hcl : ∀ x ∈ S, ∀ y ∈ g.adj x, y ∈ S) :
    ∀ {l : List String} {a b : String}, Walk g a l b → a ∈ S → b ∈ S := by
  intro l
  induction l with
  | nil =>
    intro a b h ha
    exact (show a = b from h) ▸ ha
  | cons x xs ih =>
    intro a b h ha
    exact ih h.2 (hcl a ha x h.1)

/-- BFS completeness: every node genuinely reachable from `a` (other than
`a` itself) lands in `reach[a]`. -/
theorem mem_reachSet (g : Graph) (hwf : Wf g) (a b : String)
    (ha : a ∈ g.nodes) (hr : Reaches g a b) (hba : b ≠ a) :
    b ∈ reachSet g a := by
  obtain ⟨l, -, hw⟩ := hr
  unfold reachSet
  obtain ⟨hmono, hclosed⟩ := reachLoop_spec g hwf (g.nodes.length + 1)
    [a] [a] []
    (fun x hx => hx)
    (fun x hx => (List.mem_singleton.mp hx) ▸ ha)
    (fun x hx => Or.inl hx)
    (by
      have h1 : unvis g [a] ≤ unvis g [] :=
        unvis_mono (fun x hx => absurd hx (List.not_mem_nil x))
      have h2 := unvis_init_le g
      have h3 : ([a] : List String).length = 1 := rfl
      omega)
  have hbin : b ∈ (reachLoop g (g.nodes.length + 1) [a] [a] []).1 :=
    walk_mem_closed hclosed hw (hmono a (List.mem_singleton.mpr rfl))
  rw [reachLoop_link g a (g.nodes.length + 1) [a] [a] [] rfl] at hbin
  rcases List.mem_cons.mp hbin with he | hm
  · exact absurd he hba
  · exact hm

theorem mem_conflictAdj {g : Graph} {a b : String} :
    b ∈ conflictAdj g a ↔ b ∈ g.nodes ∧ b ≠ a ∧
      (b ∈ reachSet g a ∨ a ∈ reachSet g b) := by
  unfold conflictAdj
  rw [List.mem_filter]
  simp

theorem usedStep_sub (colors : List (String × Nat)) (acc : List Nat)
    (nb : String) : ∀ x ∈ acc, x ∈ usedStep colors acc nb := by
  intro x hx
  unfold usedStep
  cases colors.find? (fun p => p.1 == nb) with
  | none => exact hx
  | some p => exact mem_natSetAdd.mpr (Or.inl hx)

theorem usedFold_sub (colors : List (String × Nat)) :
    ∀ (nbs : List String) (acc : List Nat) (x : Nat), x ∈ acc →
      x ∈ nbs.foldl (usedStep colors) acc := by
  intro nbs
  induction nbs with
  | nil => intro acc x hx; exact hx
  | cons n ns ih =>
    intro acc x hx
    rw [List.foldl_cons]
    exact ih _ x (usedStep_sub colors acc n x hx)

theorem usedColors_mem (colors : List (String × Nat)) (nb : String)
    (p : String × Nat) (hf : colors.find? (fun q => q.1 == nb) = some p) :
    ∀ (nbs : List String) (acc : List Nat), nb ∈ nbs →
      p.2 ∈ nbs.foldl (usedStep colors) acc := by
  intro nbs
  induction nbs with
  | nil => intro acc h; exact absurd h (List.not_mem_nil nb)
  | cons n ns ih =>
    intro acc h
    rw [List.foldl_cons]
    rcases List.mem_cons.mp h with he | hm
    · apply usedFold_sub
      have hstep : usedStep colors acc n = natSetAdd acc p.2 := by
        unfold usedStep
        rw [← he, hf]
      rw [hstep]
      exact mem_natSetAdd.mpr (Or.inr rfl)
    · exact ih _ hm

theorem countP_ge_split (c : Nat) : ∀ (l : List Nat),
    l.countP (fun x => decide (c ≤ x)) =
      l.countP (fun x => decide (c + 1 ≤ x)) + l.count c := by
  intro l
  induction l with
  | nil => rfl
  | cons a l ih =>
    rw [List.countP_cons, List.countP_cons, List.count_cons, ih]
    by_cases h1 : c ≤ a
    · by_cases h2 : c + 1 ≤ a
      · have ha : ¬ a = c := by omega
        simp [h1, h2, ha]
        omega
      · have ha : a = c := by omega
        simp [h1, h2, ha]
        omega
    · have h2 : ¬ c + 1 ≤ a := by omega
      have ha : ¬ a = c := by omega
      simp [h1, h2, ha]

theorem mexFrom_not_mem (used : List Nat) :
    ∀ (fuel c : Nat), used.countP (fun x => decide (c ≤ x)) < fuel →
      mexFrom used fuel c ∉ used := by
  intro fuel
  induction fuel with
  | zero => intro c h; exact absurd h (Nat.not_lt_zero _)
  | succ fuel ih =>
    intro c h
    rw [mexFrom]
    split
    · next hc =>
      apply ih (c + 1)
      have hsplit := countP_ge_split c used
      have hcnt : 0 < used.count c := List.count_pos_iff.mpr hc
      omega
    · next hc => exact hc

/-- The greedy color is never one of the used colors. -/
theorem mex_fresh (used : List Nat) :
    mexFrom used (used.length + 1) 0 ∉ used :=
  mexFrom_not_mem used (used.length + 1) 0
    (Nat.lt_succ_of_le (List.countP_le_length _))

theorem find?_append_some {α : Type} {p : α → Bool} {l1 : List α}
    {x : α} (l2 : List α) (h : l1.find? p = some x) :
    (l1 ++ l2).find? p = some x := by
  rw [List.find?_append, h]
  rfl

theorem find?_append_none {α : Type} {p : α → Bool} {l1 : List α}
    (l2 : List α) (h : l1.find? p = none) :
    (l1 ++ l2).find? p = l2.find? p := by
  rw [List.find?_append, h]
  rfl

theorem lookupColor_append_old {colors : List (String × Nat)}
    {x : String} {cx : Nat} (k : String) (v : Nat)
    (h : lookupColor colors x = some cx) :
    lookupColor (colors ++ [(k, v)]) x = some cx := by
  unfold lookupColor at h ⊢
  cases hf : colors.find? (fun p => p.1 == x) with
  | none => rw [hf] at h; exact (nomatch h)
  | some p =>
    rw [hf] at h
    rw [find?_append_some _ hf]
    exact h

theorem lookupColor_append_cases {colors : List (String × Nat)}
    {k x : String} {v cx : Nat}
    (h : lookupColor (colors ++ [(k, v)]) x = some cx) :
    lookupColor colors x = some cx ∨
      (x = k ∧ cx = v ∧ colors.find? (fun p => p.1 == x) = none) := by
  unfold lookupColor at h ⊢
  cases hf : colors.find? (fun p => p.1 == x) with
  | some p =>
    rw [find?_append_some _ hf] at h
    exact Or.inl h
  | none =>
    rw [find?_append_none _ hf] at h
    by_cases hkx : k = x
    · refine Or.inr ⟨hkx.symm, ?_, rfl⟩
      have : ([(k, v)].find? (fun p => p.1 == x)) = some (k, v) := by
        simp [List.find?_cons, hkx]
      rw [this] at h
      exact (Option.some.inj h).symm
    · exfalso
      have : ([(k, v)].find? (fun p => p.1 == x)) = none := by
        simp [List.find?_cons, hkx]
      rw [this] at h
      exact (nomatch h)

/-- No two distinct, conflict-adjacent, colored nodes share a color. -/
def ColorsOk (g : Graph) (colors : List (String × Nat)) : Prop :=
  ∀ a b ca cb, a ≠ b → b ∈ conflictAdj g a → a ∈ conflictAdj g b →
    lookupColor colors a = some ca → lookupColor colors b = some cb →
    ca ≠ cb

theorem colorFold_ok (g : Graph) :
    ∀ (ns : List String) (colors : List (String × Nat)),
      ns.Nodup →
      (∀ p ∈ colors, ∀ n ∈ ns, p.1 ≠ n) →
      ColorsOk g colors →
      ColorsOk g (colorFold g ns colors) := by
  intro ns
  induction ns with
  | nil => intro colors _ _ hok; exact hok
  | cons node ns ih =>
    intro colors hnd hdisj hok
    rw [colorFold]
    have hfind : colors.find? (fun p => p.1 == node) = none := by
      cases hf : colors.find? (fun p => p.1 == node) with
      | none => rfl
      | some p =>
        have hp := List.mem_of_find?_eq_some hf
        have hpn : p.1 = node := by simpa using List.find?_some hf
        exact absurd hpn (hdisj p hp node (List.mem_cons_self ..))
    have hany : colors.any (fun p => p.1 == node) = false := by
      rw [List.any_eq_false]
      intro p hp
      simpa using hdisj p hp node (List.mem_cons_self ..)
    have hput : putColor colors node
        (mexFrom (usedColors colors (conflictAdj g node))
          ((usedColors colors (conflictAdj g node)).length + 1) 0) =
        colors ++ [(node,
          mexFrom (usedColors colors (conflictAdj g node))
            ((usedColors colors (conflictAdj g node)).length + 1) 0)] := by
      unfold putColor
      rw [hany]
      rfl
    rw [hput]
    apply ih
    · exact (List.nodup_cons.mp hnd).2
    · intro p hp n hn
      rcases List.mem_append.mp hp with h | h
      · exact hdisj p h n (List.mem_cons_of_mem _ hn)
      · have hpn : p.1 = node := by
          rw [List.mem_singleton.mp h]
        rw [hpn]
        intro he
        exact (List.nodup_cons.mp hnd).1 (he ▸ hn)
    · -- the extended coloring still separates conflict neighbors
      intro a b ca cb hab hconf1 hconf2 hca hcb
      rcases lookupColor_append_cases hca with hcaO | ⟨haek, hcav, -⟩
      · rcases lookupColor_append_cases hcb with hcbO | ⟨hbek, hcbv, -⟩
        · exact hok a b ca cb hab hconf1 hconf2 hcaO hcbO
        · -- `b` is the freshly colored node: `ca` was collected in `used`
          subst hbek
          obtain ⟨pa, hfa, hpa2⟩ : ∃ pa,
              colors.find? (fun p => p.1 == a) = some pa ∧ pa.2 = ca := by
            unfold lookupColor at hcaO
            cases hf : colors.find? (fun p => p.1 == a) with
            | none => rw [hf] at hcaO; exact (nomatch hcaO)
            | some q =>
              rw [hf] at hcaO
              exact ⟨q, rfl, Option.some.inj hcaO⟩
          have hused : ca ∈ usedColors colors (conflictAdj g b) := by
            rw [← hpa2]
            exact usedColors_mem colors a pa hfa (conflictAdj g b) [] hconf2
          intro he
          rw [hcbv] at he
          exact mex_fresh (usedColors colors (conflictAdj g b)) (he ▸ hused)
      · rcases lookupColor_append_cases hcb with hcbO | ⟨hbek, hcbv, -⟩
        · -- `a` is the freshly colored node: symmetric
          subst haek
          obtain ⟨pb, hfb, hpb2⟩ : ∃ pb,
              colors.find? (fun p => p.1 == b) = some pb ∧ pb.2 = cb := by
            unfold lookupColor at hcbO
            cases hf : colors.find? (fun p => p.1 == b) with
            | none => rw [hf] at hcbO; exact (nomatch hcbO)
            | some q =>
              rw [hf] at hcbO
              exact ⟨q, rfl, Option.some.inj hcbO⟩
          have hused : cb ∈ usedColors colors (conflictAdj g a) := by
            rw [← hpb2]
            exact usedColors_mem colors b pb hfb (conflictAdj g a) [] hconf1
          intro he
          rw [hcav] at he
          exact mex_fresh (usedColors colors (conflictAdj g a)) (he ▸ hused)
        · exact absurd (haek.trans hbek.symm) hab

/-- C6: two distinct listed nodes that the reachability coloring gives the
same color are mutually unreachable in the WFG (no direct or transitive
wait relationship in either direction).  `g.nodes.Nodup` reflects that
`getNodes()` of every WFG implementation is duplicate-free. -/
theorem C6_coloring_safety (g : Graph) (hwf : Wf g) (hnd : g.nodes.Nodup)
    (a b : String) (ha : a ∈ g.nodes) (hb : b ∈ g.nodes) (hab : a ≠ b)
    (ca cb : Nat)
    (hca : lookupColor (computeConflictColorsByReachability g) a = some ca)
    (hcb : lookupColor (computeConflictColorsByReachability g) b = some cb)
    (heq : ca = cb) :
    ¬ Reaches g a b ∧ ¬ Reaches g b a := by
  have hok : ColorsOk g (computeConflictColorsByReachability g) := by
    apply colorFold_ok g g.nodes [] hnd
    · intro p hp
      exact absurd hp (List.not_mem_nil p)
    · intro x y cx cy _ _ _ hcx
      exact (nomatch hcx)
  constructor
  · intro hr
    have hbra : b ∈ reachSet g a := mem_reachSet g hwf a b ha hr (Ne.symm hab)
    have h1 : b ∈ conflictAdj g a :=
      mem_conflictAdj.mpr ⟨hb, Ne.symm hab, Or.inl hbra⟩
    have h2 : a ∈ conflictAdj g b :=
      mem_conflictAdj.mpr ⟨ha, hab, Or.inr hbra⟩
    exact hok a b ca cb hab h1 h2 hca hcb heq
  · intro hr
    have harb : a ∈ reachSet g b := mem_reachSet g hwf b a hb hr hab
    have h1 : b ∈ conflictAdj g a :=
      mem_conflictAdj.mpr ⟨hb, Ne.symm hab, Or.inr harb⟩
    have h2 : a ∈ conflictAdj g b :=
      mem_conflictAdj.mpr ⟨ha, hab, Or.inl harb⟩
    exact hok a b ca cb hab h1 h2 hca hcb heq

/-- Chain `T1 → T2` plus the isolated `T3`, for the C6 witness: `T1` and
`T3` both get color 0 and are indeed mutually unreachable. -/
def c6g : Graph :=
  Graph.ofAssoc [("T1", ["T2"]), ("T2", []), ("T3", [])]

theorem C6_witness :
    c6g.nodes.Nodup ∧
      lookupColor (computeConflictColorsByReachability c6g) "T1" = some 0 ∧
      lookupColor (computeConflictColorsByReachability c6g) "T3" = some 0 ∧
      ¬ Reaches c6g "T1" "T3" ∧ ¬ Reaches c6g "T3" "T1" :=
  ⟨by decide, by decide, by decide,
    (C6_coloring_safety c6g (ofAssoc_wf _ (by decide)) (by decide)
      "T1" "T3" (by decide) (by decide) (by decide) 0 0
      (by decide) (by decide) rfl).1,
    (C6_coloring_safety c6g (ofAssoc_wf _ (by decide)) (by decide)
      "T1" "T3" (by decide) (by decide) (by decide) 0 0
      (by decide) (by decide) rfl).2⟩

/-! ## Tarjan SCC detection (deadlockDetection.js lines 121–180) — claim C5

Mutable algorithm state: `indices` and `lowLinks` are JS `Map`s (modelled
as insertion-ordered association lists with upsert assignment), `onStack` a
`Set`, `stack` a JS array used push/pop at the end (modelled with its top
at the HEAD), `sccs` the output accumulator and `index` the counter. -/

/-- JS `Map.get`, defaulting to 0 — the source only ever reads keys it has
set, so the default is never observed (`Map.get` of a missing key would be
`undefined`). -/
def mapGet (m : List (String × Nat)) (k : String) : Nat :=
  match m with
  | [] => 0
  | p :: rest => if p.1 == k then p.2 else mapGet rest k

/-- JS `Map.has`. -/
def mapHas (m : List (String × Nat)) (k : String) : Bool :=
  match m with
  | [] => false
  | p :: rest => p.1 == k || mapHas rest k

/-- JS `Map.set`: update in place, append when absent. -/
def mapSet (m : List (String × Nat)) (k : String) (v : Nat) :
    List (String × Nat) :=
  match m with
  | [] => [(k, v)]
  | p :: rest => if p.1 == k then (p.1, v) :: rest else p :: mapSet rest k v

structure TJState where
  indices : List (String × Nat)
  lowLinks : List (String × Nat)
  onStack : List String
  stack : List String
  sccs : List (List String)
  index : Nat
deriving DecidableEq, Repr

/-- The `do { w = stack.pop(); onStack.delete(w); scc.push(w); } while
(w !== node)` loop (lines 153–159).  `fuel = stack.length` bounds the pops;
the empty-stack case (JS would pop `undefined` and loop forever on the
comparison) is unreachable because `node` is always on the stack.  Returns
`(stack, onStack, scc)` after the loop. -/
def tjPopLoop (node : String) :
    Nat → List String → List String → List String →
    List String × List String × List String
  | 0, stack, onStack, scc => (stack, onStack, scc)
  | fuel + 1, stack, onStack, scc =>
    match stack with
    | [] => ([], onStack, scc)
    | w :: rest =>
      if w == node then (rest, setDel onStack w, scc ++ [w])
      else tjPopLoop node fuel rest (setDel onStack w) (scc ++ [w])

/-- The `for (const neighbor of neighbors)` loop of `strongConnect` (lines
139–149): recurse into unindexed neighbors and take the min with the
callee's lowlink, take the min with the index of on-stack neighbors, skip
the rest.  As for `ddLoop`, the recursive call is the function argument
`sc` (always `strongConnect g fuel`), keeping all definitions structurally
recursive and kernel-evaluable. -/
def tjLoop (g : Graph) (sc : String → TJState → TJState) (node : String) :
    List String → TJState → TJState
  | [], s => s
  | w :: ws, s =>
    if ¬ mapHas s.indices w then
      let s1 := sc w s
      let m1 := mapSet s1.lowLinks node
        (min (mapGet s1.lowLinks node) (mapGet s1.lowLinks w))
      tjLoop g sc node ws { s1 with lowLinks := m1 }
    else if w ∈ s.onStack then
      let m2 := mapSet s.lowLinks node
        (min (mapGet s.lowLinks node) (mapGet s.indices w))
      tjLoop g sc node ws { s with lowLinks := m2 }
    else tjLoop g sc node ws s

/-- One call of `strongConnect(node)` (lines 130–163).  `fuel` bounds the
recursion depth exactly as for `ddDfs` (each recursive call targets an
unindexed node and indexes it on entry). -/
def strongConnect (g : Graph) (fuel : Nat) (node : String) (s : TJState) :
    TJState :=
  match fuel with
  | 0 => s
  | fuel + 1 =>
    let s1 : TJState := { s with
      indices := mapSet s.indices node s.index,
      lowLinks := mapSet s.lowLinks node s.index,
      index := s.index + 1,
      stack := node :: s.stack,
      onStack := setAdd s.onStack node }
    let s2 := tjLoop g (strongConnect g fuel) node (g.adj node) s1
    if mapGet s2.lowLinks node == mapGet s2.indices node then
      let r := tjPopLoop node s2.stack.length s2.stack s2.onStack []
      { s2 with stack := r.1, onStack := r.2.1, sccs := s2.sccs ++ [r.2.2] }
    else s2

/-- The `for (const node of nodes) if (!indices.has(node)) strongConnect`
driver (lines 166–170). -/
def tjOuter (g : Graph) (fuel : Nat) : List String → TJState → TJState
  | [], s => s
  | n :: ns, s =>
    if ¬ mapHas s.indices n then tjOuter g fuel ns (strongConnect g fuel n s)
    else tjOuter g fuel ns s

structure TarjanResult where
  sccs : List (List String)
  deadlocks : List (List String)
  hasDeadlock : Bool
deriving DecidableEq, Repr

/-- `detectDeadlockTarjan(wfg)` (lines 121–180): run `strongConnect` from
every unindexed node, then `deadlocks = sccs.filter(scc => scc.length > 1)`
and `hasDeadlock = deadlocks.length > 0`. -/
def detectDeadlockTarjan (g : Graph) : TarjanResult :=
  let s := tjOuter g (g.nodes.length + 1) g.nodes ⟨[], [], [], [], [], 0⟩
  { sccs := s.sccs,
    deadlocks := s.sccs.filter (fun scc => decide (1 < scc.length)),
    hasDeadlock :=
      decide (0 < (s.sccs.filter (fun scc => decide (1 < scc.length))).length) }

/-! ### Map and reachability toolkit for the Tarjan proof -/

def keysOf (m : List (String × Nat)) : List String := m.map Prod.fst

theorem mapHas_iff {m : List (String × Nat)} {k : String} :
    mapHas m k = true ↔ k ∈ keysOf m := by
  induction m with
  | nil => simp [mapHas, keysOf]
  | cons p rest ih =>
    rw [mapHas]
    simp only [Bool.or_eq_true, beq_iff_eq, keysOf, List.map_cons,
      List.mem_cons]
    rw [ih]
    constructor
    · rintro (h | h)
      · exact Or.inl h.symm
      · exact Or.inr h
    · rintro (h | h)
      · exact Or.inl h.symm
      · exact Or.inr h

theorem mapGet_set_self (m : List (String × Nat)) (k : String) (v : Nat) :
    mapGet (mapSet m k v) k = v := by
  induction m with
  | nil => simp [mapSet, mapGet]
  | cons p rest ih =>
    rw [mapSet]
    by_cases h : p.1 = k
    · rw [if_pos (by simpa using h)]
      rw [mapGet, if_pos (by simpa using h)]
    · rw [if_neg (by simpa using h)]
      rw [mapGet, if_neg (by simpa using h)]
      exact ih

theorem mapGet_set_other (m : List (String × Nat)) (k : String) (v : Nat)
    (k' : String) (h : k' ≠ k) :
    mapGet (mapSet m k v) k' = mapGet m k' := by
  induction m with
  | nil =>
    rw [mapSet, mapGet, mapGet]
    rw [if_neg (by simpa using fun he : k = k' => h he.symm)]
    rfl
  | cons p rest ih =>
    rw [mapSet]
    by_cases hp : p.1 = k
    · rw [if_pos (by simpa using hp)]
      rw [mapGet, mapGet]
      rw [if_neg (by simpa using fun he : p.1 = k' => h (he ▸ hp))]
      rw [if_neg (by simpa using fun he : p.1 = k' => h (he ▸ hp))]
    · rw [if_neg (by simpa using hp)]
      rw [mapGet, mapGet]
      by_cases hk' : p.1 = k'
      · rw [if_pos (by simpa using hk'), if_pos (by simpa using hk')]
      · rw [if_neg (by simpa using hk'), if_neg (by simpa using hk')]
        exact ih

theorem mapHas_set (m : List (String × Nat)) (k : String) (v : Nat)
    (k' : String) :
    mapHas (mapSet m k v) k' = true ↔ k' = k ∨ mapHas m k' = true := by
  induction m with
  | nil =>
    simp only [mapSet, mapHas, Bool.or_eq_true, beq_iff_eq]
    constructor
    · rintro (h | h)
      · exact Or.inl h.symm
      · exact (nomatch h)
    · rintro (h | h)
      · exact Or.inl h.symm
      · exact (nomatch h)
  | cons p rest ih =>
    rw [mapSet]
    by_cases hp : p.1 = k
    · rw [if_pos (by simpa using hp)]
      rw [mapHas, mapHas]
      simp only [Bool.or_eq_true, beq_iff_eq]
      constructor
      · rintro (h | h)
        · exact Or.inl (h ▸ hp)
        · exact Or.inr (Or.inr h)
      · rintro (h | h | h)
        · exact Or.inl (hp.trans h.symm)
        · exact Or.inl h
        · exact Or.inr h
    · rw [if_neg (by simpa using hp)]
      rw [mapHas, mapHas]
      simp only [Bool.or_eq_true, beq_iff_eq]
      rw [ih]
      tauto

theorem walk_append {g : Graph} :
    ∀ {l1 : List String} {l2 : List String} {a b c : String},
      Walk g a l1 b → Walk g b l2 c → Walk g a (l1 ++ l2) c := by
  intro l1
  induction l1 with
  | nil =>
    intro l2 a b c h1 h2
    exact (show a = b from h1) ▸ h2
  | cons x xs ih =>
    intro l2 a b c h1 h2
    exact ⟨h1.1, ih h1.2 h2⟩

/-- Reachability in zero or more steps. -/
def ReachStar (g : Graph) (a b : String) : Prop := ∃ l, Walk g a l b

theorem reachStar_refl (g : Graph) (a : String) : ReachStar g a a :=
  ⟨[], rfl⟩

theorem reachStar_trans {g : Graph} {a b c : String}
    (h1 : ReachStar g a b) (h2 : ReachStar g b c) : ReachStar g a c := by
  obtain ⟨l1, hw1⟩ := h1
  obtain ⟨l2, hw2⟩ := h2
  exact ⟨l1 ++ l2, walk_append hw1 hw2⟩

theorem reachStar_of_adj {g : Graph} {a b : String} (h : b ∈ g.adj a) :
    ReachStar g a b := ⟨[b], h, rfl⟩

/-- Mutual reachability: `a` and `b` lie in the same strongly connected
component. -/
def MutReach (g : Graph) (a b : String) : Prop :=
  ReachStar g a b ∧ ReachStar g b a

theorem mutReach_symm {g : Graph} {a b : String} (h : MutReach g a b) :
    MutReach g b a := ⟨h.2, h.1⟩

/-- A predicate closed under edges swallows every walk from a member. -/
theorem walk_mem_closedP {g : Graph} {S : String → Prop}
    (hcl : ∀ x, S x → ∀ y ∈ g.adj x, S y) :
    ∀ {l : List String} {a b : String}, Walk g a l b → S a → S b := by
  intro l
  induction l with
  | nil =>
    intro a b h ha
    exact (show a = b from h) ▸ ha
  | cons x xs ih =>
    intro a b h ha
    exact ih h.2 (hcl a ha x h.1)

def Indexed (s : TJState) (x : String) : Prop := mapHas s.indices x = true

def idxOf (s : TJState) (x : String) : Nat := mapGet s.indices x

def lowOf (s : TJState) (x : String) : Nat := mapGet s.lowLinks x

def Emitted (s : TJState) (x : String) : Prop := ∃ c ∈ s.sccs, x ∈ c

/-- The structural invariant of the Tarjan state, maintained by every call:
indices are bounded by the counter and assigned to listed nodes; `onStack`
mirrors the stack; every indexed node is on the stack or in an emitted
SCC, never both; emitted SCCs are disjoint, nonempty, duplicate-free node
sets that are pairwise mutually reachable, closed under mutual
reachability, and closed under outgoing edges. -/
structure TJInv (g : Graph) (s : TJState) : Prop where
  idx_lt : ∀ x, Indexed s x → idxOf s x < s.index
  idx_nodes : ∀ x, Indexed s x → x ∈ g.nodes
  stack_idx : ∀ x ∈ s.stack, Indexed s x
  stack_nodup : s.stack.Nodup
  on_iff : ∀ x, x ∈ s.onStack ↔ x ∈ s.stack
  part : ∀ x, Indexed s x ↔ (x ∈ s.stack ∨ Emitted s x)
  no_both : ∀ x, x ∈ s.stack → ¬ Emitted s x
  scc_disj : s.sccs.Pairwise (fun c1 c2 => ∀ x ∈ c1, ¬ x ∈ c2)
  scc_ne : ∀ c ∈ s.sccs, c ≠ []
  scc_nodup : ∀ c ∈ s.sccs, c.Nodup
  scc_mut : ∀ c ∈ s.sccs, ∀ a ∈ c, ∀ b ∈ c, MutReach g a b
  scc_closed : ∀ c ∈ s.sccs, ∀ a ∈ c, ∀ b, MutReach g a b → b ∈ c
  em_closed : ∀ u, Emitted s u → ∀ v ∈ g.adj u, Emitted s v

theorem foldl_setDel_mem :
    ∀ (popped onStack : List String) (x : String),
      x ∈ popped.foldl setDel onStack ↔ x ∈ onStack ∧ ¬ x ∈ popped := by
  intro popped
  induction popped with
  | nil =>
    intro onStack x
    simp
  | cons y ys ih =>
    intro onStack x
    rw [List.foldl_cons, ih, mem_setDel]
    simp only [List.mem_cons]
    constructor
    · rintro ⟨⟨h1, h2⟩, h3⟩
      exact ⟨h1, fun hc => hc.elim h2 h3⟩
    · rintro ⟨h1, h2⟩
      exact ⟨⟨h1, fun hc => h2 (Or.inl hc)⟩, fun hc => h2 (Or.inr hc)⟩

/-- The pop loop removes exactly the stack prefix through the first
occurrence of `node`, deletes it from `onStack` and appends it to the
SCC being built, in pop order. -/
theorem tjPopLoop_eq (node : String) :
    ∀ (extp : List String) (rest onStack scc : List String), node ∉ extp →
      tjPopLoop node (extp ++ node :: rest).length (extp ++ node :: rest)
        onStack scc =
        (rest, (extp ++ [node]).foldl setDel onStack,
          scc ++ (extp ++ [node])) := by
  intro extp
  induction extp with
  | nil =>
    intro rest onStack scc _
    rw [List.nil_append, List.length_cons]
    rw [tjPopLoop]
    rw [if_pos (by simp)]
    simp
  | cons x extp ih =>
    intro rest onStack scc hnm
    have hxn : x ≠ node := fun he => hnm (he ▸ List.mem_cons_self ..)
    rw [List.cons_append, List.length_cons]
    rw [tjPopLoop]
    rw [if_neg (by simpa using hxn)]
    rw [ih rest (setDel onStack x) (scc ++ [x])
      (fun hc => hnm (List.mem_cons_of_mem _ hc))]
    simp [List.append_assoc]

/-- Lowlink updates leave every structural invariant intact (none of the
`TJInv` fields mentions `lowLinks`). -/
theorem TJInv.lowSet {g : Graph} {s : TJState} (h : TJInv g s)
    (m : List (String × Nat)) : TJInv g { s with lowLinks := m } :=
  ⟨h.idx_lt, h.idx_nodes, h.stack_idx, h.stack_nodup, h.on_iff, h.part,
    h.no_both, h.scc_disj, h.scc_ne, h.scc_nodup, h.scc_mut, h.scc_closed,
    h.em_closed⟩

/-- What one completed `strongConnect(node)` call guarantees, relating the
entry state `s` to the result `s'`. -/
structure SCPost (g : Graph) (s : TJState) (node : String) (s' : TJState) :
    Prop where
  inv : TJInv g s'
  idx_pres : ∀ x, Indexed s x → Indexed s' x ∧ idxOf s' x = idxOf s x
  low_pres : ∀ x, Indexed s x → lowOf s' x = lowOf s x
  node_idx : Indexed s' node
  node_idx_val : idxOf s' node = s.index
  index_gt : s.index < s'.index
  new_ge : ∀ x, Indexed s' x → Indexed s x ∨ s.index ≤ idxOf s' x
  new_reach : ∀ x, Indexed s' x → Indexed s x ∨ ReachStar g node x
  new_scanned : ∀ x, Indexed s' x → ¬ Indexed s x →
      ∀ v ∈ g.adj x, Indexed s' v
  stack_ext : ∃ ext, s'.stack = ext ++ s.stack ∧
      (∀ x ∈ ext, ¬ Indexed s x) ∧ (∀ x ∈ ext, ReachStar g x node)
  dich : (s'.stack = s.stack ∧ Emitted s' node ∧ lowOf s' node = s.index) ∨
      (node ∈ s'.stack ∧ lowOf s' node < s.index ∧
        (∃ z ∈ s.stack, ReachStar g node z ∧ idxOf s' z = lowOf s' node) ∧
        (∀ u, Indexed s' u → ¬ Indexed s u → ∀ v ∈ g.adj u, v ∈ s.stack →
          lowOf s' node ≤ idxOf s' v))

/-- Loop invariant of `tjLoop` for the call on `node` with pre-push entry
state `s0`: `sm` is the state at the start of a loop iteration. -/
structure TJLoopInv (g : Graph) (s0 : TJState) (node : String)
    (sm : TJState) : Prop where
  inv : TJInv g sm
  stack_shape : ∃ extp, sm.stack = extp ++ node :: s0.stack ∧
      ∀ x ∈ extp, ¬ Indexed s0 x
  idx_pres : ∀ x, Indexed s0 x → Indexed sm x ∧ idxOf sm x = idxOf s0 x
  low_pres : ∀ x, Indexed s0 x → lowOf sm x = lowOf s0 x
  node_idx : Indexed sm node
  node_idx_val : idxOf sm node = s0.index
  index_gt : s0.index < sm.index
  new_ge : ∀ x, Indexed sm x → Indexed s0 x ∨ s0.index ≤ idxOf sm x
  new_reach : ∀ x, Indexed sm x → Indexed s0 x ∨ ReachStar g node x
  new_scanned : ∀ x, Indexed sm x → ¬ Indexed s0 x → x ≠ node →
      ∀ v ∈ g.adj x, Indexed sm v
  ext_reach : ∀ x ∈ sm.stack, ReachStar g x node
  low_le : lowOf sm node ≤ s0.index
  low_wit : lowOf sm node = s0.index ∨
      ∃ z ∈ s0.stack, ReachStar g node z ∧ idxOf sm z = lowOf sm node
  lb : ∀ u, Indexed sm u → ¬ Indexed s0 u → u ≠ node →
      ∀ v ∈ g.adj u, v ∈ s0.stack → lowOf sm node ≤ idxOf sm v

theorem tjLoop_spec (g : Graph) (hwf : Wf g) (fuel : Nat)
    (scSpec : ∀ n s, TJInv g s → n ∈ g.nodes → ¬ Indexed s n →
      (∀ a ∈ s.stack, ReachStar g a n) →
      unvis g (keysOf s.indices) ≤ fuel →
      SCPost g s n (strongConnect g fuel n s))
    (s0 : TJState) (node : String) (hinv0 : TJInv g s0)
    (hni : ¬ Indexed s0 node) :
    ∀ (ws : List String) (sm : TJState),
      (∀ w ∈ ws, w ∈ g.adj node) →
      TJLoopInv g s0 node sm →
      unvis g (keysOf sm.indices) ≤ fuel →
      TJLoopInv g s0 node (tjLoop g (strongConnect g fuel) node ws sm) ∧
        lowOf (tjLoop g (strongConnect g fuel) node ws sm) node ≤
          lowOf sm node ∧
        (∀ x, Indexed sm x →
          Indexed (tjLoop g (strongConnect g fuel) node ws sm) x) ∧
        (∀ v ∈ ws, v ∈ s0.stack →
          lowOf (tjLoop g (strongConnect g fuel) node ws sm) node ≤
            idxOf (tjLoop g (strongConnect g fuel) node ws sm) v) ∧
        (∀ v ∈ ws, Indexed (tjLoop g (strongConnect g fuel) node ws sm) v)
    := by
  intro ws
  induction ws with
  | nil =>
    intro sm _hws hli _hfuel
    rw [tjLoop]
    exact ⟨hli, le_refl _, fun x hx => hx,
      fun v hv => absurd hv (List.not_mem_nil v),
      fun v hv => absurd hv (List.not_mem_nil v)⟩
  | cons w ws ih =>
    intro sm hws hli hfuel
    have hwadj : w ∈ g.adj node := hws w (List.mem_cons_self ..)
    have hws' : ∀ x ∈ ws, x ∈ g.adj node :=
      fun x hx => hws x (List.mem_cons_of_mem _ hx)
    have hwnode : w ∈ g.nodes := (hwf node w hwadj).2
    obtain ⟨extp, hshape, hextp⟩ := hli.stack_shape
    rw [tjLoop]
    by_cases hw : mapHas sm.indices w = true
    · -- `w` already indexed
      rw [if_neg (fun hc => hc hw)]
      by_cases hon : w ∈ sm.onStack
      · -- back/cross edge into the stack: take the min with `idx w`
        rw [if_pos hon]
        set lownew := min (mapGet sm.lowLinks node) (mapGet sm.indices w)
          with hlownew
        set s2 : TJState :=
          { sm with lowLinks := mapSet sm.lowLinks node lownew } with hs2
        have hlow2 : lowOf s2 node = lownew := mapGet_set_self _ _ _
        have hlow2o : ∀ x, x ≠ node → lowOf s2 x = lowOf sm x :=
          fun x hx => mapGet_set_other _ _ _ _ hx
        have hbr1 : lowOf sm node = mapGet sm.lowLinks node := rfl
        have hbr2 : idxOf sm w = mapGet sm.indices w := rfl
        have hle2 : lowOf s2 node ≤ lowOf sm node := by
          rw [hlow2, hlownew]
          exact min_le_left _ _
        have hli2 : TJLoopInv g s0 node s2 := by
          refine ⟨hli.inv.lowSet _, ⟨extp, hshape, hextp⟩, hli.idx_pres,
            ?_, hli.node_idx, hli.node_idx_val, hli.index_gt, hli.new_ge,
            hli.new_reach, hli.new_scanned, hli.ext_reach,
            le_trans hle2 hli.low_le, ?_, ?_⟩
          · intro x hx
            rw [hlow2o x (fun he => hni (he ▸ hx))]
            exact hli.low_pres x hx
          · by_cases hlt : idxOf sm w < lowOf sm node
            · refine Or.inr ?_
              have hval : lowOf s2 node = idxOf sm w := by
                rw [hlow2, hlownew]
                exact min_eq_right (le_of_lt hlt)
              have hw0 : Indexed s0 w := by
                rcases hli.new_ge w hw with h | h
                · exact h
                · exfalso
                  have := hli.low_le
                  omega
              have hwstack : w ∈ s0.stack := by
                have hmem : w ∈ sm.stack := (hli.inv.on_iff w).mp hon
                rw [hshape] at hmem
                rcases List.mem_append.mp hmem with h | h
                · exact absurd hw0 (hextp w h)
                · rcases List.mem_cons.mp h with he | hm
                  · exact absurd (he ▸ hw0) hni
                  · exact hm
              exact ⟨w, hwstack, reachStar_of_adj hwadj,
                by rw [hval]; rfl⟩
            · have hval : lowOf s2 node = lowOf sm node := by
                rw [hlow2, hlownew]
                exact min_eq_left (by omega)
              rw [hval]
              rcases hli.low_wit with h | ⟨z, hz, hzr, hzi⟩
              · exact Or.inl h
              · exact Or.inr ⟨z, hz, hzr, hzi⟩
          · intro u hu hu0 hun v hv hv0
            have hiv : idxOf s2 v = idxOf sm v := rfl
            rw [hiv]
            exact le_trans hle2 (hli.lb u hu hu0 hun v hv hv0)
        obtain ⟨hliF, hlowF, hmonoF, hwsF, hwsiF⟩ :=
          ih s2 hws' hli2 hfuel
        refine ⟨hliF, le_trans hlowF hle2, hmonoF, ?_, ?_⟩
        · intro v hv hv0
          rcases List.mem_cons.mp hv with he | hm
          · -- v = w: the min just taken bounds the final lowlink
            subst he
            have hidx : idxOf (tjLoop g (strongConnect g fuel) node ws s2)
                v = idxOf sm v := by
              have h1 := (hliF.idx_pres v (hinv0.stack_idx v hv0)).2
              have h2 := (hli.idx_pres v (hinv0.stack_idx v hv0)).2
              rw [h1, h2]
            rw [hidx]
            have : lowOf s2 node ≤ idxOf sm v := by
              rw [hlow2, hlownew]
              exact min_le_right _ _
            exact le_trans hlowF this
          · exact hwsF v hm hv0
        · intro v hv
          rcases List.mem_cons.mp hv with he | hm
          · exact he ▸ hmonoF w hw
          · exact hwsiF v hm
      · -- finished neighbor: skip
        rw [if_neg hon]
        obtain ⟨hliF, hlowF, hmonoF, hwsF, hwsiF⟩ := ih sm hws' hli hfuel
        refine ⟨hliF, hlowF, hmonoF, ?_, ?_⟩
        · intro v hv hv0
          rcases List.mem_cons.mp hv with he | hm
          · exfalso
            subst he
            have : v ∈ sm.stack := by
              rw [hshape]
              exact List.mem_append_right _ (List.mem_cons_of_mem _ hv0)
            exact hon ((hli.inv.on_iff v).mpr this)
          · exact hwsF v hm hv0
        · intro v hv
          rcases List.mem_cons.mp hv with he | hm
          · exact he ▸ hmonoF w hw
          · exact hwsiF v hm
    · -- tree edge: recurse into `w`, then take the min with its lowlink
      rw [if_pos hw]
      have hsr : ∀ a ∈ sm.stack, ReachStar g a w :=
        fun a ha => reachStar_trans (hli.ext_reach a ha)
          (reachStar_of_adj hwadj)
      have post := scSpec w sm hli.inv hwnode hw hsr hfuel
      set s1' := strongConnect g fuel w sm with hs1'
      set lownew := min (mapGet s1'.lowLinks node) (mapGet s1'.lowLinks w)
        with hlownew
      set s2' : TJState :=
        { s1' with lowLinks := mapSet s1'.lowLinks node lownew } with hs2'
      have hlown : lowOf s1' node = lowOf sm node :=
        post.low_pres node hli.node_idx
      have hlow2 : lowOf s2' node = lownew := mapGet_set_self _ _ _
      have hlow2o : ∀ x, x ≠ node → lowOf s2' x = lowOf s1' x :=
        fun x hx => mapGet_set_other _ _ _ _ hx
      have hbr1 : lowOf s1' node = mapGet s1'.lowLinks node := rfl
      have hbr2 : lowOf s1' w = mapGet s1'.lowLinks w := rfl
      have hle2 : lowOf s2' node ≤ lowOf sm node := by
        rw [hlow2, hlownew, ← hlown]
        exact min_le_left _ _
      have hidx2 : ∀ x, idxOf s2' x = idxOf s1' x := fun x => rfl
      have hmem0 : ∀ x, Indexed s0 x → Indexed sm x :=
        fun x hx => (hli.idx_pres x hx).1
      have hmem1 : ∀ x, Indexed sm x → Indexed s1' x :=
        fun x hx => (post.idx_pres x hx).1
      have hind2 : ∀ x, Indexed s2' x ↔ Indexed s1' x := fun x => Iff.rfl
      have hli2 : TJLoopInv g s0 node s2' := by
        obtain ⟨extw, hshw, hextw1, hextw2⟩ := post.stack_ext
        refine ⟨post.inv.lowSet _, ?_, ?_, ?_, ?_, ?_, ?_, ?_, ?_, ?_, ?_,
          ?_, ?_, ?_⟩
        · -- stack shape
          refine ⟨extw ++ extp, ?_, ?_⟩
          · show s1'.stack = (extw ++ extp) ++ node :: s0.stack
            rw [hshw, hshape, List.append_assoc]
          · intro x hx
            rcases List.mem_append.mp hx with h | h
            · exact fun hc => hextw1 x h (hmem0 x hc)
            · exact hextp x h
        · intro x hx
          obtain ⟨h1, h2⟩ := hli.idx_pres x hx
          obtain ⟨h3, h4⟩ := post.idx_pres x h1
          exact ⟨h3, by rw [hidx2, h4, h2]⟩
        · intro x hx
          have hxn : x ≠ node := fun he => hni (he ▸ hx)
          rw [hlow2o x hxn, post.low_pres x (hmem0 x hx)]
          exact hli.low_pres x hx
        · exact hmem1 node hli.node_idx
        · rw [hidx2, (post.idx_pres node hli.node_idx).2]
          exact hli.node_idx_val
        · exact lt_trans hli.index_gt post.index_gt
        · intro x hx
          rcases post.new_ge x hx with h | h
          · rcases hli.new_ge x h with h1 | h1
            · exact Or.inl h1
            · refine Or.inr ?_
              rw [hidx2, (post.idx_pres x h).2]
              exact h1
          · refine Or.inr ?_
            rw [hidx2]
            have := hli.index_gt
            omega
        · intro x hx
          rcases post.new_reach x hx with h | h
          · exact hli.new_reach x h
          · exact Or.inr (reachStar_trans (reachStar_of_adj hwadj) h)
        · intro x hx hx0 hxn v hv
          by_cases hxm : Indexed sm x
          · exact hmem1 v (hli.new_scanned x hxm hx0 hxn v hv)
          · exact post.new_scanned x hx hxm v hv
        · intro x hx
          rcases post.dich with ⟨hst, -, -⟩ | ⟨-, -, ⟨z, hz, hzr, -⟩, -⟩
          · show ReachStar g x node
            have : x ∈ sm.stack := by
              have hx' : x ∈ s1'.stack := hx
              rw [hst] at hx'
              exact hx'
            exact hli.ext_reach x this
          · have hx' : x ∈ s1'.stack := hx
            rw [hshw] at hx'
            rcases List.mem_append.mp hx' with h | h
            · exact reachStar_trans (hextw2 x h)
                (reachStar_trans hzr (hli.ext_reach z hz))
            · exact hli.ext_reach x h
        · exact le_trans hle2 hli.low_le
        · by_cases hlt : lowOf s1' w < lowOf sm node
          · refine Or.inr ?_
            have hval : lowOf s2' node = lowOf s1' w := by
              rw [hlow2, hlownew]
              exact min_eq_right (by omega)
            rcases post.dich with ⟨-, -, hlw⟩ | ⟨-, hwlt, ⟨z, hz, hzr, hzi⟩, -⟩
            · exfalso
              have h1 := hli.low_le
              have h2 := hli.index_gt
              omega
            · have hz0 : Indexed s0 z := by
                have hzsm : Indexed sm z := hli.inv.stack_idx z hz
                rcases hli.new_ge z hzsm with h | h
                · exact h
                · exfalso
                  have h3 : idxOf s1' z = idxOf sm z :=
                    (post.idx_pres z hzsm).2
                  have h4 := hli.low_le
                  omega
              have hzs0 : z ∈ s0.stack := by
                rw [hshape] at hz
                rcases List.mem_append.mp hz with h | h
                · exact absurd hz0 (hextp z h)
                · rcases List.mem_cons.mp h with he | hm
                  · exact absurd (he ▸ hz0) hni
                  · exact hm
              refine ⟨z, hzs0, reachStar_trans (reachStar_of_adj hwadj) hzr,
                ?_⟩
              rw [hidx2, hzi, hval]
          · have hval : lowOf s2' node = lowOf sm node := by
              rw [hlow2, hlownew, ← hlown]
              exact min_eq_left (by omega)
            rw [hval]
            rcases hli.low_wit with h | ⟨z, hz, hzr, hzi⟩
            · exact Or.inl h
            · refine Or.inr ⟨z, hz, hzr, ?_⟩
              rw [hidx2, (post.idx_pres z (hmem0 z
                (hinv0.stack_idx z hz))).2, hzi]
        · intro u hu hu0 hun v hv hv0
          have hvs0 : Indexed s0 v := hinv0.stack_idx v hv0
          have hvidx : idxOf s2' v = idxOf sm v := by
            rw [hidx2, (post.idx_pres v (hmem0 v hvs0)).2]
          rw [hvidx]
          by_cases hum : Indexed sm u
          · exact le_trans hle2 (hli.lb u hum hu0 hun v hv hv0)
          · rcases post.dich with ⟨hst, -, -⟩ | ⟨-, -, -, hlb⟩
            · exfalso
              have hue : Emitted s1' u := by
                rcases (post.inv.part u).mp hu with h | h
                · exfalso
                  rw [hst] at h
                  exact hum (hli.inv.stack_idx u h)
                · exact h
              have hve : Emitted s1' v := post.inv.em_closed u hue v hv
              have hvstack : v ∈ s1'.stack := by
                rw [hst, hshape]
                exact List.mem_append_right _ (List.mem_cons_of_mem _ hv0)
              exact post.inv.no_both v hvstack hve
            · have hvsm : v ∈ sm.stack := by
                rw [hshape]
                exact List.mem_append_right _ (List.mem_cons_of_mem _ hv0)
              have h1 := hlb u hu hum v hv hvsm
              have h2 : lowOf s2' node ≤ lowOf s1' w := by
                rw [hlow2, hlownew]
                exact min_le_right _ _
              have h3 : idxOf s1' v = idxOf sm v :=
                (post.idx_pres v (hmem0 v hvs0)).2
              omega
      have hfuel2 : unvis g (keysOf s2'.indices) ≤ fuel := by
        refine le_trans (unvis_mono ?_) hfuel
        intro x hx
        have : Indexed sm x := mapHas_iff.mpr hx
        exact mapHas_iff.mp (hmem1 x this)
      obtain ⟨hliF, hlowF, hmonoF, hwsF, hwsiF⟩ := ih s2' hws' hli2 hfuel2
      refine ⟨hliF, le_trans hlowF hle2, ?_, ?_, ?_⟩
      · exact fun x hx => hmonoF x (hmem1 x hx)
      · intro v hv hv0
        rcases List.mem_cons.mp hv with he | hm
        · exfalso
          subst he
          exact hw (hmem0 v (hinv0.stack_idx v hv0))
        · exact hwsF v hm hv0
      · intro v hv
        rcases List.mem_cons.mp hv with he | hm
        · subst he
          exact hmonoF v post.node_idx
        · exact hwsiF v hm

theorem strongConnect_spec (g : Graph) (hwf : Wf g) :
    ∀ (fuel : Nat) (node : String) (s : TJState),
      TJInv g s → node ∈ g.nodes → ¬ Indexed s node →
      (∀ a ∈ s.stack, ReachStar g a node) →
      unvis g (keysOf s.indices) ≤ fuel →
      SCPost g s node (strongConnect g fuel node s) := by
  intro fuel
  induction fuel with
  | zero =>
    intro node s _hinv hn hni _hsr hfuel
    exfalso
    have := @unvis_pos g (keysOf s.indices) node hn
      (fun hc => hni (mapHas_iff.mpr hc))
    omega
  | succ fuel ih =>
    intro node s hinv hn hni hsr hfuel
    -- the state after the five assignments at the head of `strongConnect`
    set s1v : TJState := { s with
      indices := mapSet s.indices node s.index,
      lowLinks := mapSet s.lowLinks node s.index,
      index := s.index + 1,
      stack := node :: s.stack,
      onStack := setAdd s.onStack node } with hs1v
    set s2v := tjLoop g (strongConnect g fuel) node (g.adj node) s1v
      with hs2v
    have key : strongConnect g (fuel + 1) node s =
        (if (mapGet s2v.lowLinks node == mapGet s2v.indices node) = true then
          { s2v with
            stack :=
              (tjPopLoop node s2v.stack.length s2v.stack s2v.onStack []).1,
            onStack :=
              (tjPopLoop node s2v.stack.length s2v.stack s2v.onStack []).2.1,
            sccs := s2v.sccs ++
              [(tjPopLoop node s2v.stack.length s2v.stack s2v.onStack
                  []).2.2] }
        else s2v) := rfl
    -- basic facts about the pushed state
    have hInd1 : ∀ x, Indexed s1v x ↔ x = node ∨ Indexed s x :=
      fun x => mapHas_set _ _ _ _
    have hIdx1n : idxOf s1v node = s.index := mapGet_set_self _ _ _
    have hIdx1o : ∀ x, x ≠ node → idxOf s1v x = idxOf s x :=
      fun x hx => mapGet_set_other _ _ _ _ hx
    have hLow1n : lowOf s1v node = s.index := mapGet_set_self _ _ _
    have hLow1o : ∀ x, x ≠ node → lowOf s1v x = lowOf s x :=
      fun x hx => mapGet_set_other _ _ _ _ hx
    have hnstack : node ∉ s.stack := fun hc => hni (hinv.stack_idx node hc)
    have hnem : ¬ Emitted s node :=
      fun hc => hni ((hinv.part node).mpr (Or.inr hc))
    have hinv1 : TJInv g s1v := by
      refine ⟨?_, ?_, ?_, ?_, ?_, ?_, ?_, hinv.scc_disj, hinv.scc_ne,
        hinv.scc_nodup, hinv.scc_mut, hinv.scc_closed, hinv.em_closed⟩
      · intro x hx
        rcases (hInd1 x).mp hx with he | hold
        · subst he
          rw [hIdx1n]
          exact Nat.lt_succ_self _
        · have hxn : x ≠ node := fun he => hni (he ▸ hold)
          rw [hIdx1o x hxn]
          exact Nat.lt_succ_of_lt (hinv.idx_lt x hold)
      · intro x hx
        rcases (hInd1 x).mp hx with he | hold
        · exact he ▸ hn
        · exact hinv.idx_nodes x hold
      · intro x hx
        rcases List.mem_cons.mp hx with he | hm
        · exact (hInd1 x).mpr (Or.inl he)
        · exact (hInd1 x).mpr (Or.inr (hinv.stack_idx x hm))
      · exact List.nodup_cons.mpr ⟨hnstack, hinv.stack_nodup⟩
      · intro x
        rw [show s1v.onStack = setAdd s.onStack node from rfl, mem_setAdd]
        rw [show s1v.stack = node :: s.stack from rfl, List.mem_cons]
        rw [hinv.on_iff x]
        tauto
      · intro x
        rw [hInd1 x, show s1v.stack = node :: s.stack from rfl,
          List.mem_cons]
        rw [show Emitted s1v x ↔ Emitted s x from Iff.rfl]
        rw [hinv.part x]
        tauto
      · intro x hx
        rcases List.mem_cons.mp hx with he | hm
        · exact he ▸ hnem
        · exact hinv.no_both x hm
    have hli1 : TJLoopInv g s node s1v := by
      refine ⟨hinv1, ⟨[], rfl, fun x hx => absurd hx (List.not_mem_nil x)⟩,
        ?_, ?_, ?_, hIdx1n, Nat.lt_succ_self _, ?_, ?_, ?_, ?_, ?_, ?_, ?_⟩
      · intro x hx
        have hxn : x ≠ node := fun he => hni (he ▸ hx)
        exact ⟨(hInd1 x).mpr (Or.inr hx), hIdx1o x hxn⟩
      · intro x hx
        have hxn : x ≠ node := fun he => hni (he ▸ hx)
        exact hLow1o x hxn
      · exact (hInd1 node).mpr (Or.inl rfl)
      · intro x hx
        rcases (hInd1 x).mp hx with he | hold
        · subst he
          rw [hIdx1n]
          exact Or.inr (le_refl _)
        · exact Or.inl hold
      · intro x hx
        rcases (hInd1 x).mp hx with he | hold
        · exact Or.inr (he ▸ reachStar_refl g x)
        · exact Or.inl hold
      · intro x hx hx0 hxn
        exfalso
        rcases (hInd1 x).mp hx with he | hold
        · exact hxn he
        · exact hx0 hold
      · intro x hx
        rcases List.mem_cons.mp hx with he | hm
        · exact he ▸ reachStar_refl g x
        · exact hsr x hm
      · rw [hLow1n]
      · exact Or.inl hLow1n
      · intro u hu hu0 hun
        exfalso
        rcases (hInd1 u).mp hu with he | hold
        · exact hun he
        · exact hu0 hold
    have hfuel1 : unvis g (keysOf s1v.indices) ≤ fuel := by
      have hlt := @unvis_lt g (keysOf s.indices)
        (keysOf s1v.indices) node hn
        (fun hc => hni (mapHas_iff.mpr hc))
        (fun x hx => mapHas_iff.mp
          ((hInd1 x).mpr (Or.inr (mapHas_iff.mpr hx))))
        (mapHas_iff.mp ((hInd1 node).mpr (Or.inl rfl)))
      omega
    obtain ⟨hliL, hlowL, hmonoL, hwsL, hwsiL⟩ :=
      tjLoop_spec g hwf fuel ih s node hinv hni (g.adj node) s1v
        (fun w hw => hw) hli1 hfuel1
    rw [← hs2v] at hliL hlowL hmonoL hwsL hwsiL
    obtain ⟨extp, hshape2, hextp2⟩ := hliL.stack_shape
    have hnodupS2 : (extp ++ node :: s.stack).Nodup := by
      rw [← hshape2]
      exact hliL.inv.stack_nodup
    have hdisj := (List.nodup_append.mp hnodupS2).2.2
    have hnm : node ∉ extp :=
      fun hc => hdisj hc (List.mem_cons_self ..)
    have hIdxPres : ∀ x, Indexed s x → Indexed s2v x ∧ idxOf s2v x = idxOf s x :=
      fun x hx =>
        ⟨(hliL.idx_pres x hx).1, (hliL.idx_pres x hx).2⟩
    have hScanAll : ∀ x, Indexed s2v x → ¬ Indexed s x →
        ∀ v ∈ g.adj x, Indexed s2v v := by
      intro x hx hx0 v hv
      by_cases hxn : x = node
      · exact hwsiL v (hxn ▸ hv)
      · exact hliL.new_scanned x hx hx0 hxn v hv
    rw [key]
    by_cases hbeq : (mapGet s2v.lowLinks node == mapGet s2v.indices node)
        = true
    · -- low(node) = idx(node): pop and emit the SCC `extp ++ [node]`
      rw [if_pos hbeq]
      have hloweq : lowOf s2v node = s.index := by
        have h1 : lowOf s2v node = idxOf s2v node := by
          have := (beq_iff_eq
            (a := mapGet s2v.lowLinks node)
            (b := mapGet s2v.indices node)).mp hbeq
          exact this
        rw [h1, hliL.node_idx_val]
      have hpop := tjPopLoop_eq node extp s.stack s2v.onStack [] hnm
      rw [← hshape2] at hpop
      rw [hpop]
      set S := extp ++ [node] with hS
      have hSmem : ∀ x, x ∈ S ↔ x ∈ extp ∨ x = node := by
        intro x
        rw [hS, List.mem_append, List.mem_singleton]
      have hSstack : ∀ x ∈ S, x ∈ s2v.stack := by
        intro x hx
        rw [hshape2]
        rcases (hSmem x).mp hx with h | h
        · exact List.mem_append_left _ h
        · exact List.mem_append_right _ (h ▸ List.mem_cons_self ..)
      have hSnew : ∀ x ∈ S, ¬ Indexed s x := by
        intro x hx
        rcases (hSmem x).mp hx with h | h
        · exact hextp2 x h
        · exact h ▸ hni
      have hSidx : ∀ x ∈ S, Indexed s2v x :=
        fun x hx => hliL.inv.stack_idx x (hSstack x hx)
      have hSreach : ∀ x ∈ S, ReachStar g x node :=
        fun x hx => hliL.ext_reach x (hSstack x hx)
      have hSreach' : ∀ x ∈ S, ReachStar g node x := by
        intro x hx
        rcases hliL.new_reach x (hSidx x hx) with h | h
        · exact absurd h (hSnew x hx)
        · exact h
      have hSdisj0 : ∀ x ∈ s.stack, ¬ x ∈ S := by
        intro x hx hc
        rcases (hSmem x).mp hc with h | h
        · exact hdisj h (List.mem_cons_of_mem _ hx)
        · exact hnstack (h ▸ hx)
      -- the final state after the pop
      set sF : TJState := { s2v with
        stack := s.stack,
        onStack := S.foldl setDel s2v.onStack,
        sccs := s2v.sccs ++ [[] ++ S] } with hsF
      have hEm : ∀ x, Emitted sF x ↔ Emitted s2v x ∨ x ∈ S := by
        intro x
        constructor
        · rintro ⟨c, hc, hxc⟩
          rcases List.mem_append.mp hc with h | h
          · exact Or.inl ⟨c, h, hxc⟩
          · rw [List.mem_singleton.mp h] at hxc
            exact Or.inr (by simpa using hxc)
        · rintro (⟨c, hc, hxc⟩ | h)
          · exact ⟨c, List.mem_append_left _ hc, hxc⟩
          · exact ⟨[] ++ S, List.mem_append_right _
              (List.mem_singleton.mpr rfl), by simpa using h⟩
      have hIndF : ∀ x, Indexed sF x ↔ Indexed s2v x := fun x => Iff.rfl
      -- edges out of the emitted set stay in the emitted set
      have hEmClosedF : ∀ u, Emitted sF u → ∀ v ∈ g.adj u, Emitted sF v := by
        intro u hu v hv
        rcases (hEm u).mp hu with hold | hS'
        · exact (hEm v).mpr (Or.inl (hliL.inv.em_closed u hold v hv))
        · have hvidx : Indexed s2v v :=
            hScanAll u (hSidx u hS') (hSnew u hS') v hv
          rcases (hliL.inv.part v).mp hvidx with hvs | hve
          · rw [hshape2] at hvs
            rcases List.mem_append.mp hvs with h | h
            · exact (hEm v).mpr (Or.inr ((hSmem v).mpr (Or.inl h)))
            · rcases List.mem_cons.mp h with he | hm
              · exact (hEm v).mpr (Or.inr ((hSmem v).mpr (Or.inr he)))
              · -- an edge from the popped SCC into the surviving stack
                -- would have forced `low(node) < idx(node)`
                exfalso
                have hvIdxs : Indexed s v := hinv.stack_idx v hm
                have hbound : lowOf s2v node ≤ idxOf s2v v := by
                  rcases (hSmem u).mp hS' with hue | hun
                  · exact hliL.lb u (hSidx u hS') (hextp2 u hue)
                      (fun he => hnm (he ▸ hue)) v hv hm
                  · exact hwsL v (hun ▸ hv) hm
                have hvlt : idxOf s2v v < s.index := by
                  rw [(hIdxPres v hvIdxs).2]
                  exact hinv.idx_lt v hvIdxs
                omega
          · exact (hEm v).mpr (Or.inl hve)
      have hinvF : TJInv g sF := by
        refine ⟨hliL.inv.idx_lt, hliL.inv.idx_nodes, ?_, hinv.stack_nodup,
          ?_, ?_, ?_, ?_, ?_, ?_, ?_, ?_, hEmClosedF⟩
        · intro x hx
          exact (hIdxPres x (hinv.stack_idx x hx)).1
        · intro x
          show x ∈ S.foldl setDel s2v.onStack ↔ x ∈ s.stack
          rw [foldl_setDel_mem, hliL.inv.on_iff x]
          constructor
          · rintro ⟨hx, hxS⟩
            rw [hshape2] at hx
            rcases List.mem_append.mp hx with h | h
            · exact absurd ((hSmem x).mpr (Or.inl h)) hxS
            · rcases List.mem_cons.mp h with he | hm
              · exact absurd ((hSmem x).mpr (Or.inr he)) hxS
              · exact hm
          · intro hx
            refine ⟨?_, hSdisj0 x hx⟩
            rw [hshape2]
            exact List.mem_append_right _ (List.mem_cons_of_mem _ hx)
        · intro x
          rw [show Indexed sF x ↔ Indexed s2v x from Iff.rfl,
            hliL.inv.part x, hEm x]
          constructor
          · rintro (hx | hx)
            · rw [hshape2] at hx
              rcases List.mem_append.mp hx with h | h
              · exact Or.inr (Or.inr ((hSmem x).mpr (Or.inl h)))
              · rcases List.mem_cons.mp h with he | hm
                · exact Or.inr (Or.inr ((hSmem x).mpr (Or.inr he)))
                · exact Or.inl hm
            · exact Or.inr (Or.inl hx)
          · rintro (hx | hx | hx)
            · refine Or.inl ?_
              rw [hshape2]
              exact List.mem_append_right _ (List.mem_cons_of_mem _ hx)
            · exact Or.inr hx
            · exact Or.inl (hSstack x hx)
        · intro x hx hc
          rcases (hEm x).mp hc with h | h
          · exact hliL.inv.no_both x (by
              rw [hshape2]
              exact List.mem_append_right _ (List.mem_cons_of_mem _ hx)) h
          · exact hSdisj0 x hx h
        · rw [show sF.sccs = s2v.sccs ++ [[] ++ S] from rfl]
          rw [List.pairwise_append]
          refine ⟨hliL.inv.scc_disj, List.pairwise_singleton _ _, ?_⟩
          intro c1 hc1 c2 hc2 x hx
          rw [List.mem_singleton.mp hc2]
          intro hc
          have hxe : Emitted s2v x := ⟨c1, hc1, hx⟩
          exact hliL.inv.no_both x (hSstack x (by simpa using hc)) hxe
        · intro c hc
          rcases List.mem_append.mp hc with h | h
          · exact hliL.inv.scc_ne c h
          · rw [List.mem_singleton.mp h]
            simp [hS]
        · intro c hc
          rcases List.mem_append.mp hc with h | h
          · exact hliL.inv.scc_nodup c h
          · rw [List.mem_singleton.mp h]
            refine List.Nodup.sublist ?_ hnodupS2
            show List.Sublist ([] ++ S) (extp ++ node :: s.stack)
            rw [List.nil_append, hS]
            exact List.Sublist.append_left
              (List.cons_sublist_cons.mpr (List.nil_sublist _)) extp
        · intro c hc a ha b hb
          rcases List.mem_append.mp hc with h | h
          · exact hliL.inv.scc_mut c h a ha b hb
          · rw [List.mem_singleton.mp h] at ha hb
            have ha' : a ∈ S := by simpa using ha
            have hb' : b ∈ S := by simpa using hb
            exact ⟨reachStar_trans (hSreach a ha') (hSreach' b hb'),
              reachStar_trans (hSreach b hb') (hSreach' a ha')⟩
        · intro c hc a ha b hmr
          rcases List.mem_append.mp hc with h | h
          · exact hliL.inv.scc_closed c h a ha b hmr
          · rw [List.mem_singleton.mp h] at ha ⊢
            have ha' : a ∈ S := by simpa using ha
            have haE : Emitted sF a := (hEm a).mpr (Or.inr ha')
            have hbE : Emitted sF b := by
              obtain ⟨l, hw⟩ := hmr.1
              exact walk_mem_closedP (S := Emitted sF) hEmClosedF hw haE
            rcases (hEm b).mp hbE with ⟨c0, hc0, hbc0⟩ | hbS
            · exfalso
              have : a ∈ c0 := hliL.inv.scc_closed c0 hc0 b hbc0 a
                (mutReach_symm hmr)
              exact hliL.inv.no_both a (hSstack a ha') ⟨c0, hc0, this⟩
            · simpa using hbS
      refine ⟨hinvF, ?_, ?_, hliL.node_idx, hliL.node_idx_val,
        hliL.index_gt, hliL.new_ge, hliL.new_reach, hScanAll,
        ⟨[], rfl, fun x hx => absurd hx (List.not_mem_nil x),
          fun x hx => absurd hx (List.not_mem_nil x)⟩, ?_⟩
      · exact fun x hx => hIdxPres x hx
      · intro x hx
        show lowOf s2v x = lowOf s x
        exact hliL.low_pres x hx
      · refine Or.inl ⟨rfl, ?_, ?_⟩
        · exact (hEm node).mpr (Or.inr ((hSmem node).mpr (Or.inr rfl)))
        · show lowOf s2v node = s.index
          exact hloweq
    · -- low(node) < idx(node): `node` stays on the stack
      rw [if_neg hbeq]
      have hlowlt : lowOf s2v node < s.index := by
        have hne : lowOf s2v node ≠ idxOf s2v node := by
          intro he
          exact hbeq ((beq_iff_eq
            (a := mapGet s2v.lowLinks node)
            (b := mapGet s2v.indices node)).mpr he)
        have h1 := hliL.low_le
        have h2 := hliL.node_idx_val
        omega
      refine ⟨hliL.inv, fun x hx => hIdxPres x hx, hliL.low_pres,
        hliL.node_idx, hliL.node_idx_val, hliL.index_gt, hliL.new_ge,
        hliL.new_reach, hScanAll, ?_, ?_⟩
      · refine ⟨extp ++ [node], ?_, ?_, ?_⟩
        · rw [hshape2, List.append_assoc, List.singleton_append]
        · intro x hx
          rcases List.mem_append.mp hx with h | h
          · exact hextp2 x h
          · exact (List.mem_singleton.mp h) ▸ hni
        · intro x hx
          refine hliL.ext_reach x ?_
          rw [hshape2]
          rcases List.mem_append.mp hx with h | h
          · exact List.mem_append_left _ h
          · exact List.mem_append_right _
              ((List.mem_singleton.mp h) ▸ List.mem_cons_self ..)
      · refine Or.inr ⟨?_, hlowlt, ?_, ?_⟩
        · rw [hshape2]
          exact List.mem_append_right _ (List.mem_cons_self ..)
        · rcases hliL.low_wit with h | hwit
          · exfalso
            omega
          · exact hwit
        · intro u hu hu0 v hv hv0
          by_cases hun : u = node
          · exact hwsL v (hun ▸ hv) hv0
          · exact hliL.lb u hu hu0 hun v hv hv0

theorem tjOuter_spec (g : Graph) (hwf : Wf g) (fuel : Nat) :
    ∀ (ns : List String) (s : TJState),
      (∀ n ∈ ns, n ∈ g.nodes) →
      TJInv g s →
      s.stack = [] →
      unvis g (keysOf s.indices) ≤ fuel →
      TJInv g (tjOuter g fuel ns s) ∧
        (tjOuter g fuel ns s).stack = [] ∧
        (∀ x, Indexed s x → Indexed (tjOuter g fuel ns s) x) ∧
        (∀ n ∈ ns, Indexed (tjOuter g fuel ns s) n) := by
  intro ns
  induction ns with
  | nil =>
    intro s _ hinv hstk _
    exact ⟨hinv, hstk, fun x hx => hx,
      fun n hn => absurd hn (List.not_mem_nil n)⟩
  | cons n ns ih =>
    intro s hns hinv hstk hfuel
    have hnn : n ∈ g.nodes := hns n (List.mem_cons_self ..)
    have hns' : ∀ x ∈ ns, x ∈ g.nodes :=
      fun x hx => hns x (List.mem_cons_of_mem _ hx)
    rw [tjOuter]
    by_cases hn : mapHas s.indices n = true
    · rw [if_neg (fun hc => hc hn)]
      obtain ⟨h1, h2, h3, h4⟩ := ih s hns' hinv hstk hfuel
      refine ⟨h1, h2, h3, ?_⟩
      intro x hx
      rcases List.mem_cons.mp hx with he | hm
      · exact he ▸ h3 n hn
      · exact h4 x hm
    · rw [if_pos hn]
      have post := strongConnect_spec g hwf fuel n s hinv hnn hn
        (by
          rw [hstk]
          exact fun a ha => absurd ha (List.not_mem_nil a))
        hfuel
      have hstk' : (strongConnect g fuel n s).stack = [] := by
        rcases post.dich with ⟨h, -, -⟩ | ⟨-, -, ⟨z, hz, -, -⟩, -⟩
        · rw [h, hstk]
        · rw [hstk] at hz
          exact absurd hz (List.not_mem_nil z)
      have hfuel' : unvis g (keysOf (strongConnect g fuel n s).indices) ≤
          fuel := by
        refine le_trans (unvis_mono ?_) hfuel
        intro x hx
        exact mapHas_iff.mp
          ((post.idx_pres x (mapHas_iff.mpr hx)).1)
      obtain ⟨h1, h2, h3, h4⟩ :=
        ih (strongConnect g fuel n s) hns' post.inv hstk' hfuel'
      refine ⟨h1, h2, ?_, ?_⟩
      · exact fun x hx => h3 x (post.idx_pres x hx).1
      · intro x hx
        rcases List.mem_cons.mp hx with he | hm
        · exact he ▸ h3 n post.node_idx
        · exact h4 x hm

theorem TJInv.start (g : Graph) : TJInv g ⟨[], [], [], [], [], 0⟩ := by
  refine ⟨?_, ?_, ?_, List.nodup_nil, ?_, ?_, ?_, List.Pairwise.nil,
    ?_, ?_, ?_, ?_, ?_⟩
  · intro x hx
    exact (nomatch hx)
  · intro x hx
    exact (nomatch hx)
  · intro x hx
    exact absurd hx (List.not_mem_nil x)
  · intro x
    exact ⟨fun h => absurd h (List.not_mem_nil x),
      fun h => absurd h (List.not_mem_nil x)⟩
  · intro x
    constructor
    · intro h
      exact (nomatch h)
    · rintro (h | ⟨c, hc, -⟩)
      · exact absurd h (List.not_mem_nil x)
      · exact absurd hc (List.not_mem_nil c)
  · rintro x - ⟨c, hc, -⟩
    exact absurd hc (List.not_mem_nil c)
  · rintro c hc
    exact absurd hc (List.not_mem_nil c)
  · rintro c hc
    exact absurd hc (List.not_mem_nil c)
  · rintro c hc
    exact absurd hc (List.not_mem_nil c)
  · rintro c hc
    exact absurd hc (List.not_mem_nil c)
  · rintro u ⟨c, hc, -⟩
    exact absurd hc (List.not_mem_nil c)

/-- C5: for every well-formed WFG, `detectDeadlockTarjan` returns exactly
the strongly connected components: every listed SCC is a nonempty,
duplicate-free set of listed nodes that is pairwise mutually reachable and
closed under mutual reachability (i.e. a full SCC, not a fragment); every
listed node occurs in one of them; distinct listed SCCs are disjoint (so
each node is in exactly one); and `deadlocks` is exactly the sublist of
SCCs of size greater than one. -/
theorem C5_tarjan_correct (g : Graph) (hwf : Wf g) :
    ((detectDeadlockTarjan g).deadlocks =
      (detectDeadlockTarjan g).sccs.filter
        (fun scc => decide (1 < scc.length))) ∧
    (∀ c ∈ (detectDeadlockTarjan g).sccs, c ≠ [] ∧ c.Nodup ∧
      (∀ a ∈ c, a ∈ g.nodes) ∧
      (∀ a ∈ c, ∀ b ∈ c, MutReach g a b) ∧
      (∀ a ∈ c, ∀ b, MutReach g a b → b ∈ c)) ∧
    (∀ x ∈ g.nodes, ∃ c ∈ (detectDeadlockTarjan g).sccs, x ∈ c) ∧
    ((detectDeadlockTarjan g).sccs.Pairwise
      (fun c1 c2 => ∀ x ∈ c1, ¬ x ∈ c2)) := by
  obtain ⟨hinv, hstk, -, hall⟩ := tjOuter_spec g hwf (g.nodes.length + 1)
    g.nodes ⟨[], [], [], [], [], 0⟩ (fun n hn => hn) (TJInv.start g) rfl
    (by
      have h1 : unvis g (keysOf
          (⟨[], [], [], [], [], 0⟩ : TJState).indices) ≤
          g.nodes.length := unvis_init_le g
      omega)
  set sf := tjOuter g (g.nodes.length + 1) g.nodes ⟨[], [], [], [], [], 0⟩
    with hsf
  have hsccs : (detectDeadlockTarjan g).sccs = sf.sccs := rfl
  refine ⟨rfl, ?_, ?_, ?_⟩
  · intro c hc
    rw [hsccs] at hc
    refine ⟨hinv.scc_ne c hc, hinv.scc_nodup c hc, ?_,
      hinv.scc_mut c hc, hinv.scc_closed c hc⟩
    intro a ha
    exact hinv.idx_nodes a ((hinv.part a).mpr (Or.inr ⟨c, hc, ha⟩))
  · intro x hx
    have hidx : Indexed sf x := hall x hx
    rcases (hinv.part x).mp hidx with h | ⟨c, hc, hxc⟩
    · rw [hstk] at h
      exact absurd h (List.not_mem_nil x)
    · exact ⟨c, by rw [hsccs]; exact hc, hxc⟩
  · rw [hsccs]
    exact hinv.scc_disj

/-- Triangle `T1 → T2 → T3 → T1` plus the isolated `T4`, for the C5
witness. -/
def c5g : Graph :=
  Graph.ofAssoc [("T1", ["T2"]), ("T2", ["T3"]), ("T3", ["T1"]), ("T4", [])]

theorem C5_witness :
    Wf c5g ∧
      (detectDeadlockTarjan c5g).sccs = [["T3", "T2", "T1"], ["T4"]] ∧
      (detectDeadlockTarjan c5g).deadlocks = [["T3", "T2", "T1"]] ∧
      (∀ x ∈ c5g.nodes, ∃ c ∈ (detectDeadlockTarjan c5g).sccs, x ∈ c) ∧
      (∀ c ∈ (detectDeadlockTarjan c5g).sccs, ∀ a ∈ c, ∀ b ∈ c,
        MutReach c5g a b) :=
  ⟨ofAssoc_wf _ (by decide), by decide, by decide,
    (C5_tarjan_correct c5g (ofAssoc_wf _ (by decide))).2.2.1,
    fun c hc a ha b hb =>
      ((C5_tarjan_correct c5g (ofAssoc_wf _ (by decide))).2.1 c
        hc).2.2.2.1 a ha b hb⟩

end CGT
